import Mathlib

/-!
# Market data handler: parser, SPSC ring, order book and latency stats

A shallow embedding of `src/market_data.h`, `src/message_parser.{h,cpp}`,
`src/ring_buffer.h`, `src/order_book.{h,cpp}` and `src/utils/stats.h`, followed
by theorems about them.

Machine integers are natural numbers; every operation that can wrap in the
C++ source carries its modulus explicitly (`2^32 = 4294967296` for
`uint32_t`, `2^64 = 18446744073709551616` for `uint64_t`).
-/

namespace market

/-! ## market_data.h -/

/-- Enumerator `MSG_QUOTE = 1` of `enum MessageType : uint16_t`. -/
def MSG_QUOTE : Nat := 1
/-- Enumerator `MSG_TRADE = 2`. -/
def MSG_TRADE : Nat := 2
/-- Enumerator `MSG_ORDER_ADD = 3`. -/
def MSG_ORDER_ADD : Nat := 3
/-- Enumerator `MSG_ORDER_CANCEL = 4`. -/
def MSG_ORDER_CANCEL : Nat := 4

/-- Width in octets of `uint16_t`. -/
def sizeof_uint16_t : Nat := 2
/-- Width in octets of `uint32_t`. -/
def sizeof_uint32_t : Nat := 4
/-- Width in octets of `uint64_t`. -/
def sizeof_uint64_t : Nat := 8
/-- Width in octets of `int64_t`. -/
def sizeof_int64_t : Nat := 8
/-- Width in octets of `char`. -/
def sizeof_char : Nat := 1

/-- Size of a struct declared under `#pragma pack(push, 1)`: the members are
laid out back to back with no padding, so the size is the sum of the member
widths, in declaration order. -/
def packed_sizeof (members : List Nat) : Nat := members.sum

/-- Members of `struct MessageHeader`: `msg_type`, `msg_len`, `sequence_num`,
`timestamp_ns`. -/
def MessageHeader_members : List Nat :=
  [sizeof_uint16_t, sizeof_uint16_t, sizeof_uint32_t, sizeof_uint64_t]

/-- The value of `sizeof(MessageHeader)`. -/
def sizeof_MessageHeader : Nat := packed_sizeof MessageHeader_members

/-- Members of `struct Quote`: `header`, `symbol_id`, `bid_price`, `ask_price`,
`bid_size`, `ask_size`. -/
def Quote_members : List Nat :=
  [sizeof_MessageHeader, sizeof_uint32_t, sizeof_int64_t, sizeof_int64_t,
   sizeof_uint32_t, sizeof_uint32_t]

/-- Members of `struct Trade`: `header`, `symbol_id`, `price`, `size`, `side`,
`padding[3]`. -/
def Trade_members : List Nat :=
  [sizeof_MessageHeader, sizeof_uint32_t, sizeof_int64_t, sizeof_uint32_t,
   sizeof_char, 3 * sizeof_char]

/-- Members of `struct OrderAdd`: `header`, `order_id`, `symbol_id`, `price`,
`size`, `side`, `padding[3]`. -/
def OrderAdd_members : List Nat :=
  [sizeof_MessageHeader, sizeof_uint64_t, sizeof_uint32_t, sizeof_int64_t,
   sizeof_uint32_t, sizeof_char, 3 * sizeof_char]

/-- Members of `struct OrderCancel`: `header`, `order_id`, `symbol_id`. -/
def OrderCancel_members : List Nat :=
  [sizeof_MessageHeader, sizeof_uint64_t, sizeof_uint32_t]

/-- The value of `sizeof(Quote)`. -/
def sizeof_Quote : Nat := packed_sizeof Quote_members
/-- The value of `sizeof(Trade)`. -/
def sizeof_Trade : Nat := packed_sizeof Trade_members
/-- The value of `sizeof(OrderAdd)`. -/
def sizeof_OrderAdd : Nat := packed_sizeof OrderAdd_members
/-- The value of `sizeof(OrderCancel)`. -/
def sizeof_OrderCancel : Nat := packed_sizeof OrderCancel_members

/-- The decoded fields of `struct MessageHeader`. -/
structure MessageHeader where
  msg_type : Nat
  msg_len : Nat
  sequence_num : Nat
  timestamp_ns : Nat
  deriving DecidableEq, Repr

/-- The `struct RawMessage`: `payload` is the `std::array<char, 2048>` (octets
past the end of the list are the zero octets of the value-initialised array),
`len` the received octet count. -/
structure RawMessage where
  payload : List Nat
  len : Nat
  recv_timestamp_ns : Nat := 0
  deriving DecidableEq, Repr

/-- The octet of the payload at offset `i`. -/
def RawMessage.byte (raw : RawMessage) (i : Nat) : Nat :=
  raw.payload.getD i 0 % 256

/-- A little-endian unsigned integer of `n` octets starting at offset `off`: what
a load of an `n`-octet unsigned member at that offset yields on the
little-endian hosts the wire format is defined for. -/
def RawMessage.read_le (raw : RawMessage) (off : Nat) : Nat → Nat
  | 0 => 0
  | n + 1 => raw.byte off + 256 * raw.read_le (off + 1) n

/-- The view `reinterpret_cast<const MessageHeader*>(raw.payload.data())`: the
header fields at their packed offsets 0, 2, 4 and 8. -/
def RawMessage.header (raw : RawMessage) : MessageHeader :=
  { msg_type := raw.read_le 0 sizeof_uint16_t
    msg_len := raw.read_le 2 sizeof_uint16_t
    sequence_num := raw.read_le 4 sizeof_uint32_t
    timestamp_ns := raw.read_le 8 sizeof_uint64_t }

/-! ## message_parser.h / message_parser.cpp -/

/-- The private state of `class MessageParser`: `last_sequence_` is a
`uint32_t`; `gaps_` and `invalid_` are `uint64_t`. -/
structure MessageParser where
  last_sequence_ : Nat := 0
  gaps_ : Nat := 0
  invalid_ : Nat := 0
  deriving DecidableEq, Repr

/-- The method `MessageParser::compute_expected_len`. -/
def MessageParser.compute_expected_len (header : MessageHeader) : Nat :=
  if header.msg_type = MSG_QUOTE then sizeof_Quote
  else if header.msg_type = MSG_TRADE then sizeof_Trade
  else if header.msg_type = MSG_ORDER_ADD then sizeof_OrderAdd
  else if header.msg_type = MSG_ORDER_CANCEL then sizeof_OrderCancel
  else 0

/-- The statement `++invalid_; return nullptr;`. -/
def MessageParser.reject (p : MessageParser) : Option MessageHeader × MessageParser :=
  (none, { p with invalid_ := (p.invalid_ + 1) % 18446744073709551616 })

/-- The expression `header->sequence_num - last_sequence_ - 1`, evaluated in
`uint32_t`. -/
def gap_u32 (sequence_num last_sequence : Nat) : Nat :=
  (sequence_num + (4294967296 - last_sequence % 4294967296) + 4294967295) % 4294967296

/-- The method `MessageParser::parse`: the returned pointer (`none` for
`nullptr`) together with the parser state after the call. -/
def MessageParser.parse (p : MessageParser) (raw : RawMessage) :
    Option MessageHeader × MessageParser :=
  if raw.len < sizeof_MessageHeader then p.reject
  else
    let header := raw.header
    if header.msg_len = 0 ∨ header.msg_len > raw.len then p.reject
    else
      let expected_len := MessageParser.compute_expected_len header
      if expected_len = 0 ∨ expected_len ≠ header.msg_len then p.reject
      else
        let gaps :=
          if p.last_sequence_ ≠ 0 ∧
              header.sequence_num ≠ (p.last_sequence_ + 1) % 4294967296 then
            (p.gaps_ + gap_u32 header.sequence_num p.last_sequence_) % 18446744073709551616
          else p.gaps_
        (some header, { p with gaps_ := gaps, last_sequence_ := header.sequence_num })

/-- The state `parse` leaves behind when it accepts a frame. -/
def MessageParser.accept_state (p : MessageParser) (header : MessageHeader) : MessageParser :=
  { p with
    gaps_ :=
      if p.last_sequence_ ≠ 0 ∧
          header.sequence_num ≠ (p.last_sequence_ + 1) % 4294967296 then
        (p.gaps_ + gap_u32 header.sequence_num p.last_sequence_) % 18446744073709551616
      else p.gaps_
    last_sequence_ := header.sequence_num }

/-- The accessor `MessageParser::sequence_gaps`. -/
def MessageParser.sequence_gaps (p : MessageParser) : Nat := p.gaps_

/-- The accessor `MessageParser::invalid_messages`. -/
def MessageParser.invalid_messages (p : MessageParser) : Nat := p.invalid_

/-- The parser state after parsing the frames of a list in order. -/
def MessageParser.parse_all (p : MessageParser) (raws : List RawMessage) : MessageParser :=
  raws.foldl (fun q raw => (q.parse raw).2) p

/-- A frame that passes every check of `parse`: `len >= 16`,
`0 < msg_len <= len`, a known `msg_type`, and `msg_len` equal to the expected
size of that type. -/
def RawMessage.valid (raw : RawMessage) : Prop :=
  16 ≤ raw.len ∧ 0 < raw.header.msg_len ∧ raw.header.msg_len ≤ raw.len ∧
  (raw.header.msg_type = 1 ∨ raw.header.msg_type = 2 ∨
    raw.header.msg_type = 3 ∨ raw.header.msg_type = 4) ∧
  raw.header.msg_len = MessageParser.compute_expected_len raw.header

instance (raw : RawMessage) : Decidable raw.valid := by
  unfold RawMessage.valid; infer_instance

/-- The frame built in `tests/test_parser.cpp`: a zeroed payload whose header
has `msg_type = MSG_QUOTE`, `msg_len = sizeof(Quote)` and the given sequence
number, with `len = sizeof(Quote)`. -/
def quote_frame (sequence_num : Nat) : RawMessage :=
  { payload := [MSG_QUOTE, 0, sizeof_Quote, 0,
                sequence_num % 256, sequence_num / 256 % 256,
                sequence_num / 65536 % 256, sequence_num / 16777216 % 256]
    len := sizeof_Quote }

/-! ## ring_buffer.h

The sequential model: operations are applied one at a time, so the atomic
loads and stores of `head_` and `tail_` are plain reads and writes. The
template parameter `Size` is an explicit argument. -/

/-- The data members of `SPSCRingBuffer<T, Size>`: the indices `head_` and
`tail_` (`size_t`) and the slots `buffer_` (`std::array<T, Size>`). -/
structure SPSCRingBuffer (T : Type) where
  head_ : Nat
  tail_ : Nat
  buffer_ : List T
  deriving DecidableEq, Repr

/-- The constant `mask_ = Size - 1`. -/
def SPSCRingBuffer.mask_ (Size : Nat) : Nat := Size - 1

/-- The defaulted constructor: `head_{0}`, `tail_{0}`; `slots` is whatever the
default-initialised array holds. -/
def SPSCRingBuffer.empty {T : Type} (slots : List T) : SPSCRingBuffer T :=
  { head_ := 0, tail_ := 0, buffer_ := slots }

/-- The method `try_push`: the returned flag and the ring after the call. -/
def SPSCRingBuffer.try_push {T : Type} (Size : Nat) (r : SPSCRingBuffer T) (item : T) :
    Bool × SPSCRingBuffer T :=
  let head := r.head_
  let next := (head + 1) &&& SPSCRingBuffer.mask_ Size
  if next = r.tail_ then (false, r)
  else (true, { r with buffer_ := r.buffer_.set head item, head_ := next })

/-- The method `try_pop`: the returned flag, the caller's `item` after the call
(untouched when the flag is false) and the ring after the call. -/
def SPSCRingBuffer.try_pop {T : Type} (Size : Nat) (r : SPSCRingBuffer T) (item : T) :
    Bool × T × SPSCRingBuffer T :=
  let tail := r.tail_
  if tail = r.head_ then (false, item, r)
  else (true, r.buffer_.getD tail item,
        { r with tail_ := (tail + 1) &&& SPSCRingBuffer.mask_ Size })

/-- The method `size`. Both branches stay within `size_t` whenever
`head_, tail_ < Size`. -/
def SPSCRingBuffer.size {T : Type} (Size : Nat) (r : SPSCRingBuffer T) : Nat :=
  let head := r.head_
  let tail := r.tail_
  if head ≥ tail then head - tail
  else Size - (tail - head)

/-- One call made by the single user of the ring in the sequential model:
`try_push(item)`, or `try_pop(item)` with the caller's variable `item`. -/
inductive RingOp (T : Type) where
  | push (item : T)
  | pop (item : T)
  deriving DecidableEq, Repr

/-- A ring together with the history of the calls made on it: the values of
the successful `try_push` calls and the values returned by the successful
`try_pop` calls, both in call order. -/
structure RingRun (T : Type) where
  ring : SPSCRingBuffer T
  pushed : List T
  popped : List T
  deriving DecidableEq, Repr

/-- Perform one call and record its outcome. -/
def RingRun.step {T : Type} (Size : Nat) (t : RingRun T) : RingOp T → RingRun T
  | RingOp.push item =>
    if (t.ring.try_push Size item).1 then
      { ring := (t.ring.try_push Size item).2, pushed := t.pushed ++ [item], popped := t.popped }
    else { t with ring := (t.ring.try_push Size item).2 }
  | RingOp.pop item =>
    if (t.ring.try_pop Size item).1 then
      { ring := (t.ring.try_pop Size item).2.2, pushed := t.pushed,
        popped := t.popped ++ [(t.ring.try_pop Size item).2.1] }
    else { t with ring := (t.ring.try_pop Size item).2.2 }

/-- Perform a sequence of calls starting from the freshly constructed ring. -/
def RingRun.run {T : Type} (Size : Nat) (slots : List T) (ops : List (RingOp T)) : RingRun T :=
  ops.foldl (RingRun.step Size) { ring := SPSCRingBuffer.empty slots, pushed := [], popped := [] }

/-- The flags returned by consecutive `try_push` calls, one per item. -/
def SPSCRingBuffer.push_flags {T : Type} (Size : Nat) (r : SPSCRingBuffer T) : List T → List Bool
  | [] => []
  | item :: items =>
    (r.try_push Size item).1 :: SPSCRingBuffer.push_flags Size (r.try_push Size item).2 items

/-- The items a ring holds, oldest first: `n` slots read from index `tail`
onwards, wrapping at `Size`. -/
def SPSCRingBuffer.slots_from {T : Type} (Size : Nat) (buffer : List T) (tail : Nat) :
    Nat → List T
  | 0 => []
  | n + 1 => buffer[tail]?.toList ++ SPSCRingBuffer.slots_from Size buffer ((tail + 1) % Size) n

/-- The items stored in the ring, oldest first. -/
def SPSCRingBuffer.items {T : Type} (Size : Nat) (r : SPSCRingBuffer T) : List T :=
  SPSCRingBuffer.slots_from Size r.buffer_ r.tail_ (r.size Size)

/-- The class invariant of the ring: both indices are below `Size` and the
array has `Size` slots. -/
def SPSCRingBuffer.wf {T : Type} (Size : Nat) (r : SPSCRingBuffer T) : Prop :=
  r.head_ < Size ∧ r.tail_ < Size ∧ r.buffer_.length = Size

/-- The history of a run agrees with its ring: the ring is well formed, the
pushed values are the popped values followed by the stored items, and the
counts agree with `size()`. -/
def RingRun.inv {T : Type} (Size : Nat) (t : RingRun T) : Prop :=
  t.ring.wf Size ∧ t.pushed = t.popped ++ t.ring.items Size ∧
  t.popped.length + t.ring.size Size = t.pushed.length

/-! ## order_book.h / order_book.cpp

The three containers are association lists kept in the order of their
comparator, so that `begin()` is the head of the list. The iteration order of
the `std::unordered_map` is never observed by the code; its entries are kept
in increasing key order, which gives every finite map one representation. -/

/-- The lookup `m.find(k)`: the mapped value, or `none` for `m.end()`. -/
def map_find {K V : Type} [DecidableEq K] : List (K × V) → K → Option V
  | [], _ => none
  | (k', v') :: rest, k => if k' = k then some v' else map_find rest k

/-- The assignment `m[k] = v`: overwrite the entry with key `k`, or insert a
new entry at its place in the order of the comparator `comp`. -/
def map_assign {K V : Type} [DecidableEq K] (comp : K → K → Bool) :
    List (K × V) → K → V → List (K × V)
  | [], k, v => [(k, v)]
  | (k', v') :: rest, k, v =>
    if k' = k then (k, v) :: rest
    else if comp k k' then (k, v) :: (k', v') :: rest
    else (k', v') :: map_assign comp rest k v

/-- The removal `m.erase(it)` of the entry with key `k`. -/
def map_erase {K V : Type} [DecidableEq K] : List (K × V) → K → List (K × V)
  | [], _ => []
  | (k', v') :: rest, k => if k' = k then rest else (k', v') :: map_erase rest k

/-- The update `m[k] += size` on a map of `uint32_t`: a missing entry is
value-initialised to 0 first, and the sum is taken modulo `2^32`. -/
def map_add_assign {K : Type} [DecidableEq K] (comp : K → K → Bool)
    (m : List (K × Nat)) (k : K) (size : Nat) : List (K × Nat) :=
  map_assign comp m k (((map_find m k).getD 0 + size) % 4294967296)

/-- The comparator `std::greater<>` on `int64_t` (the order of `bids_`). -/
def greater_i64 (a b : Int) : Bool := decide (b < a)

/-- The comparator `std::less<int64_t>` (the order of `asks_`). -/
def less_i64 (a b : Int) : Bool := decide (a < b)

/-- The key order in which the entries of `orders_` are kept. -/
def less_u64 (a b : Nat) : Bool := decide (a < b)

/-- The `struct Order`. -/
structure Order where
  order_id : Nat
  symbol_id : Nat
  price : Int
  size : Nat
  side : Char
  deriving DecidableEq, Repr

/-- The wire message `struct OrderAdd` (without its padding octets). -/
structure OrderAdd where
  header : MessageHeader
  order_id : Nat
  symbol_id : Nat
  price : Int
  size : Nat
  side : Char
  deriving DecidableEq, Repr

/-- The wire message `struct OrderCancel`. -/
structure OrderCancel where
  header : MessageHeader
  order_id : Nat
  symbol_id : Nat
  deriving DecidableEq, Repr

/-- The wire message `struct Quote`. -/
structure Quote where
  header : MessageHeader
  symbol_id : Nat
  bid_price : Int
  ask_price : Int
  bid_size : Nat
  ask_size : Nat
  deriving DecidableEq, Repr

/-- The data members of `class OrderBook`; the default value is the freshly
constructed, empty book. -/
structure OrderBook where
  bids_ : List (Int × Nat) := []
  asks_ : List (Int × Nat) := []
  orders_ : List (Nat × Order) := []
  deriving DecidableEq, Repr

/-- The method `OrderBook::on_order_add`. -/
def OrderBook.on_order_add (b : OrderBook) (msg : OrderAdd) : OrderBook :=
  let order : Order :=
    { order_id := msg.order_id, symbol_id := msg.symbol_id, price := msg.price,
      size := msg.size, side := msg.side }
  let orders := map_assign less_u64 b.orders_ msg.order_id order
  if msg.side = 'B' then
    { b with orders_ := orders, bids_ := map_add_assign greater_i64 b.bids_ msg.price msg.size }
  else
    { b with orders_ := orders, asks_ := map_add_assign less_i64 b.asks_ msg.price msg.size }

/-- The branch of `on_order_cancel` that updates one side of the book: if the
level of the order's price is found, it is reduced by the order's size when it
is larger than that size and erased otherwise. -/
def cancel_level (comp : Int → Int → Bool) (m : List (Int × Nat)) (order : Order) :
    List (Int × Nat) :=
  match map_find m order.price with
  | none => m
  | some level =>
    if level > order.size then map_assign comp m order.price (level - order.size)
    else map_erase m order.price

/-- The method `OrderBook::on_order_cancel`. -/
def OrderBook.on_order_cancel (b : OrderBook) (msg : OrderCancel) : OrderBook :=
  match map_find b.orders_ msg.order_id with
  | none => b
  | some order =>
    if order.side = 'B' then
      { b with bids_ := cancel_level greater_i64 b.bids_ order,
               orders_ := map_erase b.orders_ msg.order_id }
    else
      { b with asks_ := cancel_level less_i64 b.asks_ order,
               orders_ := map_erase b.orders_ msg.order_id }

/-- The method `OrderBook::on_quote`. -/
def OrderBook.on_quote (b : OrderBook) (msg : Quote) : OrderBook :=
  { b with bids_ := map_assign greater_i64 b.bids_ msg.bid_price msg.bid_size,
           asks_ := map_assign less_i64 b.asks_ msg.ask_price msg.ask_size }

/-- The method `OrderBook::best_bid`: 0 if `bids_` is empty, else the key of
`bids_.begin()`. -/
def OrderBook.best_bid (b : OrderBook) : Int :=
  match b.bids_ with
  | [] => 0
  | (price, _) :: _ => price

/-- The method `OrderBook::best_ask`: 0 if `asks_` is empty, else the key of
`asks_.begin()`. -/
def OrderBook.best_ask (b : OrderBook) : Int :=
  match b.asks_ with
  | [] => 0
  | (price, _) :: _ => price

/-- One call on the book. -/
inductive BookEvent where
  | add (msg : OrderAdd)
  | cancel (msg : OrderCancel)
  | quote (msg : Quote)
  deriving DecidableEq, Repr

/-- Perform one call. -/
def OrderBook.apply (b : OrderBook) : BookEvent → OrderBook
  | BookEvent.add msg => b.on_order_add msg
  | BookEvent.cancel msg => b.on_order_cancel msg
  | BookEvent.quote msg => b.on_quote msg

/-- Perform a sequence of calls in order. -/
def OrderBook.run (b : OrderBook) (events : List BookEvent) : OrderBook :=
  events.foldl OrderBook.apply b

/-- The ordering invariant of a `std::map`: the keys are strictly increasing
in the order of the comparator (hence pairwise distinct). -/
def map_wf {K V : Type} (comp : K → K → Bool) (m : List (K × V)) : Prop :=
  (m.map Prod.fst).Pairwise (fun a b => comp a b = true)

instance {K V : Type} (comp : K → K → Bool) (m : List (K × V)) : Decidable (map_wf comp m) := by
  unfold map_wf; infer_instance

/-- A comparator that is a strict total order. -/
structure IsComparator {K : Type} (comp : K → K → Bool) : Prop where
  irrefl : ∀ a, comp a a = false
  trans : ∀ a b c, comp a b = true → comp b c = true → comp a c = true
  total : ∀ a b, a ≠ b → comp a b = true ∨ comp b a = true

/-- The container invariants of a book. -/
def OrderBook.wf (b : OrderBook) : Prop :=
  map_wf greater_i64 b.bids_ ∧ map_wf less_i64 b.asks_ ∧ map_wf less_u64 b.orders_

instance (b : OrderBook) : Decidable b.wf := by
  unfold OrderBook.wf; infer_instance

/-- The aggregated size of the level at `price`, 0 when there is no level. -/
def level_size (m : List (Int × Nat)) (price : Int) : Nat :=
  (map_find m price).getD 0

/-- The level map of a side: `bids_` for side `'B'`, `asks_` for any other
side. -/
def OrderBook.side_levels (b : OrderBook) (side : Char) : List (Int × Nat) :=
  if side = 'B' then b.bids_ else b.asks_

/-- A header as the feed simulator fills it for the given type and sequence
number. -/
def header_of (msg_type sequence_num : Nat) : MessageHeader :=
  { msg_type := msg_type,
    msg_len := MessageParser.compute_expected_len
      { msg_type := msg_type, msg_len := 0, sequence_num := 0, timestamp_ns := 0 },
    sequence_num := sequence_num, timestamp_ns := 0 }

/-- An `OrderAdd` message for symbol 55, as in `tests/test_order_book.cpp`. -/
def mk_add (order_id : Nat) (side : Char) (price : Int) (size : Nat) : OrderAdd :=
  { header := header_of MSG_ORDER_ADD 1, order_id := order_id, symbol_id := 55,
    price := price, size := size, side := side }

/-- An `OrderCancel` message for symbol 55. -/
def mk_cancel (order_id : Nat) : OrderCancel :=
  { header := header_of MSG_ORDER_CANCEL 2, order_id := order_id, symbol_id := 55 }

/-- A `Quote` message for symbol 1001. -/
def mk_quote (bid_price ask_price : Int) (bid_size ask_size : Nat) : Quote :=
  { header := header_of MSG_QUOTE 1, symbol_id := 1001, bid_price := bid_price,
    ask_price := ask_price, bid_size := bid_size, ask_size := ask_size }

/-- A condition on every call of a sequence, each call judged on the book it
is applied to. -/
def OrderBook.steps_hold (P : OrderBook → BookEvent → Prop) :
    OrderBook → List BookEvent → Prop
  | _, [] => True
  | b, ev :: rest => P b ev ∧ OrderBook.steps_hold P (b.apply ev) rest

/-- A call that cannot create a level of size 0: an add of positive size whose
level addition does not wrap at `2^32`, any cancel, or a quote with positive
sizes on both sides. -/
def positive_step (b : OrderBook) : BookEvent → Prop
  | BookEvent.add msg =>
    0 < msg.size ∧ level_size (b.side_levels msg.side) msg.price + msg.size < 4294967296
  | BookEvent.cancel _ => True
  | BookEvent.quote msg => 0 < msg.bid_size ∧ 0 < msg.ask_size

/-- A call of an order stream without quotes: an add of positive size whose
level addition does not wrap at `2^32`, or any cancel. -/
def order_step (b : OrderBook) : BookEvent → Prop
  | BookEvent.add msg =>
    0 < msg.size ∧ level_size (b.side_levels msg.side) msg.price + msg.size < 4294967296
  | BookEvent.cancel _ => True
  | BookEvent.quote _ => False

instance (b : OrderBook) (ev : BookEvent) : Decidable (positive_step b ev) := by
  cases ev <;> unfold positive_step <;> infer_instance

instance (b : OrderBook) (ev : BookEvent) : Decidable (order_step b ev) := by
  cases ev <;> unfold order_step <;> infer_instance

/-- Deciding `steps_hold` call by call. -/
def OrderBook.steps_hold_dec (P : OrderBook → BookEvent → Prop)
    [∀ b ev, Decidable (P b ev)] :
    ∀ (b : OrderBook) (events : List BookEvent), Decidable (OrderBook.steps_hold P b events)
  | _, [] => isTrue trivial
  | b, ev :: rest =>
    match (inferInstance : Decidable (P b ev)), OrderBook.steps_hold_dec P (b.apply ev) rest with
    | isTrue h1, isTrue h2 => isTrue ⟨h1, h2⟩
    | isFalse h1, _ => isFalse (fun h => h1 h.1)
    | _, isFalse h2 => isFalse (fun h => h2 h.2)

instance (P : OrderBook → BookEvent → Prop) [∀ b ev, Decidable (P b ev)] (b : OrderBook)
    (events : List BookEvent) : Decidable (OrderBook.steps_hold P b events) :=
  OrderBook.steps_hold_dec P b events

/-- Every level of a side has a positive size. -/
def levels_positive (m : List (Int × Nat)) : Prop :=
  ∀ p v, map_find m p = some v → 0 < v

/-- The sum of `f` over the mapped values of a map. -/
def map_total {K V : Type} (f : V → Nat) (m : List (K × V)) : Nat :=
  (m.map (fun kv => f kv.2)).sum

/-- What an order contributes to the level at `price` on the bid side
(`bid = true`) or the ask side: its size if it rests there, else 0. -/
def order_weight (bid : Bool) (price : Int) (order : Order) : Nat :=
  if decide (order.side = 'B') = bid ∧ order.price = price then order.size else 0

/-- The total size of the stored orders resting at `price` on a side. -/
def OrderBook.resting (b : OrderBook) (bid : Bool) (price : Int) : Nat :=
  map_total (order_weight bid price) b.orders_

/-- The invariant of an order stream: the containers are well formed, every
stored order has a positive size, and every level covers the total size of
the orders resting at it. -/
def OrderBook.covered (b : OrderBook) : Prop :=
  b.wf ∧ (∀ id order, map_find b.orders_ id = some order → 0 < order.size) ∧
  (∀ p, b.resting true p ≤ level_size b.bids_ p) ∧
  (∀ p, b.resting false p ≤ level_size b.asks_ p)

/-- A call of a mixed stream that keeps every level above the orders resting
at it: an add of positive size whose level addition does not wrap at `2^32`,
any cancel, or a quote whose sizes are at least the total size of the stored
orders resting at the quoted bid price on the bid side and at the quoted ask
price on the ask side. -/
def covering_step (b : OrderBook) : BookEvent → Prop
  | BookEvent.add msg =>
    0 < msg.size ∧ level_size (b.side_levels msg.side) msg.price + msg.size < 4294967296
  | BookEvent.cancel _ => True
  | BookEvent.quote msg =>
    b.resting true msg.bid_price ≤ msg.bid_size ∧ b.resting false msg.ask_price ≤ msg.ask_size

instance (b : OrderBook) (ev : BookEvent) : Decidable (covering_step b ev) := by
  cases ev <;> unfold covering_step <;> infer_instance

/-! ## utils/stats.h

A call whose C++ behaviour is undefined (a store past the end of `samples_`,
a remainder by zero, a read of an empty vector) returns `none`. -/

/-- The `struct LatencySnapshot`; the default value is the value-initialised
snapshot. -/
structure LatencySnapshot where
  sample_count : Nat := 0
  avg_ns : Nat := 0
  min_ns : Nat := 0
  max_ns : Nat := 0
  p50_ns : Nat := 0
  p95_ns : Nat := 0
  p99_ns : Nat := 0
  p999_ns : Nat := 0
  histogram : List Nat := [0, 0, 0, 0, 0]
  deriving DecidableEq, Repr

/-- The data members of `class LatencyStats` with their default member
initialisers (`min_ns_` starts at `2^64 - 1`, the maximum of `uint64_t`). -/
structure LatencyStats where
  max_samples_ : Nat
  samples_ : List Nat := []
  next_index_ : Nat := 0
  total_latency_ns_ : Nat := 0
  total_samples_ : Nat := 0
  min_ns_ : Nat := 18446744073709551615
  max_ns_ : Nat := 0
  bucket_counts_ : List Nat := [0, 0, 0, 0, 0]
  deriving DecidableEq, Repr

/-- The constructor `LatencyStats(max_samples)`; the `reserve` call has no
observable effect. -/
def LatencyStats.new (max_samples : Nat) : LatencyStats :=
  { max_samples_ := max_samples }

/-- The member `bucket_bounds_`. -/
def bucket_bounds_ : List Nat := [500, 1000, 2000, 5000]

/-- The loop of `bucket_for`: starting at `idx`, advance while a bound is left
and `latency_ns` is at least that bound. -/
def bucket_index : List Nat → Nat → Nat → Nat
  | [], _, idx => idx
  | bound :: rest, latency_ns, idx =>
    if latency_ns ≥ bound then bucket_index rest latency_ns (idx + 1) else idx

/-- The method `bucket_for`: `++bucket_counts_[idx]` in `uint64_t`. -/
def LatencyStats.bucket_for (s : LatencyStats) (latency_ns : Nat) : LatencyStats :=
  let idx := bucket_index bucket_bounds_ latency_ns 0
  { s with bucket_counts_ :=
      s.bucket_counts_.set idx ((s.bucket_counts_.getD idx 0 + 1) % 18446744073709551616) }

/-- The method `record`. With `max_samples_ == 0` the store `samples_[next_index_]`
is past the end of the empty vector and the remainder is by zero; with a full
vector the store needs `next_index_ < samples_.size()`. In every state reached
from the constructor `next_index_ < max_samples_`, so `next_index_ + 1` does not
wrap. -/
def LatencyStats.record (s : LatencyStats) (latency_ns : Nat) : Option LatencyStats :=
  if s.max_samples_ = 0 then none
  else if s.samples_.length < s.max_samples_ then
    some (LatencyStats.bucket_for
      { s with total_latency_ns_ := (s.total_latency_ns_ + latency_ns) % 18446744073709551616,
               total_samples_ := (s.total_samples_ + 1) % 18446744073709551616,
               min_ns_ := min s.min_ns_ latency_ns,
               max_ns_ := max s.max_ns_ latency_ns,
               samples_ := s.samples_ ++ [latency_ns],
               next_index_ := (s.next_index_ + 1) % s.max_samples_ } latency_ns)
  else if s.next_index_ < s.samples_.length then
    some (LatencyStats.bucket_for
      { s with total_latency_ns_ := (s.total_latency_ns_ + latency_ns) % 18446744073709551616,
               total_samples_ := (s.total_samples_ + 1) % 18446744073709551616,
               min_ns_ := min s.min_ns_ latency_ns,
               max_ns_ := max s.max_ns_ latency_ns,
               samples_ := s.samples_.set s.next_index_ latency_ns,
               next_index_ := (s.next_index_ + 1) % s.max_samples_ } latency_ns)
  else none

/-- The method `reset`. -/
def LatencyStats.reset (s : LatencyStats) : LatencyStats :=
  { s with samples_ := [], next_index_ := 0, total_latency_ns_ := 0, total_samples_ := 0,
           min_ns_ := 18446744073709551615, max_ns_ := 0, bucket_counts_ := [0, 0, 0, 0, 0] }

/-- The method `snapshot`. The argument `scale permille n` stands for
`static_cast<size_t>(q * n)` with `q = permille / 1000`, which the source
computes in `double`; the lambda `percentile` reads `sorted[idx]`, which needs
a non-empty `sorted`. -/
def LatencyStats.snapshot (s : LatencyStats) (scale : Nat → Nat → Nat) :
    Option LatencySnapshot :=
  let recorded := min s.total_samples_ s.max_samples_
  if recorded = 0 then some {}
  else
    let available := min s.samples_.length recorded
    let sorted := (s.samples_.take available).insertionSort (fun a b => a ≤ b)
    if sorted.length = 0 then none
    else
      let percentile := fun permille : Nat =>
        sorted.getD (min (scale permille sorted.length) (sorted.length - 1)) 0
      some { sample_count := recorded,
             avg_ns := s.total_latency_ns_ / s.total_samples_,
             min_ns := s.min_ns_,
             max_ns := s.max_ns_,
             p50_ns := percentile 500,
             p95_ns := percentile 950,
             p99_ns := percentile 990,
             p999_ns := percentile 999,
             histogram := s.bucket_counts_ }

/-- The index `floor(permille * n / 1000)`, the value of the `double` product
when it is computed without rounding error. -/
def exact_scale (permille n : Nat) : Nat := permille * n / 1000

/-- One call on a `LatencyStats`. -/
inductive StatsOp where
  | record (latency_ns : Nat)
  | reset
  deriving DecidableEq, Repr

/-- Perform one call. -/
def LatencyStats.apply (s : LatencyStats) : StatsOp → Option LatencyStats
  | StatsOp.record latency_ns => s.record latency_ns
  | StatsOp.reset => some s.reset

/-- Perform a sequence of calls in order. -/
def LatencyStats.run (s : LatencyStats) : List StatsOp → Option LatencyStats
  | [] => some s
  | op :: ops =>
    match s.apply op with
    | none => none
    | some s' => s'.run ops

/-- The values recorded since the last `reset` (or since the start), oldest
first, given the values `vals` recorded before the calls `ops`. -/
def recorded_since_reset (vals : List Nat) : List StatsOp → List Nat
  | [] => vals
  | StatsOp.record latency_ns :: ops => recorded_since_reset (vals ++ [latency_ns]) ops
  | StatsOp.reset :: ops => recorded_since_reset [] ops

/-- The bucket of a latency value. -/
def bucket_of (latency_ns : Nat) : Nat := bucket_index bucket_bounds_ latency_ns 0

/-- How many of the values fall in bucket `i`. -/
def bucket_tally (vals : List Nat) (i : Nat) : Nat :=
  vals.countP (fun x => decide (bucket_of x = i))

/-- The sample store of `s` holds the most recent values of `vals` for
capacity `c`: below capacity it is `vals` itself, at capacity it is the last
`c` values rotated so that the oldest one sits at `next_index_`. -/
def LatencyStats.tracks_samples (c : Nat) (s : LatencyStats) (vals : List Nat) : Prop :=
  s.max_samples_ = c ∧ s.next_index_ = vals.length % c ∧
  ((vals.length < c ∧ s.samples_ = vals) ∨
   (c ≤ vals.length ∧ ∃ D T : List Nat, s.samples_ = D ++ T ∧
      vals.drop (vals.length - c) = T ++ D ∧ D.length = s.next_index_))

/-- The counters of `s` agree with the recorded values `vals`. -/
def LatencyStats.tracks_counts (s : LatencyStats) (vals : List Nat) : Prop :=
  s.total_samples_ = vals.length % 18446744073709551616 ∧
  s.total_latency_ns_ = vals.sum % 18446744073709551616 ∧
  s.bucket_counts_ =
    [bucket_tally vals 0 % 18446744073709551616, bucket_tally vals 1 % 18446744073709551616,
     bucket_tally vals 2 % 18446744073709551616, bucket_tally vals 3 % 18446744073709551616,
     bucket_tally vals 4 % 18446744073709551616]

/-- The extremes of `s` agree with the recorded values `vals` (the minimum
only when every value fits `uint64_t`). -/
def LatencyStats.tracks_extremes (s : LatencyStats) (vals : List Nat) : Prop :=
  ((vals = [] ∧ s.max_ns_ = 0) ∨ (s.max_ns_ ∈ vals ∧ ∀ x ∈ vals, x ≤ s.max_ns_)) ∧
  ((∀ x ∈ vals, x < 18446744073709551616) →
    (vals = [] ∧ s.min_ns_ = 18446744073709551615) ∨
    (s.min_ns_ ∈ vals ∧ ∀ x ∈ vals, s.min_ns_ ≤ x))

/-- The state `s` of a `LatencyStats` of capacity `c` after the values `vals`
were recorded since construction or the last reset. -/
def LatencyStats.tracks (c : Nat) (s : LatencyStats) (vals : List Nat) : Prop :=
  s.tracks_samples c vals ∧ s.tracks_counts vals ∧ s.tracks_extremes vals

/-! ## Parser: auxiliary facts -/

theorem sizeof_MessageHeader_eq : sizeof_MessageHeader = 16 := by decide

theorem sizeof_Quote_eq : sizeof_Quote = 44 := by decide

theorem sizeof_Trade_eq : sizeof_Trade = 36 := by decide

theorem sizeof_OrderAdd_eq : sizeof_OrderAdd = 44 := by decide

theorem sizeof_OrderCancel_eq : sizeof_OrderCancel = 28 := by decide

theorem RawMessage.byte_lt (raw : RawMessage) (i : Nat) : raw.byte i < 256 :=
  Nat.mod_lt _ (by decide)

theorem RawMessage.read_le_lt (raw : RawMessage) (n off : Nat) :
    raw.read_le off n < 256 ^ n := by
  induction n generalizing off with
  | zero => simp [RawMessage.read_le]
  | succ n ih =>
    have hb := raw.byte_lt off
    have hr := ih (off + 1)
    simp only [RawMessage.read_le, pow_succ]
    omega

theorem RawMessage.sequence_num_lt (raw : RawMessage) :
    raw.header.sequence_num < 4294967296 := by
  have h := raw.read_le_lt 4 4
  simpa [RawMessage.header, sizeof_uint32_t] using h

theorem compute_expected_len_eq_zero_iff (h : MessageHeader) :
    MessageParser.compute_expected_len h = 0 ↔
      ¬ (h.msg_type = 1 ∨ h.msg_type = 2 ∨ h.msg_type = 3 ∨ h.msg_type = 4) := by
  unfold MessageParser.compute_expected_len
  simp only [MSG_QUOTE, MSG_TRADE, MSG_ORDER_ADD, MSG_ORDER_CANCEL, sizeof_Quote_eq,
    sizeof_Trade_eq, sizeof_OrderAdd_eq, sizeof_OrderCancel_eq]
  split_ifs <;> simp_all

theorem parse_of_valid (p : MessageParser) (raw : RawMessage) (hv : raw.valid) :
    p.parse raw = (some raw.header, p.accept_state raw.header) := by
  obtain ⟨h1, h2, h3, h4, h5⟩ := hv
  have h6 : MessageParser.compute_expected_len raw.header ≠ 0 := by
    rw [Ne, compute_expected_len_eq_zero_iff]; exact not_not.mpr h4
  unfold MessageParser.parse
  rw [if_neg (by rw [sizeof_MessageHeader_eq]; omega)]
  simp only
  rw [if_neg (by omega), if_neg (by omega)]
  rfl

theorem parse_of_not_valid (p : MessageParser) (raw : RawMessage) (hv : ¬ raw.valid) :
    p.parse raw = p.reject := by
  unfold MessageParser.parse
  simp only
  by_cases h1 : raw.len < sizeof_MessageHeader
  · rw [if_pos h1]
  rw [if_neg h1]
  by_cases h2 : raw.header.msg_len = 0 ∨ raw.header.msg_len > raw.len
  · rw [if_pos h2]
  rw [if_neg h2]
  by_cases h3 : MessageParser.compute_expected_len raw.header = 0 ∨
      MessageParser.compute_expected_len raw.header ≠ raw.header.msg_len
  · rw [if_pos h3]
  · exfalso
    apply hv
    rw [sizeof_MessageHeader_eq] at h1
    have h4 : MessageParser.compute_expected_len raw.header ≠ 0 := fun h => h3 (Or.inl h)
    rw [Ne, compute_expected_len_eq_zero_iff, not_not] at h4
    have h5 : MessageParser.compute_expected_len raw.header = raw.header.msg_len := by
      by_contra h; exact h3 (Or.inr h)
    exact ⟨by omega, by omega, by omega, h4, h5.symm⟩

theorem not_valid_iff (raw : RawMessage) :
    ¬ raw.valid ↔
      (raw.len < 16 ∨ raw.header.msg_len = 0 ∨ raw.header.msg_len > raw.len ∨
        ¬ (raw.header.msg_type = 1 ∨ raw.header.msg_type = 2 ∨
            raw.header.msg_type = 3 ∨ raw.header.msg_type = 4) ∨
        raw.header.msg_len ≠ MessageParser.compute_expected_len raw.header) := by
  unfold RawMessage.valid
  constructor
  · intro h
    by_contra hc
    push_neg at hc
    exact h ⟨by omega, by omega, by omega, by tauto, hc.2.2.2.2⟩
  · rintro h ⟨h1, h2, h3, h4, h5⟩
    rcases h with h | h | h | h | h
    · omega
    · omega
    · omega
    · exact h h4
    · exact h h5

theorem quote_frame_valid (s : Nat) : (quote_frame s).valid := by
  unfold RawMessage.valid
  have hl : (quote_frame s).header.msg_len = 44 := by
    simp [quote_frame, RawMessage.header, RawMessage.read_le, RawMessage.byte,
      sizeof_uint16_t, sizeof_Quote_eq, MSG_QUOTE]
  have ht : (quote_frame s).header.msg_type = 1 := by
    simp [quote_frame, RawMessage.header, RawMessage.read_le, RawMessage.byte,
      sizeof_uint16_t, sizeof_Quote_eq, MSG_QUOTE]
  have hn : (quote_frame s).len = 44 := by simp [quote_frame, sizeof_Quote_eq]
  rw [hl, ht, hn]
  refine ⟨by omega, by omega, by omega, Or.inl rfl, ?_⟩
  simp [MessageParser.compute_expected_len, ht, MSG_QUOTE, sizeof_Quote_eq]

theorem quote_frame_sequence_num (s : Nat) (hs : s < 4294967296) :
    (quote_frame s).header.sequence_num = s := by
  simp only [quote_frame, RawMessage.header, RawMessage.read_le, RawMessage.byte,
    sizeof_uint32_t, List.getD_cons_succ, List.getD_cons_zero, Nat.mod_mod]
  omega

theorem getLastD_map_cons {α β : Type} (f : α → β) (l : List α) :
    ∀ a : α, (l.map f).getLastD (f a) = f ((a :: l).getLast (List.cons_ne_nil a l)) := by
  induction l with
  | nil => intro a; rfl
  | cons b l ih =>
    intro a
    rw [List.map_cons, List.getLastD_cons, ih b, List.getLast_cons_cons]

theorem parse_all_replicate_valid (p : MessageParser) (raw : RawMessage) (hv : raw.valid)
    (n : Nat) : (p.parse_all (List.replicate n raw)).invalid_ = p.invalid_ := by
  induction n generalizing p with
  | zero => rfl
  | succ n ih =>
    simp only [MessageParser.parse_all, List.replicate_succ, List.foldl_cons] at ih ⊢
    rw [ih, parse_of_valid p raw hv]
    rfl

theorem gap_u32_of_lt (s l : Nat) (hs : s < 4294967296) (hl : l + 1 < s) :
    gap_u32 s l = s - l - 1 := by
  unfold gap_u32
  omega

/-- Parsing valid frames with increasing sequence numbers from a state that
has already seen a message: no frame is rejected and the gap counter grows by
the number of skipped sequence numbers. -/
theorem parse_all_increasing (raws : List RawMessage) :
    ∀ p : MessageParser, 1 ≤ p.last_sequence_ → p.gaps_ ≤ p.last_sequence_ →
      (∀ raw ∈ raws, raw.valid) →
      (∀ raw ∈ raws, p.last_sequence_ < raw.header.sequence_num) →
      (raws.map (fun raw => raw.header.sequence_num)).Pairwise (· < ·) →
      (p.parse_all raws).invalid_ = p.invalid_ ∧
      (p.parse_all raws).last_sequence_ =
        (raws.map (fun raw => raw.header.sequence_num)).getLastD p.last_sequence_ ∧
      (p.parse_all raws).gaps_ + p.last_sequence_ + raws.length =
        p.gaps_ + (p.parse_all raws).last_sequence_ := by
  induction raws with
  | nil => intro p _ _ _ _ _; simp [MessageParser.parse_all]
  | cons raw rest ih =>
    intro p h1 hg hv hlt hinc
    have hvr := hv raw (List.mem_cons_self _ _)
    have hs := hlt raw (List.mem_cons_self _ _)
    have hb := raw.sequence_num_lt
    rw [List.map_cons, List.pairwise_cons] at hinc
    have hstep : (p.parse raw).2 = p.accept_state raw.header := by
      rw [parse_of_valid p raw hvr]
    have hlast : (p.accept_state raw.header).last_sequence_ = raw.header.sequence_num := rfl
    have hinv : (p.accept_state raw.header).invalid_ = p.invalid_ := rfl
    have hgaps : (p.accept_state raw.header).gaps_ + p.last_sequence_ + 1 =
        p.gaps_ + raw.header.sequence_num := by
      simp only [MessageParser.accept_state]
      split_ifs with hc
      · rw [gap_u32_of_lt _ _ hb (by omega)]
        omega
      · omega
    have key := ih (p.accept_state raw.header) (by rw [hlast]; omega)
      (by rw [hlast]; omega)
      (fun r hr => hv r (List.mem_cons_of_mem _ hr))
      (fun r hr => by
        rw [hlast]
        exact hinc.1 _ (List.mem_map_of_mem (fun raw => raw.header.sequence_num) hr))
      hinc.2
    have hfold : p.parse_all (raw :: rest) = (p.accept_state raw.header).parse_all rest := by
      simp only [MessageParser.parse_all, List.foldl_cons, hstep]
    rw [hfold]
    obtain ⟨k1, k2, k3⟩ := key
    refine ⟨by rw [k1, hinv], ?_, ?_⟩
    · rw [k2, hlast, List.map_cons, List.getLastD_cons]
    · rw [hlast] at k3
      rw [List.length_cons]
      omega

/-! ## Parser: main results -/

/-- A malformed frame is rejected by every parser state, and the rejection is
`++invalid_` in `uint64_t`. -/
theorem parse_malformed_step (p : MessageParser) (raw : RawMessage)
    (h : raw.len < 16 ∨ raw.header.msg_len = 0 ∨ raw.header.msg_len > raw.len ∨
        ¬ (raw.header.msg_type = 1 ∨ raw.header.msg_type = 2 ∨
            raw.header.msg_type = 3 ∨ raw.header.msg_type = 4) ∨
        raw.header.msg_len ≠ MessageParser.compute_expected_len raw.header) :
    (p.parse raw).1 = none ∧
    (p.parse raw).2.invalid_ = (p.invalid_ + 1) % 18446744073709551616 := by
  rw [parse_of_not_valid p raw ((not_valid_iff raw).mpr h)]
  exact ⟨rfl, rfl⟩

/-- The invalid counter never exceeds the number of `parse` calls made. -/
theorem parse_all_invalid_le (raws : List RawMessage) :
    ∀ p : MessageParser, (p.parse_all raws).invalid_ ≤ p.invalid_ + raws.length := by
  induction raws with
  | nil => intro p; exact Nat.le_refl _
  | cons raw rest ih =>
    intro p
    have hstep : (p.parse raw).2.invalid_ ≤ p.invalid_ + 1 := by
      by_cases hv : raw.valid
      · rw [parse_of_valid p raw hv]
        exact Nat.le_succ _
      · rw [parse_of_not_valid p raw hv]
        exact Nat.mod_le _ _
    have := ih (p.parse raw).2
    simp only [MessageParser.parse_all, List.foldl_cons, List.length_cons] at this ⊢
    omega

/-- C1: for every parser state reached from a freshly constructed parser by
`parse` calls (fewer than `2^64 - 1` of them) and every raw frame that has
`len < 16`, or `msg_len == 0`, or `msg_len > len`, or a `msg_type` outside
{1,2,3,4}, or `msg_len` different from the expected size of its type, `parse`
returns no message and `invalid_messages()` is exactly one greater than before
the call. -/
theorem parse_rejects_malformed (prior : List RawMessage)
    (hcalls : prior.length < 18446744073709551615) (raw : RawMessage)
    (h : raw.len < 16 ∨ raw.header.msg_len = 0 ∨ raw.header.msg_len > raw.len ∨
        ¬ (raw.header.msg_type = 1 ∨ raw.header.msg_type = 2 ∨
            raw.header.msg_type = 3 ∨ raw.header.msg_type = 4) ∨
        raw.header.msg_len ≠ MessageParser.compute_expected_len raw.header) :
    ((({} : MessageParser).parse_all prior).parse raw).1 = none ∧
    ((({} : MessageParser).parse_all prior).parse raw).2.invalid_messages =
      (({} : MessageParser).parse_all prior).invalid_messages + 1 := by
  have hle := parse_all_invalid_le prior {}
  have h0 : ({} : MessageParser).invalid_ = 0 := rfl
  obtain ⟨h1, h2⟩ := parse_malformed_step (({} : MessageParser).parse_all prior) raw h
  refine ⟨h1, ?_⟩
  simp only [MessageParser.invalid_messages]
  rw [h2]
  omega

/-- C1 (witness): scenario S4 as in `tests/test_parser.cpp`: after the valid
Quote frame, the frame of `len = 4` is rejected and `invalid_messages()` goes
from 0 to 1. -/
theorem parse_rejects_malformed_witness :
    ((({} : MessageParser).parse_all [quote_frame 1]).parse (RawMessage.mk [] 4 0)).1 = none ∧
    ((({} : MessageParser).parse_all [quote_frame 1]).parse
      (RawMessage.mk [] 4 0)).2.invalid_messages = 0 + 1 :=
  parse_rejects_malformed [quote_frame 1] (by decide) (RawMessage.mk [] 4 0)
    (Or.inl (by decide))

/-- C2 (counterexample): for a Quote header (`msg_type = 1`) the expected
length is `sizeof(Quote) = 44`, not 40; likewise Trade is 36, OrderAdd 44 and
OrderCancel 28. -/
theorem compute_expected_len_quote_ne_40 :
    MessageParser.compute_expected_len (MessageHeader.mk 1 40 1 0) = 44 ∧
    MessageParser.compute_expected_len (MessageHeader.mk 1 40 1 0) ≠ 40 ∧
    MessageParser.compute_expected_len (MessageHeader.mk 2 40 1 0) ≠ 40 ∧
    MessageParser.compute_expected_len (MessageHeader.mk 3 48 1 0) ≠ 48 ∧
    MessageParser.compute_expected_len (MessageHeader.mk 4 32 1 0) ≠ 32 := by
  decide

/-- C2 (amended): `compute_expected_len` is 44 for Quote (type 1), 36 for
Trade (type 2), 44 for OrderAdd (type 3), 28 for OrderCancel (type 4) and 0 for
every other `msg_type`; these are the sizes of the packed wire structs, and
the header alone is 16 octets. -/
theorem compute_expected_len_values (header : MessageHeader) :
    MessageParser.compute_expected_len header =
      (if header.msg_type = 1 then 44
       else if header.msg_type = 2 then 36
       else if header.msg_type = 3 then 44
       else if header.msg_type = 4 then 28
       else 0) ∧
    sizeof_Quote = 44 ∧ sizeof_Trade = 36 ∧ sizeof_OrderAdd = 44 ∧
    sizeof_OrderCancel = 28 ∧ sizeof_MessageHeader = 16 := by
  refine ⟨?_, by decide, by decide, by decide, by decide, by decide⟩
  simp only [MessageParser.compute_expected_len, MSG_QUOTE, MSG_TRADE, MSG_ORDER_ADD,
    MSG_ORDER_CANCEL, sizeof_Quote_eq, sizeof_Trade_eq, sizeof_OrderAdd_eq,
    sizeof_OrderCancel_eq]

/-- C3: `parse` returns a message if and only if `len >= 16`,
`0 < msg_len <= len`, `msg_type` is one of 1, 2, 3, 4 and `msg_len` equals the
expected size of that type; the message returned is the header of the frame,
and whenever a message is returned `invalid_messages()` is unchanged, also
after parsing the same frame any number of times. -/
theorem parse_accepts_iff (p : MessageParser) (raw : RawMessage) :
    ((p.parse raw).1.isSome ↔
      (16 ≤ raw.len ∧ 0 < raw.header.msg_len ∧ raw.header.msg_len ≤ raw.len ∧
        (raw.header.msg_type = 1 ∨ raw.header.msg_type = 2 ∨
          raw.header.msg_type = 3 ∨ raw.header.msg_type = 4) ∧
        raw.header.msg_len = MessageParser.compute_expected_len raw.header)) ∧
    ((p.parse raw).1.isSome →
      (p.parse raw).1 = some raw.header ∧
      (p.parse raw).2.invalid_messages = p.invalid_messages ∧
      ∀ n : Nat, (p.parse_all (List.replicate n raw)).invalid_messages =
        p.invalid_messages) := by
  by_cases hv : raw.valid
  · rw [parse_of_valid p raw hv]
    exact ⟨⟨fun _ => hv, fun _ => rfl⟩,
      fun _ => ⟨rfl, rfl, fun n => parse_all_replicate_valid p raw hv n⟩⟩
  · rw [parse_of_not_valid p raw hv]
    exact ⟨⟨fun h => by simp [MessageParser.reject] at h, fun h => absurd h hv⟩,
      fun h => by simp [MessageParser.reject] at h⟩

/-- C3 (witness): the Quote frame of `tests/test_parser.cpp` is accepted by a
fresh parser, and parsing it three times leaves `invalid_messages()` at 0. -/
theorem parse_accepts_iff_witness :
    (({} : MessageParser).parse (quote_frame 1)).1 = some (quote_frame 1).header ∧
    (({} : MessageParser).parse_all (List.replicate 3 (quote_frame 1))).invalid_messages = 0 :=
  ⟨((parse_accepts_iff {} (quote_frame 1)).2 (by decide)).1,
   ((parse_accepts_iff {} (quote_frame 1)).2 (by decide)).2.2 3⟩

/-- C4 (counterexample): with `last_sequence_ = 1` and `gaps_ = 2^64 - 1`, the
valid frame with sequence number 3 skips one number, and `sequence_gaps()`
wraps to 0 instead of growing by 1. -/
theorem parse_gap_wraps_counter :
    (MessageParser.mk 1 18446744073709551615 0).last_sequence_ ≠ 0 ∧
    (quote_frame 3).valid ∧
    (quote_frame 3).header.sequence_num = 3 ∧
    (MessageParser.mk 1 18446744073709551615 0).last_sequence_ + 1 <
      (quote_frame 3).header.sequence_num ∧
    ((MessageParser.mk 1 18446744073709551615 0).parse (quote_frame 3)).2.sequence_gaps = 0 ∧
    ((MessageParser.mk 1 18446744073709551615 0).parse (quote_frame 3)).2.sequence_gaps ≠
      (MessageParser.mk 1 18446744073709551615 0).sequence_gaps + (3 - 1 - 1) := by
  decide

/-- C4 (amended): for a parser state with `last_sequence_ != 0` and a valid
frame, if `sequence_num > last_sequence_ + 1` then `parse` adds
`sequence_num - last_sequence_ - 1` to `sequence_gaps()` in `uint64_t` (the
sum modulo `2^64`, hence the exact sum whenever it is below `2^64`) and sets
`last_sequence_` to `sequence_num`; if `sequence_num == last_sequence_ + 1` it
leaves `sequence_gaps()` unchanged. -/
theorem parse_counts_gap (p : MessageParser) (raw : RawMessage)
    (hl : p.last_sequence_ ≠ 0) (hv : raw.valid) :
    (p.last_sequence_ + 1 < raw.header.sequence_num →
      (p.parse raw).2.sequence_gaps =
        (p.sequence_gaps + (raw.header.sequence_num - p.last_sequence_ - 1)) %
          18446744073709551616 ∧
      (p.sequence_gaps + (raw.header.sequence_num - p.last_sequence_ - 1) <
          18446744073709551616 →
        (p.parse raw).2.sequence_gaps =
          p.sequence_gaps + (raw.header.sequence_num - p.last_sequence_ - 1)) ∧
      (p.parse raw).2.last_sequence_ = raw.header.sequence_num) ∧
    (raw.header.sequence_num = p.last_sequence_ + 1 →
      (p.parse raw).2.sequence_gaps = p.sequence_gaps ∧
      (p.parse raw).2.last_sequence_ = raw.header.sequence_num) := by
  have hb := raw.sequence_num_lt
  rw [parse_of_valid p raw hv]
  simp only [MessageParser.accept_state, MessageParser.sequence_gaps]
  constructor
  · intro hgt
    rw [if_pos ⟨hl, by omega⟩, gap_u32_of_lt _ _ hb hgt]
    exact ⟨rfl, fun hlt => Nat.mod_eq_of_lt hlt, trivial⟩
  · intro heq
    rw [if_neg (by omega)]
    exact ⟨rfl, trivial⟩

/-- C4 (witness): after sequence number 2, the frame numbered 5 adds 2 to the
gap counter and the frame numbered 3 adds nothing. -/
theorem parse_counts_gap_witness :
    ((MessageParser.mk 2 0 0).parse (quote_frame 5)).2.sequence_gaps = 0 + (5 - 2 - 1) ∧
    ((MessageParser.mk 2 0 0).parse (quote_frame 5)).2.last_sequence_ = 5 ∧
    ((MessageParser.mk 2 0 0).parse (quote_frame 3)).2.sequence_gaps = 0 :=
  ⟨((parse_counts_gap (MessageParser.mk 2 0 0) (quote_frame 5) (by decide)
      (by decide)).1 (by decide)).2.1 (by decide),
   ((parse_counts_gap (MessageParser.mk 2 0 0) (quote_frame 5) (by decide)
      (by decide)).1 (by decide)).2.2,
   ((parse_counts_gap (MessageParser.mk 2 0 0) (quote_frame 3) (by decide)
      (by decide)).2 (by decide)).1⟩

/-- C5: a freshly constructed parser that parses a non-empty list of valid
frames with strictly increasing sequence numbers `s1 < ... < sn`, `s1 >= 1`,
ends with `sequence_gaps() = sn - s1 - (n - 1)` (where `s1 + (n - 1) <= sn`, so
the subtraction is exact) and `invalid_messages() = 0`. -/
theorem sequence_gaps_of_increasing (raws : List RawMessage) (hne : raws ≠ [])
    (hv : ∀ raw ∈ raws, raw.valid)
    (hinc : (raws.map (fun raw => raw.header.sequence_num)).Pairwise (· < ·))
    (h1 : 1 ≤ (raws.head hne).header.sequence_num) :
    (({} : MessageParser).parse_all raws).sequence_gaps =
      (raws.getLast hne).header.sequence_num - (raws.head hne).header.sequence_num -
        (raws.length - 1) ∧
    (raws.head hne).header.sequence_num + (raws.length - 1) ≤
      (raws.getLast hne).header.sequence_num ∧
    (({} : MessageParser).parse_all raws).invalid_messages = 0 := by
  cases raws with
  | nil => exact absurd rfl hne
  | cons raw rest =>
    simp only [List.head_cons] at h1 ⊢
    have hvr := hv raw (List.mem_cons_self _ _)
    rw [List.map_cons, List.pairwise_cons] at hinc
    have hfold : ({} : MessageParser).parse_all (raw :: rest) =
        (({} : MessageParser).accept_state raw.header).parse_all rest := by
      simp only [MessageParser.parse_all, List.foldl_cons, parse_of_valid _ raw hvr]
    have key := parse_all_increasing rest (({} : MessageParser).accept_state raw.header)
      h1 (Nat.zero_le _) (fun r hr => hv r (List.mem_cons_of_mem _ hr))
      (fun r hr => hinc.1 _ (List.mem_map_of_mem (fun raw => raw.header.sequence_num) hr))
      hinc.2
    obtain ⟨k1, k2, k3⟩ := key
    have hlast : (({} : MessageParser).accept_state raw.header).last_sequence_ =
        raw.header.sequence_num := rfl
    have hg0 : (({} : MessageParser).accept_state raw.header).gaps_ = 0 := rfl
    have hi0 : (({} : MessageParser).accept_state raw.header).invalid_ = 0 := rfl
    have hsn : ((({} : MessageParser).accept_state raw.header).parse_all rest).last_sequence_ =
        ((raw :: rest).getLast hne).header.sequence_num := by
      rw [k2, hlast, getLastD_map_cons]
    rw [hfold]
    rw [hlast, hg0, hsn] at k3
    simp only [MessageParser.sequence_gaps, MessageParser.invalid_messages, List.length_cons]
    refine ⟨by omega, by omega, by rw [k1, hi0]⟩

/-- C5 (witness): the sequences 1, 2, 5 give 2 gaps, 1, 3, 4 give 1 and a
single first message gives 0. -/
theorem sequence_gaps_of_increasing_witness :
    (({} : MessageParser).parse_all
      [quote_frame 1, quote_frame 2, quote_frame 5]).sequence_gaps = 2 ∧
    (({} : MessageParser).parse_all
      [quote_frame 1, quote_frame 3, quote_frame 4]).sequence_gaps = 1 ∧
    (({} : MessageParser).parse_all [quote_frame 1]).sequence_gaps = 0 ∧
    (({} : MessageParser).parse_all
      [quote_frame 1, quote_frame 2, quote_frame 5]).invalid_messages = 0 :=
  ⟨(sequence_gaps_of_increasing [quote_frame 1, quote_frame 2, quote_frame 5]
      (by decide) (by decide) (by decide) (by decide)).1,
   (sequence_gaps_of_increasing [quote_frame 1, quote_frame 3, quote_frame 4]
      (by decide) (by decide) (by decide) (by decide)).1,
   (sequence_gaps_of_increasing [quote_frame 1]
      (by decide) (by decide) (by decide) (by decide)).1,
   (sequence_gaps_of_increasing [quote_frame 1, quote_frame 2, quote_frame 5]
      (by decide) (by decide) (by decide) (by decide)).2.2⟩

/-- C6 (the code at the failing input): with `last_sequence_ = 5`, the valid
frame with sequence number 3 is a regression; `parse` accepts it, sets
`last_sequence_` to 3 and leaves `invalid_messages()` unchanged, but adds
`(3 - 5 - 1) mod 2^32 = 4294967293` to `sequence_gaps()`. -/
theorem parse_regression_changes_gaps :
    (quote_frame 3).valid ∧
    (quote_frame 3).header.sequence_num < (MessageParser.mk 5 0 0).last_sequence_ ∧
    ((MessageParser.mk 5 0 0).parse (quote_frame 3)).1 = some (quote_frame 3).header ∧
    ((MessageParser.mk 5 0 0).parse (quote_frame 3)).2.last_sequence_ = 3 ∧
    ((MessageParser.mk 5 0 0).parse (quote_frame 3)).2.invalid_messages = 0 ∧
    ((MessageParser.mk 5 0 0).parse (quote_frame 3)).2.sequence_gaps = 4294967293 ∧
    ((MessageParser.mk 5 0 0).parse (quote_frame 3)).2.sequence_gaps ≠
      (MessageParser.mk 5 0 0).sequence_gaps := by
  decide

/-! ## Ring: auxiliary facts -/

theorem mask_and (k x : Nat) : x &&& SPSCRingBuffer.mask_ (2 ^ k) = x % 2 ^ k := by
  unfold SPSCRingBuffer.mask_
  exact Nat.and_pow_two_sub_one_eq_mod x k

theorem succ_mod_of_lt {x N : Nat} (h : x < N) :
    (x + 1) % N = if x + 1 = N then 0 else x + 1 := by
  split_ifs with h1
  · rw [h1]; exact Nat.mod_self N
  · exact Nat.mod_eq_of_lt (by omega)

theorem add_mod_of_lt {a b N : Nat} (ha : a < N) (hb : b < N) :
    (a + b) % N = if a + b < N then a + b else a + b - N := by
  split_ifs with h
  · exact Nat.mod_eq_of_lt h
  · rw [Nat.mod_eq_sub_mod (by omega)]
    exact Nat.mod_eq_of_lt (by omega)

theorem try_push_eq {T : Type} (k : Nat) (r : SPSCRingBuffer T) (item : T) :
    r.try_push (2 ^ k) item =
      if (r.head_ + 1) % 2 ^ k = r.tail_ then (false, r)
      else (true, { r with buffer_ := r.buffer_.set r.head_ item,
                           head_ := (r.head_ + 1) % 2 ^ k }) := by
  simp only [SPSCRingBuffer.try_push, mask_and]

theorem try_pop_eq {T : Type} (k : Nat) (r : SPSCRingBuffer T) (item : T) :
    r.try_pop (2 ^ k) item =
      if r.tail_ = r.head_ then (false, item, r)
      else (true, r.buffer_.getD r.tail_ item,
            { r with tail_ := (r.tail_ + 1) % 2 ^ k }) := by
  simp only [SPSCRingBuffer.try_pop, mask_and]

theorem size_lt {T : Type} {N : Nat} {r : SPSCRingBuffer T} (h : r.wf N) : r.size N < N := by
  obtain ⟨h1, h2, _⟩ := h
  simp only [SPSCRingBuffer.size]
  split_ifs <;> omega

theorem head_eq_tail_add_size {T : Type} {N : Nat} {r : SPSCRingBuffer T} (h : r.wf N) :
    (r.tail_ + r.size N) % N = r.head_ := by
  have hs := size_lt h
  obtain ⟨h1, h2, _⟩ := h
  rw [add_mod_of_lt h2 hs]
  simp only [SPSCRingBuffer.size] at hs ⊢
  split_ifs at hs ⊢ <;> omega

theorem full_iff_size {T : Type} {N : Nat} {r : SPSCRingBuffer T} (h : r.wf N) :
    (r.head_ + 1) % N = r.tail_ ↔ r.size N = N - 1 := by
  obtain ⟨h1, h2, _⟩ := h
  rw [succ_mod_of_lt h1]
  simp only [SPSCRingBuffer.size]
  split_ifs <;> omega

theorem empty_iff_size {T : Type} {N : Nat} {r : SPSCRingBuffer T} (h : r.wf N) :
    r.tail_ = r.head_ ↔ r.size N = 0 := by
  obtain ⟨h1, h2, _⟩ := h
  simp only [SPSCRingBuffer.size]
  split_ifs <;> omega

theorem slots_from_length {T : Type} (N : Nat) (buffer : List T) (hlen : buffer.length = N) :
    ∀ (n tail : Nat), tail < N → (SPSCRingBuffer.slots_from N buffer tail n).length = n := by
  intro n
  induction n with
  | zero => intro tail _; rfl
  | succ n ih =>
    intro tail ht
    have hN : 0 < N := by omega
    simp only [SPSCRingBuffer.slots_from, List.length_append,
      ih ((tail + 1) % N) (Nat.mod_lt _ hN)]
    rw [List.getElem?_eq_getElem (by omega)]
    simp
    omega

theorem slots_from_set_append {T : Type} (N : Nat) (buffer : List T) (v : T)
    (hlen : buffer.length = N) :
    ∀ (n tail : Nat), tail < N → n < N →
      SPSCRingBuffer.slots_from N (buffer.set ((tail + n) % N) v) tail (n + 1) =
        SPSCRingBuffer.slots_from N buffer tail n ++ [v] := by
  intro n
  induction n with
  | zero =>
    intro tail ht _
    simp only [SPSCRingBuffer.slots_from, Nat.add_zero, Nat.mod_eq_of_lt ht]
    rw [List.getElem?_set_self (by omega)]
    rfl
  | succ n ih =>
    intro tail ht hn
    have hN : 0 < N := by omega
    have hidx : (tail + (n + 1)) % N = ((tail + 1) % N + n) % N := by
      rw [Nat.mod_add_mod]
      congr 1
      omega
    have hne : (tail + (n + 1)) % N ≠ tail := by
      rw [add_mod_of_lt ht hn]
      split_ifs <;> omega
    have step := ih ((tail + 1) % N) (Nat.mod_lt _ hN) (by omega)
    rw [← hidx] at step
    rw [SPSCRingBuffer.slots_from, step, List.getElem?_set_ne hne]
    rw [SPSCRingBuffer.slots_from, List.append_assoc]

theorem slots_from_pop {T : Type} (N : Nat) (buffer : List T) (item : T) (tail n : Nat)
    (ht : tail < buffer.length) :
    SPSCRingBuffer.slots_from N buffer tail (n + 1) =
      buffer.getD tail item :: SPSCRingBuffer.slots_from N buffer ((tail + 1) % N) n := by
  rw [SPSCRingBuffer.slots_from, List.getD_eq_getElem _ _ ht, List.getElem?_eq_getElem ht]
  rfl

theorem inv_push {T : Type} (k : Nat) (t : RingRun T) (item : T) (h : t.inv (2 ^ k)) :
    (t.step (2 ^ k) (RingOp.push item)).inv (2 ^ k) := by
  obtain ⟨hwf, hq, hc⟩ := h
  have hs := size_lt hwf
  have hht := head_eq_tail_add_size hwf
  obtain ⟨h1, h2, h3⟩ := hwf
  simp only [RingRun.step, try_push_eq]
  by_cases hfull : (t.ring.head_ + 1) % 2 ^ k = t.ring.tail_
  · simp only [if_pos hfull, Bool.false_eq_true, if_false]
    exact ⟨⟨h1, h2, h3⟩, hq, hc⟩
  · simp only [if_neg hfull, if_true]
    have hN : 0 < 2 ^ k := by omega
    have hsz : SPSCRingBuffer.size (2 ^ k)
        { t.ring with buffer_ := t.ring.buffer_.set t.ring.head_ item,
                      head_ := (t.ring.head_ + 1) % 2 ^ k } = t.ring.size (2 ^ k) + 1 := by
      rw [succ_mod_of_lt h1] at hfull ⊢
      simp only [SPSCRingBuffer.size]
      split_ifs at hfull ⊢ <;> omega
    refine ⟨⟨Nat.mod_lt _ hN, h2, by simp [h3]⟩, ?_, ?_⟩
    · have happ := slots_from_set_append (2 ^ k) t.ring.buffer_ item h3
        (t.ring.size (2 ^ k)) t.ring.tail_ h2 hs
      rw [hht] at happ
      simp only [SPSCRingBuffer.items] at hq ⊢
      rw [hsz, happ, hq, List.append_assoc]
    · show t.popped.length + SPSCRingBuffer.size (2 ^ k)
        { t.ring with buffer_ := t.ring.buffer_.set t.ring.head_ item,
                      head_ := (t.ring.head_ + 1) % 2 ^ k } = (t.pushed ++ [item]).length
      rw [hsz, List.length_append, List.length_singleton]
      omega

theorem inv_pop {T : Type} (k : Nat) (t : RingRun T) (item : T) (h : t.inv (2 ^ k)) :
    (t.step (2 ^ k) (RingOp.pop item)).inv (2 ^ k) := by
  obtain ⟨hwf, hq, hc⟩ := h
  have hs := size_lt hwf
  obtain ⟨h1, h2, h3⟩ := hwf
  simp only [RingRun.step, try_pop_eq]
  by_cases hempty : t.ring.tail_ = t.ring.head_
  · simp only [if_pos hempty, Bool.false_eq_true, if_false]
    exact ⟨⟨h1, h2, h3⟩, hq, hc⟩
  · simp only [if_neg hempty, if_true]
    have hN : 0 < 2 ^ k := by omega
    have hsz : t.ring.size (2 ^ k) = SPSCRingBuffer.size (2 ^ k)
        { t.ring with tail_ := (t.ring.tail_ + 1) % 2 ^ k } + 1 := by
      rw [succ_mod_of_lt h2]
      simp only [SPSCRingBuffer.size]
      split_ifs <;> omega
    refine ⟨⟨h1, Nat.mod_lt _ hN, h3⟩, ?_, ?_⟩
    · simp only [SPSCRingBuffer.items] at hq ⊢
      rw [hsz, slots_from_pop (2 ^ k) t.ring.buffer_ item t.ring.tail_ _ (by omega)] at hq
      rw [hq, List.append_assoc]
      rfl
    · show (t.popped ++ [t.ring.buffer_.getD t.ring.tail_ item]).length +
        SPSCRingBuffer.size (2 ^ k) { t.ring with tail_ := (t.ring.tail_ + 1) % 2 ^ k } =
          t.pushed.length
      rw [List.length_append, List.length_singleton]
      omega

theorem inv_step {T : Type} (k : Nat) (t : RingRun T) (op : RingOp T) (h : t.inv (2 ^ k)) :
    (t.step (2 ^ k) op).inv (2 ^ k) := by
  cases op with
  | push item => exact inv_push k t item h
  | pop item => exact inv_pop k t item h

theorem inv_foldl {T : Type} (k : Nat) (ops : List (RingOp T)) :
    ∀ t : RingRun T, t.inv (2 ^ k) → (ops.foldl (RingRun.step (2 ^ k)) t).inv (2 ^ k) := by
  induction ops with
  | nil => intro t h; exact h
  | cons op ops ih => intro t h; exact ih _ (inv_step k t op h)

theorem inv_run {T : Type} (k : Nat) (slots : List T) (hlen : slots.length = 2 ^ k)
    (ops : List (RingOp T)) : (RingRun.run (2 ^ k) slots ops).inv (2 ^ k) := by
  apply inv_foldl
  have hN : 0 < 2 ^ k := Nat.two_pow_pos k
  exact ⟨⟨hN, hN, hlen⟩, rfl, rfl⟩

theorem push_flags_from {T : Type} (k : Nat) (items : List T) :
    ∀ r : SPSCRingBuffer T, r.tail_ = 0 → r.head_ + items.length = 2 ^ k → items ≠ [] →
      SPSCRingBuffer.push_flags (2 ^ k) r items =
        List.replicate (items.length - 1) true ++ [false] := by
  induction items with
  | nil => intro r _ _ h; exact absurd rfl h
  | cons item rest ih =>
    intro r ht hh _
    rw [List.length_cons] at hh
    have h1 : r.head_ < 2 ^ k := by omega
    rw [SPSCRingBuffer.push_flags, try_push_eq]
    cases rest with
    | nil =>
      rw [List.length_nil] at hh
      have hm : (r.head_ + 1) % 2 ^ k = r.tail_ := by
        rw [succ_mod_of_lt h1, if_pos (by omega), ht]
      rw [if_pos hm]
      rfl
    | cons item2 rest2 =>
      rw [List.length_cons] at hh
      have hm : (r.head_ + 1) % 2 ^ k = r.head_ + 1 := by
        rw [succ_mod_of_lt h1, if_neg (by omega)]
      rw [hm, if_neg (by omega)]
      have hrec := ih { r with buffer_ := r.buffer_.set r.head_ item, head_ := r.head_ + 1 }
        ht (by simp only [List.length_cons]; omega) (List.cons_ne_nil _ _)
      simp only [hrec, List.length_cons, Nat.add_sub_cancel]
      rfl

/-! ## Ring: main results -/

/-- C7: in the sequential model, for every sequence of `try_push` and
`try_pop` calls starting from the empty ring (of `2^k` slots), the values
returned by the successful pops are a prefix of the values of the successful
pushes, in push order; the pushed values not yet popped are exactly the items
still stored, so nothing is lost, duplicated or reordered. -/
theorem ring_fifo {T : Type} (k : Nat) (slots : List T) (hlen : slots.length = 2 ^ k)
    (ops : List (RingOp T)) :
    (RingRun.run (2 ^ k) slots ops).popped =
      (RingRun.run (2 ^ k) slots ops).pushed.take (RingRun.run (2 ^ k) slots ops).popped.length ∧
    (RingRun.run (2 ^ k) slots ops).pushed =
      (RingRun.run (2 ^ k) slots ops).popped ++
        (RingRun.run (2 ^ k) slots ops).ring.items (2 ^ k) := by
  have h := (inv_run k slots hlen ops).2.1
  refine ⟨?_, h⟩
  conv => rhs; rw [h]
  rw [List.take_left]

/-- C7 (witness): the calls of `tests/test_ring_buffer.cpp` on a ring of 8
slots, followed by a push and a pop. -/
theorem ring_fifo_witness :
    (RingRun.run (2 ^ 3) (List.replicate 8 (0 : Int))
      [RingOp.push 0, RingOp.push 1, RingOp.push 2, RingOp.pop (-1), RingOp.push 3,
       RingOp.pop (-1)]).popped =
    (RingRun.run (2 ^ 3) (List.replicate 8 (0 : Int))
      [RingOp.push 0, RingOp.push 1, RingOp.push 2, RingOp.pop (-1), RingOp.push 3,
       RingOp.pop (-1)]).pushed.take
      (RingRun.run (2 ^ 3) (List.replicate 8 (0 : Int))
        [RingOp.push 0, RingOp.push 1, RingOp.push 2, RingOp.pop (-1), RingOp.push 3,
         RingOp.pop (-1)]).popped.length :=
  (ring_fifo 3 (List.replicate 8 (0 : Int)) (by decide)
    [RingOp.push 0, RingOp.push 1, RingOp.push 2, RingOp.pop (-1), RingOp.push 3,
     RingOp.pop (-1)]).1

/-- C8: for a ring of `N = 2^k` slots with `head_, tail_ < N`, `try_push`
returns false exactly when `(head + 1) mod N == tail`, which is exactly when
`size()` is `N - 1`, and then the ring (head, tail and every slot) is
unchanged; starting from the empty ring, of `N` consecutive `try_push` calls
the first `N - 1` succeed and the `N`-th fails. -/
theorem try_push_full {T : Type} (k : Nat) (r : SPSCRingBuffer T) (item : T)
    (hwf : r.wf (2 ^ k)) :
    ((r.try_push (2 ^ k) item).1 = false ↔ (r.head_ + 1) % 2 ^ k = r.tail_) ∧
    ((r.head_ + 1) % 2 ^ k = r.tail_ ↔ r.size (2 ^ k) = 2 ^ k - 1) ∧
    ((r.try_push (2 ^ k) item).1 = false → (r.try_push (2 ^ k) item).2 = r) ∧
    (∀ slots items : List T, slots.length = 2 ^ k → items.length = 2 ^ k →
      SPSCRingBuffer.push_flags (2 ^ k) (SPSCRingBuffer.empty slots) items =
        List.replicate (2 ^ k - 1) true ++ [false]) := by
  refine ⟨?_, full_iff_size hwf, ?_, ?_⟩
  · rw [try_push_eq]
    split_ifs with h <;> simp [h]
  · rw [try_push_eq]
    split_ifs with h <;> simp
  · intro slots items _ hitems
    have hN : 0 < 2 ^ k := Nat.two_pow_pos k
    have hne : items ≠ [] := by
      intro h0
      rw [h0, List.length_nil] at hitems
      omega
    rw [push_flags_from k items (SPSCRingBuffer.empty slots) rfl
      (by simp only [SPSCRingBuffer.empty]; omega) hne, hitems]

/-- C8 (witness): on the empty ring of 8 slots, seven pushes succeed and the
eighth fails. -/
theorem try_push_full_witness :
    SPSCRingBuffer.push_flags (2 ^ 3) (SPSCRingBuffer.empty (List.replicate 8 (0 : Int)))
      [0, 1, 2, 3, 4, 5, 6, 99] = List.replicate (2 ^ 3 - 1) true ++ [false] :=
  (try_push_full 3 (SPSCRingBuffer.empty (List.replicate 8 (0 : Int))) 0
    ⟨by decide, by decide, by decide⟩).2.2.2
    (List.replicate 8 (0 : Int)) [0, 1, 2, 3, 4, 5, 6, 99] (by decide) (by decide)

/-- C9 (counterexample): on a ring of 8 slots that holds the single item 1
(reachable, not full), `try_push(2)` succeeds and the immediately following
`try_pop` succeeds but returns 1, the oldest item, not 2. -/
theorem push_pop_not_same_counter :
    (RingRun.run 8 (List.replicate 8 (0 : Int)) [RingOp.push 1]).ring.size 8 < 8 - 1 ∧
    ((RingRun.run 8 (List.replicate 8 (0 : Int)) [RingOp.push 1]).ring.try_push 8 2).1 = true ∧
    (((RingRun.run 8 (List.replicate 8 (0 : Int)) [RingOp.push 1]).ring.try_push 8 2).2.try_pop
      8 0).1 = true ∧
    (((RingRun.run 8 (List.replicate 8 (0 : Int)) [RingOp.push 1]).ring.try_push 8 2).2.try_pop
      8 0).2.1 = 1 ∧
    (((RingRun.run 8 (List.replicate 8 (0 : Int)) [RingOp.push 1]).ring.try_push 8 2).2.try_pop
      8 0).2.1 ≠ 2 := by
  decide

/-- C9 (amended): for every ring state reachable from the empty ring that is
not full and every value `v`, `try_push(v)` succeeds and the immediately
following `try_pop` succeeds; it returns `v` when the ring was empty before
the push, and otherwise the oldest stored item, the one a `try_pop` made
instead of the push would have returned. -/
theorem push_then_pop {T : Type} (k : Nat) (slots : List T) (hlen : slots.length = 2 ^ k)
    (ops : List (RingOp T)) (v out : T)
    (hnf : (RingRun.run (2 ^ k) slots ops).ring.size (2 ^ k) < 2 ^ k - 1) :
    ((RingRun.run (2 ^ k) slots ops).ring.try_push (2 ^ k) v).1 = true ∧
    (((RingRun.run (2 ^ k) slots ops).ring.try_push (2 ^ k) v).2.try_pop (2 ^ k) out).1 = true ∧
    ((RingRun.run (2 ^ k) slots ops).ring.size (2 ^ k) = 0 →
      (((RingRun.run (2 ^ k) slots ops).ring.try_push (2 ^ k) v).2.try_pop
        (2 ^ k) out).2.1 = v) ∧
    ((RingRun.run (2 ^ k) slots ops).ring.size (2 ^ k) ≠ 0 →
      ((RingRun.run (2 ^ k) slots ops).ring.try_pop (2 ^ k) out).1 = true ∧
      (((RingRun.run (2 ^ k) slots ops).ring.try_push (2 ^ k) v).2.try_pop
        (2 ^ k) out).2.1 =
        ((RingRun.run (2 ^ k) slots ops).ring.try_pop (2 ^ k) out).2.1) := by
  have hwf := (inv_run k slots hlen ops).1
  generalize (RingRun.run (2 ^ k) slots ops).ring = r at hwf hnf ⊢
  have hfull := full_iff_size hwf
  have hemp := empty_iff_size hwf
  obtain ⟨h1, h2, h3⟩ := hwf
  have hnot : ¬ (r.head_ + 1) % 2 ^ k = r.tail_ := fun h => by
    have := hfull.mp h
    omega
  have hnot2 : ¬ r.tail_ = (r.head_ + 1) % 2 ^ k := fun h => hnot h.symm
  simp only [try_push_eq, try_pop_eq, if_neg hnot, if_neg hnot2, true_and]
  constructor
  · intro h0
    rw [hemp.mpr h0, List.getD_eq_getElem?_getD, List.getElem?_set_self (by omega)]
    rfl
  · intro h0
    have hne : r.tail_ ≠ r.head_ := fun h => h0 (hemp.mp h)
    rw [if_neg hne]
    refine ⟨rfl, ?_⟩
    show (r.buffer_.set r.head_ v).getD r.tail_ out = r.buffer_.getD r.tail_ out
    rw [List.getD_eq_getElem?_getD, List.getElem?_set_ne (Ne.symm hne),
      ← List.getD_eq_getElem?_getD]

/-- C9 (witness): on the empty ring of 8 slots, `try_push(7)` followed by
`try_pop` returns 7. -/
theorem push_then_pop_witness :
    (((RingRun.run (2 ^ 3) (List.replicate 8 (0 : Int)) []).ring.try_push (2 ^ 3) 7).2.try_pop
      (2 ^ 3) (-1)).2.1 = 7 :=
  (push_then_pop 3 (List.replicate 8 (0 : Int)) (by decide) [] 7 (-1) (by decide)).2.2.1
    (by decide)

/-- C10: in every ring state reachable from the empty ring (of `2^k` slots) by
`try_push` and `try_pop` calls, `head_` and `tail_` are below `N = 2^k`,
`size()` equals the number of successful pushes minus the number of
successful pops, `size()` is at most `N - 1`, and `try_pop` returns false
exactly when `size() == 0`. -/
theorem ring_size_invariant {T : Type} (k : Nat) (slots : List T)
    (hlen : slots.length = 2 ^ k) (ops : List (RingOp T)) (out : T) :
    (RingRun.run (2 ^ k) slots ops).ring.head_ < 2 ^ k ∧
    (RingRun.run (2 ^ k) slots ops).ring.tail_ < 2 ^ k ∧
    (RingRun.run (2 ^ k) slots ops).popped.length ≤
      (RingRun.run (2 ^ k) slots ops).pushed.length ∧
    (RingRun.run (2 ^ k) slots ops).ring.size (2 ^ k) =
      (RingRun.run (2 ^ k) slots ops).pushed.length -
        (RingRun.run (2 ^ k) slots ops).popped.length ∧
    (RingRun.run (2 ^ k) slots ops).ring.size (2 ^ k) ≤ 2 ^ k - 1 ∧
    (((RingRun.run (2 ^ k) slots ops).ring.try_pop (2 ^ k) out).1 = false ↔
      (RingRun.run (2 ^ k) slots ops).ring.size (2 ^ k) = 0) := by
  obtain ⟨hwf, _, hc⟩ := inv_run k slots hlen ops
  have hs := size_lt hwf
  have hemp := empty_iff_size hwf
  refine ⟨hwf.1, hwf.2.1, by omega, by omega, by omega, ?_⟩
  rw [← hemp, try_pop_eq]
  split_ifs with h <;> simp [h]

/-- C10 (witness): the calls of `tests/test_ring_buffer.cpp` on a ring of 8
slots: after seven pushes, a refused push and three pops, `size()` is 4. -/
theorem ring_size_invariant_witness :
    (RingRun.run (2 ^ 3) (List.replicate 8 (0 : Int))
      [RingOp.push 0, RingOp.push 1, RingOp.push 2, RingOp.push 3, RingOp.push 4,
       RingOp.push 5, RingOp.push 6, RingOp.push 99, RingOp.pop (-1), RingOp.pop (-1),
       RingOp.pop (-1)]).ring.size (2 ^ 3) =
    (RingRun.run (2 ^ 3) (List.replicate 8 (0 : Int))
      [RingOp.push 0, RingOp.push 1, RingOp.push 2, RingOp.push 3, RingOp.push 4,
       RingOp.push 5, RingOp.push 6, RingOp.push 99, RingOp.pop (-1), RingOp.pop (-1),
       RingOp.pop (-1)]).pushed.length -
    (RingRun.run (2 ^ 3) (List.replicate 8 (0 : Int))
      [RingOp.push 0, RingOp.push 1, RingOp.push 2, RingOp.push 3, RingOp.push 4,
       RingOp.push 5, RingOp.push 6, RingOp.push 99, RingOp.pop (-1), RingOp.pop (-1),
       RingOp.pop (-1)]).popped.length :=
  (ring_size_invariant 3 (List.replicate 8 (0 : Int)) (by decide)
    [RingOp.push 0, RingOp.push 1, RingOp.push 2, RingOp.push 3, RingOp.push 4,
     RingOp.push 5, RingOp.push 6, RingOp.push 99, RingOp.pop (-1), RingOp.pop (-1),
     RingOp.pop (-1)] (-1)).2.2.2.1

/-! ## Order book: auxiliary facts about the containers -/

theorem greater_i64_comparator : IsComparator greater_i64 :=
  ⟨fun a => by simp [greater_i64],
   fun a b c h1 h2 => by simp only [greater_i64, decide_eq_true_eq] at *; omega,
   fun a b h => by simp only [greater_i64, decide_eq_true_eq]; omega⟩

theorem less_i64_comparator : IsComparator less_i64 :=
  ⟨fun a => by simp [less_i64],
   fun a b c h1 h2 => by simp only [less_i64, decide_eq_true_eq] at *; omega,
   fun a b h => by simp only [less_i64, decide_eq_true_eq]; omega⟩

theorem less_u64_comparator : IsComparator less_u64 :=
  ⟨fun a => by simp [less_u64],
   fun a b c h1 h2 => by simp only [less_u64, decide_eq_true_eq] at *; omega,
   fun a b h => by simp only [less_u64, decide_eq_true_eq]; omega⟩

theorem map_find_assign {K V : Type} [DecidableEq K] (comp : K → K → Bool)
    (m : List (K × V)) (k : K) (v : V) (k' : K) :
    map_find (map_assign comp m k v) k' = if k' = k then some v else map_find m k' := by
  induction m with
  | nil =>
    simp only [map_assign, map_find]
    split_ifs with h1 h2 h2
    · rfl
    · exact absurd h1.symm h2
    · exact absurd h2.symm h1
    · rfl
  | cons kv rest ih =>
    obtain ⟨k1, v1⟩ := kv
    simp only [map_assign]
    by_cases h1 : k1 = k
    · subst h1
      simp only [if_true, map_find]
      by_cases h2 : k1 = k'
      · subst h2; simp
      · rw [if_neg h2, if_neg (fun h => h2 h.symm), if_neg h2]
    · rw [if_neg h1]
      by_cases h3 : comp k k1 = true
      · rw [if_pos h3]
        simp only [map_find]
        by_cases h2 : k = k'
        · subst h2; simp
        · have h2' : ¬ k' = k := fun h => h2 h.symm
          rw [if_neg h2, if_neg h2']
      · rw [if_neg h3]
        simp only [map_find, ih]
        by_cases h2 : k' = k
        · subst h2; rw [if_neg h1, if_pos rfl, if_pos rfl]
        · rw [if_neg h2, if_neg h2]

theorem map_find_erase_ne {K V : Type} [DecidableEq K] (m : List (K × V)) (k k' : K)
    (h : k' ≠ k) : map_find (map_erase m k) k' = map_find m k' := by
  induction m with
  | nil => rfl
  | cons kv rest ih =>
    obtain ⟨k1, v1⟩ := kv
    simp only [map_erase]
    by_cases h1 : k1 = k
    · subst h1
      rw [if_pos rfl]
      simp only [map_find]
      rw [if_neg (fun h2 => h h2.symm)]
    · rw [if_neg h1]
      simp only [map_find, ih]

theorem map_find_eq_none_iff {K V : Type} [DecidableEq K] (m : List (K × V)) (k : K) :
    map_find m k = none ↔ k ∉ m.map Prod.fst := by
  induction m with
  | nil => simp [map_find]
  | cons kv rest ih =>
    obtain ⟨k1, v1⟩ := kv
    simp only [map_find, List.map_cons, List.mem_cons, not_or]
    by_cases h1 : k1 = k
    · subst h1; simp
    · rw [if_neg h1, ih]
      exact ⟨fun h => ⟨fun h2 => h1 h2.symm, h⟩, fun h => h.2⟩

theorem map_wf_tail {K V : Type} {comp : K → K → Bool} {kv : K × V} {rest : List (K × V)}
    (h : map_wf comp (kv :: rest)) : map_wf comp rest := by
  unfold map_wf at h ⊢
  rw [List.map_cons, List.pairwise_cons] at h
  exact h.2

theorem map_wf_head {K V : Type} {comp : K → K → Bool} {kv : K × V} {rest : List (K × V)}
    (h : map_wf comp (kv :: rest)) : ∀ k ∈ rest.map Prod.fst, comp kv.1 k = true := by
  unfold map_wf at h
  rw [List.map_cons, List.pairwise_cons] at h
  exact h.1

theorem map_find_tail_none {K V : Type} [DecidableEq K] {comp : K → K → Bool}
    (hc : IsComparator comp) {kv : K × V} {rest : List (K × V)}
    (h : map_wf comp (kv :: rest)) : map_find rest kv.1 = none := by
  rw [map_find_eq_none_iff]
  intro hmem
  have := map_wf_head h _ hmem
  rw [hc.irrefl] at this
  exact Bool.noConfusion this

theorem map_find_erase_self {K V : Type} [DecidableEq K] {comp : K → K → Bool}
    (hc : IsComparator comp) (m : List (K × V)) (k : K) (h : map_wf comp m) :
    map_find (map_erase m k) k = none := by
  induction m with
  | nil => rfl
  | cons kv rest ih =>
    obtain ⟨k1, v1⟩ := kv
    simp only [map_erase]
    by_cases h1 : k1 = k
    · subst h1
      rw [if_pos rfl]
      exact map_find_tail_none hc h
    · rw [if_neg h1]
      simp only [map_find]
      rw [if_neg h1]
      exact ih (map_wf_tail h)

theorem map_find_erase {K V : Type} [DecidableEq K] {comp : K → K → Bool}
    (hc : IsComparator comp) (m : List (K × V)) (k k' : K) (h : map_wf comp m) :
    map_find (map_erase m k) k' = if k' = k then none else map_find m k' := by
  by_cases h1 : k' = k
  · subst h1
    rw [if_pos rfl]
    exact map_find_erase_self hc m k' h
  · rw [if_neg h1]
    exact map_find_erase_ne m k k' h1

theorem mem_keys_assign {K V : Type} [DecidableEq K] (comp : K → K → Bool)
    (m : List (K × V)) (k : K) (v : V) (k' : K) :
    k' ∈ (map_assign comp m k v).map Prod.fst ↔ k' = k ∨ k' ∈ m.map Prod.fst := by
  have h1 := map_find_eq_none_iff (map_assign comp m k v) k'
  have h2 := map_find_eq_none_iff m k'
  rw [map_find_assign] at h1
  by_cases hk : k' = k
  · rw [if_pos hk] at h1
    constructor
    · intro _; exact Or.inl hk
    · intro _
      by_contra hn
      exact Option.noConfusion (h1.mpr hn)
  · rw [if_neg hk] at h1
    constructor
    · intro hm
      right
      by_contra hn
      exact (h1.mp (h2.mpr hn)) hm
    · rintro (hm | hm)
      · exact absurd hm hk
      · by_contra hn
        exact (h2.mp (h1.mpr hn)) hm

theorem mem_keys_erase {K V : Type} [DecidableEq K] (m : List (K × V)) (k k' : K)
    (h : k' ∈ (map_erase m k).map Prod.fst) : k' ∈ m.map Prod.fst := by
  induction m with
  | nil => exact h
  | cons kv rest ih =>
    obtain ⟨k1, v1⟩ := kv
    simp only [map_erase] at h
    by_cases h1 : k1 = k
    · rw [if_pos h1] at h
      exact List.mem_cons_of_mem _ h
    · rw [if_neg h1, List.map_cons, List.mem_cons] at h
      rw [List.map_cons, List.mem_cons]
      exact h.imp id ih

theorem map_wf_assign {K V : Type} [DecidableEq K] {comp : K → K → Bool}
    (hc : IsComparator comp) (m : List (K × V)) (k : K) (v : V) (h : map_wf comp m) :
    map_wf comp (map_assign comp m k v) := by
  induction m with
  | nil => simp [map_assign, map_wf]
  | cons kv rest ih =>
    obtain ⟨k1, v1⟩ := kv
    have hhead := map_wf_head h
    have htail := map_wf_tail h
    simp only [map_assign]
    by_cases h1 : k1 = k
    · subst h1
      rw [if_pos rfl]
      exact h
    · rw [if_neg h1]
      by_cases h3 : comp k k1 = true
      · rw [if_pos h3]
        unfold map_wf at h ⊢
        rw [List.map_cons, List.pairwise_cons]
        refine ⟨fun k2 hk2 => ?_, h⟩
        rw [List.map_cons, List.mem_cons] at hk2
        rcases hk2 with hk2 | hk2
        · rw [hk2]; exact h3
        · exact hc.trans _ _ _ h3 (hhead k2 hk2)
      · rw [if_neg h3]
        have h4 : comp k1 k = true := by
          rcases hc.total k1 k h1 with h5 | h5
          · exact h5
          · exact absurd h5 h3
        have ih2 := ih htail
        unfold map_wf at ih2 ⊢
        rw [List.map_cons, List.pairwise_cons]
        refine ⟨fun k2 hk2 => ?_, ih2⟩
        rcases (mem_keys_assign comp rest k v k2).mp hk2 with hk2 | hk2
        · rw [hk2]; exact h4
        · exact hhead k2 hk2

theorem map_wf_erase {K V : Type} [DecidableEq K] {comp : K → K → Bool}
    (m : List (K × V)) (k : K) (h : map_wf comp m) : map_wf comp (map_erase m k) := by
  induction m with
  | nil => exact h
  | cons kv rest ih =>
    obtain ⟨k1, v1⟩ := kv
    have hhead := map_wf_head h
    have htail := map_wf_tail h
    simp only [map_erase]
    by_cases h1 : k1 = k
    · rw [if_pos h1]; exact htail
    · rw [if_neg h1]
      have ih2 := ih htail
      unfold map_wf at ih2 ⊢
      rw [List.map_cons, List.pairwise_cons]
      exact ⟨fun k2 hk2 => hhead k2 (mem_keys_erase rest k k2 hk2), ih2⟩

/-- Two well-formed maps with the same lookups are the same list. -/
theorem map_ext {K V : Type} [DecidableEq K] {comp : K → K → Bool} (hc : IsComparator comp) :
    ∀ (m1 m2 : List (K × V)), map_wf comp m1 → map_wf comp m2 →
      (∀ k, map_find m1 k = map_find m2 k) → m1 = m2 := by
  intro m1
  induction m1 with
  | nil =>
    intro m2 _ _ hf
    cases m2 with
    | nil => rfl
    | cons kv rest =>
      have := hf kv.1
      simp [map_find] at this
  | cons kv1 rest1 ih =>
    intro m2 h1 h2 hf
    cases m2 with
    | nil =>
      have := hf kv1.1
      simp [map_find] at this
    | cons kv2 rest2 =>
      obtain ⟨k1, v1⟩ := kv1
      obtain ⟨k2, v2⟩ := kv2
      have t1 : map_find rest1 k1 = none := map_find_tail_none hc h1
      have t2 : map_find rest2 k2 = none := map_find_tail_none hc h2
      have hk : k1 = k2 := by
        by_contra hne
        have e1 := hf k1
        have e2 := hf k2
        simp only [map_find, if_true] at e1 e2
        rw [if_neg (fun h => hne h.symm)] at e1
        rw [if_neg hne] at e2
        rcases hc.total k1 k2 hne with hlt | hlt
        · have hmem : k1 ∈ rest2.map Prod.fst := by
            by_contra hn
            rw [(map_find_eq_none_iff rest2 k1).mpr hn] at e1
            exact Option.noConfusion e1
          have h3 := hc.trans _ _ _ hlt (map_wf_head h2 k1 hmem)
          rw [hc.irrefl] at h3
          exact Bool.noConfusion h3
        · have hmem : k2 ∈ rest1.map Prod.fst := by
            by_contra hn
            rw [(map_find_eq_none_iff rest1 k2).mpr hn] at e2
            exact Option.noConfusion e2
          have h3 := hc.trans _ _ _ hlt (map_wf_head h1 k2 hmem)
          rw [hc.irrefl] at h3
          exact Bool.noConfusion h3
      subst hk
      have hv : v1 = v2 := by
        have e1 := hf k1
        simp only [map_find, if_true] at e1
        exact Option.some.inj e1
      subst hv
      have hrest : rest1 = rest2 := by
        apply ih rest2 (map_wf_tail h1) (map_wf_tail h2)
        intro k
        by_cases hk : k1 = k
        · subst hk; rw [t1, t2]
        · have e := hf k
          simp only [map_find] at e
          rw [if_neg hk, if_neg hk] at e
          exact e
      rw [hrest]

theorem map_assign_assign {K V : Type} [DecidableEq K] (comp : K → K → Bool)
    (m : List (K × V)) (k : K) (v w : V) :
    map_assign comp (map_assign comp m k v) k w = map_assign comp m k w := by
  induction m with
  | nil => simp [map_assign]
  | cons kv rest ih =>
    obtain ⟨k1, v1⟩ := kv
    by_cases h1 : k1 = k
    · subst h1
      simp [map_assign]
    · by_cases h3 : comp k k1 = true
      · simp [map_assign, h1, h3]
      · simp only [map_assign, if_neg h1, if_neg h3, ih]

theorem map_erase_assign {K V : Type} [DecidableEq K] {comp : K → K → Bool}
    (hc : IsComparator comp) (m : List (K × V)) (k : K) (v : V) (h : map_wf comp m)
    (hk : map_find m k = none) : map_erase (map_assign comp m k v) k = m := by
  apply map_ext hc _ _ (map_wf_erase _ _ (map_wf_assign hc m k v h)) h
  intro k'
  rw [map_find_erase hc _ _ _ (map_wf_assign hc m k v h), map_find_assign]
  by_cases h1 : k' = k
  · rw [if_pos h1, h1, hk]
  · rw [if_neg h1, if_neg h1]

theorem map_assign_self {K V : Type} [DecidableEq K] {comp : K → K → Bool}
    (hc : IsComparator comp) (m : List (K × V)) (k : K) (v : V) (h : map_wf comp m)
    (hk : map_find m k = some v) : map_assign comp m k v = m := by
  apply map_ext hc _ _ (map_wf_assign hc m k v h) h
  intro k'
  rw [map_find_assign]
  by_cases h1 : k' = k
  · rw [if_pos h1, h1, hk]
  · rw [if_neg h1]

/-! ## Order book: auxiliary facts about the handlers -/

theorem cancel_level_wf {comp : Int → Int → Bool} (hc : IsComparator comp)
    (m : List (Int × Nat)) (order : Order) (h : map_wf comp m) :
    map_wf comp (cancel_level comp m order) := by
  unfold cancel_level
  split
  · exact h
  · split_ifs
    · exact map_wf_assign hc _ _ _ h
    · exact map_wf_erase _ _ h

theorem wf_on_order_add (b : OrderBook) (msg : OrderAdd) (h : b.wf) :
    (b.on_order_add msg).wf := by
  obtain ⟨h1, h2, h3⟩ := h
  unfold OrderBook.on_order_add
  simp only
  split_ifs
  · exact ⟨map_wf_assign greater_i64_comparator _ _ _ h1, h2,
      map_wf_assign less_u64_comparator _ _ _ h3⟩
  · exact ⟨h1, map_wf_assign less_i64_comparator _ _ _ h2,
      map_wf_assign less_u64_comparator _ _ _ h3⟩

theorem wf_on_order_cancel (b : OrderBook) (msg : OrderCancel) (h : b.wf) :
    (b.on_order_cancel msg).wf := by
  obtain ⟨h1, h2, h3⟩ := h
  unfold OrderBook.on_order_cancel
  split
  · exact ⟨h1, h2, h3⟩
  · split_ifs
    · exact ⟨cancel_level_wf greater_i64_comparator _ _ h1, h2, map_wf_erase _ _ h3⟩
    · exact ⟨h1, cancel_level_wf less_i64_comparator _ _ h2, map_wf_erase _ _ h3⟩

theorem wf_on_quote (b : OrderBook) (msg : Quote) (h : b.wf) : (b.on_quote msg).wf :=
  ⟨map_wf_assign greater_i64_comparator _ _ _ h.1,
   map_wf_assign less_i64_comparator _ _ _ h.2.1, h.2.2⟩

theorem wf_apply (b : OrderBook) (ev : BookEvent) (h : b.wf) : (b.apply ev).wf := by
  cases ev with
  | add msg => exact wf_on_order_add b msg h
  | cancel msg => exact wf_on_order_cancel b msg h
  | quote msg => exact wf_on_quote b msg h

theorem wf_run (events : List BookEvent) :
    ∀ b : OrderBook, b.wf → (b.run events).wf := by
  induction events with
  | nil => intro b h; exact h
  | cons ev rest ih => intro b h; exact ih _ (wf_apply b ev h)

theorem wf_empty : ({} : OrderBook).wf :=
  ⟨List.Pairwise.nil, List.Pairwise.nil, List.Pairwise.nil⟩

theorem best_bid_mem (b : OrderBook) (h : b.bids_ ≠ []) :
    b.best_bid ∈ b.bids_.map Prod.fst := by
  unfold OrderBook.best_bid
  cases hb : b.bids_ with
  | nil => exact absurd hb h
  | cons kv rest => simp

theorem best_ask_mem (b : OrderBook) (h : b.asks_ ≠ []) :
    b.best_ask ∈ b.asks_.map Prod.fst := by
  unfold OrderBook.best_ask
  cases hb : b.asks_ with
  | nil => exact absurd hb h
  | cons kv rest => simp

theorem best_bid_ge (b : OrderBook) (h : map_wf greater_i64 b.bids_) :
    ∀ p ∈ b.bids_.map Prod.fst, p ≤ b.best_bid := by
  unfold OrderBook.best_bid
  cases hb : b.bids_ with
  | nil => intro p hp; simp at hp
  | cons kv rest =>
    rw [hb] at h
    intro p hp
    rw [List.map_cons, List.mem_cons] at hp
    rcases hp with hp | hp
    · rw [hp]
    · have := map_wf_head h p hp
      simp only [greater_i64, decide_eq_true_eq] at this
      exact Int.le_of_lt this

theorem best_ask_le (b : OrderBook) (h : map_wf less_i64 b.asks_) :
    ∀ p ∈ b.asks_.map Prod.fst, b.best_ask ≤ p := by
  unfold OrderBook.best_ask
  cases hb : b.asks_ with
  | nil => intro p hp; simp at hp
  | cons kv rest =>
    rw [hb] at h
    intro p hp
    rw [List.map_cons, List.mem_cons] at hp
    rcases hp with hp | hp
    · rw [hp]
    · have := map_wf_head h p hp
      simp only [less_i64, decide_eq_true_eq] at this
      exact Int.le_of_lt this

theorem keys_ne_nil_of_mem {K V : Type} {m : List (K × V)} {k : K}
    (h : k ∈ m.map Prod.fst) : m ≠ [] := by
  intro h0
  rw [h0] at h
  simp at h

theorem mem_bids_on_quotes (qs : List Quote) :
    ∀ (b : OrderBook) (p : Int),
      p ∈ (qs.foldl OrderBook.on_quote b).bids_.map Prod.fst ↔
        p ∈ b.bids_.map Prod.fst ∨ p ∈ qs.map (fun q => q.bid_price) := by
  induction qs with
  | nil => intro b p; simp
  | cons q rest ih =>
    intro b p
    rw [List.foldl_cons, ih (b.on_quote q) p]
    simp only [OrderBook.on_quote, mem_keys_assign, List.map_cons, List.mem_cons]
    tauto

theorem mem_asks_on_quotes (qs : List Quote) :
    ∀ (b : OrderBook) (p : Int),
      p ∈ (qs.foldl OrderBook.on_quote b).asks_.map Prod.fst ↔
        p ∈ b.asks_.map Prod.fst ∨ p ∈ qs.map (fun q => q.ask_price) := by
  induction qs with
  | nil => intro b p; simp
  | cons q rest ih =>
    intro b p
    rw [List.foldl_cons, ih (b.on_quote q) p]
    simp only [OrderBook.on_quote, mem_keys_assign, List.map_cons, List.mem_cons]
    tauto

theorem wf_on_quotes (qs : List Quote) :
    ∀ b : OrderBook, b.wf → (qs.foldl OrderBook.on_quote b).wf := by
  induction qs with
  | nil => intro b h; exact h
  | cons q rest ih => intro b h; exact ih _ (wf_on_quote b q h)

theorem level_size_pos {m : List (Int × Nat)} {p : Int} (h : 0 < level_size m p) :
    map_find m p = some (level_size m p) := by
  unfold level_size at h ⊢
  cases hf : map_find m p with
  | none => rw [hf] at h; exact absurd h (by decide)
  | some l => rfl

/-- Adding an order's size to its level and then cancelling the order
restores the level map, when the level was absent or was positive and the
addition did not wrap. -/
theorem cancel_level_add_assign {comp : Int → Int → Bool} (hc : IsComparator comp)
    (m : List (Int × Nat)) (order : Order) (hwf : map_wf comp m)
    (hlevel : map_find m order.price = none ∨
      (0 < level_size m order.price ∧ level_size m order.price + order.size < 4294967296)) :
    cancel_level comp (map_add_assign comp m order.price order.size) order = m := by
  unfold cancel_level map_add_assign
  rw [map_find_assign, if_pos rfl]
  simp only
  rcases hlevel with h0 | ⟨hpos, hsum⟩
  · rw [h0, Option.getD_none, Nat.zero_add,
      if_neg (Nat.not_lt.mpr (Nat.mod_le _ _))]
    exact map_erase_assign hc m _ _ hwf h0
  · have hf := level_size_pos hpos
    rw [hf, Option.getD_some, Nat.mod_eq_of_lt hsum, if_pos (by omega), map_assign_assign,
      Nat.add_sub_cancel]
    exact map_assign_self hc m _ _ hwf hf

theorem map_add_assign_twice {K : Type} [DecidableEq K] (comp : K → K → Bool)
    (m : List (K × Nat)) (k : K) (size : Nat) :
    map_add_assign comp (map_add_assign comp m k size) k size =
      map_assign comp m k
        ((((map_find m k).getD 0 + size) % 4294967296 + size) % 4294967296) := by
  unfold map_add_assign
  rw [map_find_assign, if_pos rfl, Option.getD_some, map_assign_assign]

theorem map_assign_eq_iff {K V : Type} [DecidableEq K] (comp : K → K → Bool)
    (m : List (K × V)) (k : K) (v w : V) :
    map_assign comp m k v = map_assign comp m k w ↔ v = w := by
  constructor
  · intro h
    have h1 := congrArg (fun l => map_find l k) h
    simp only [map_find_assign, if_true] at h1
    exact Option.some.inj h1
  · intro h; rw [h]

theorem map_add_assign_twice_eq_iff {K : Type} [DecidableEq K] (comp : K → K → Bool)
    (m : List (K × Nat)) (k : K) (size : Nat) :
    map_add_assign comp (map_add_assign comp m k size) k size = map_add_assign comp m k size ↔
      size % 4294967296 = 0 := by
  rw [map_add_assign_twice]
  unfold map_add_assign
  rw [map_assign_eq_iff]
  omega

theorem levels_positive_assign {comp : Int → Int → Bool} (m : List (Int × Nat)) (p : Int)
    (v : Nat) (h : levels_positive m) (hv : 0 < v) : levels_positive (map_assign comp m p v) := by
  intro p' v' hf
  rw [map_find_assign] at hf
  by_cases h1 : p' = p
  · rw [if_pos h1] at hf
    rw [← Option.some.inj hf]
    exact hv
  · rw [if_neg h1] at hf
    exact h p' v' hf

theorem levels_positive_erase {comp : Int → Int → Bool} (hc : IsComparator comp)
    (m : List (Int × Nat)) (p : Int) (hwf : map_wf comp m) (h : levels_positive m) :
    levels_positive (map_erase m p) := by
  intro p' v' hf
  rw [map_find_erase hc m p p' hwf] at hf
  by_cases h1 : p' = p
  · rw [if_pos h1] at hf
    exact Option.noConfusion hf
  · rw [if_neg h1] at hf
    exact h p' v' hf

theorem levels_positive_add_assign {comp : Int → Int → Bool} (m : List (Int × Nat)) (p : Int)
    (size : Nat) (h : levels_positive m) (hs : 0 < size)
    (hsum : level_size m p + size < 4294967296) :
    levels_positive (map_add_assign comp m p size) := by
  unfold map_add_assign
  apply levels_positive_assign m p _ h
  unfold level_size at hsum
  rw [Nat.mod_eq_of_lt hsum]
  omega

theorem levels_positive_cancel {comp : Int → Int → Bool} (hc : IsComparator comp)
    (m : List (Int × Nat)) (order : Order) (hwf : map_wf comp m) (h : levels_positive m) :
    levels_positive (cancel_level comp m order) := by
  unfold cancel_level
  split
  · exact h
  · split_ifs with hgt
    · exact levels_positive_assign m _ _ h (by omega)
    · exact levels_positive_erase hc m _ hwf h

theorem levels_positive_apply (b : OrderBook) (ev : BookEvent) (hwf : b.wf)
    (h : levels_positive b.bids_ ∧ levels_positive b.asks_) (hstep : positive_step b ev) :
    levels_positive (b.apply ev).bids_ ∧ levels_positive (b.apply ev).asks_ := by
  cases ev with
  | add msg =>
    obtain ⟨hs, hsum⟩ := hstep
    unfold OrderBook.side_levels at hsum
    simp only [OrderBook.apply, OrderBook.on_order_add]
    by_cases hside : msg.side = 'B'
    · rw [if_pos hside] at hsum
      simp only [if_pos hside]
      exact ⟨levels_positive_add_assign _ _ _ h.1 hs hsum, h.2⟩
    · rw [if_neg hside] at hsum
      simp only [if_neg hside]
      exact ⟨h.1, levels_positive_add_assign _ _ _ h.2 hs hsum⟩
  | cancel msg =>
    simp only [OrderBook.apply, OrderBook.on_order_cancel]
    split
    · exact h
    · split_ifs
      · exact ⟨levels_positive_cancel greater_i64_comparator _ _ hwf.1 h.1, h.2⟩
      · exact ⟨h.1, levels_positive_cancel less_i64_comparator _ _ hwf.2.1 h.2⟩
  | quote msg =>
    obtain ⟨hb, ha⟩ := hstep
    simp only [OrderBook.apply, OrderBook.on_quote]
    exact ⟨levels_positive_assign _ _ _ h.1 hb, levels_positive_assign _ _ _ h.2 ha⟩

theorem levels_positive_run (events : List BookEvent) :
    ∀ b : OrderBook, b.wf → levels_positive b.bids_ ∧ levels_positive b.asks_ →
      OrderBook.steps_hold positive_step b events →
      levels_positive (b.run events).bids_ ∧ levels_positive (b.run events).asks_ := by
  induction events with
  | nil => intro b _ h _; exact h
  | cons ev rest ih =>
    intro b hwf h hsteps
    exact ih (b.apply ev) (wf_apply b ev hwf) (levels_positive_apply b ev hwf h hsteps.1)
      hsteps.2

theorem map_total_cons {K V : Type} (f : V → Nat) (kv : K × V) (rest : List (K × V)) :
    map_total f (kv :: rest) = f kv.2 + map_total f rest := by
  simp [map_total]

theorem map_total_assign {K V : Type} [DecidableEq K] {comp : K → K → Bool}
    (hc : IsComparator comp) (f : V → Nat) (m : List (K × V)) (k : K) (v : V)
    (hwf : map_wf comp m) :
    map_total f (map_assign comp m k v) + ((map_find m k).map f).getD 0 =
      map_total f m + f v := by
  induction m with
  | nil => simp [map_assign, map_find, map_total]
  | cons kv rest ih =>
    obtain ⟨k1, v1⟩ := kv
    have hhead := map_wf_head hwf
    simp only [map_assign, map_find]
    by_cases h1 : k1 = k
    · simp only [if_pos h1, map_total_cons, Option.map_some', Option.getD_some]
      omega
    · rw [if_neg h1, if_neg h1]
      by_cases h3 : comp k k1 = true
      · rw [if_pos h3]
        have hnone : map_find rest k = none := by
          rw [map_find_eq_none_iff]
          intro hmem
          have h4 := hc.trans _ _ _ h3 (hhead k hmem)
          rw [hc.irrefl] at h4
          exact Bool.noConfusion h4
        simp only [hnone, map_total_cons, Option.map_none', Option.getD_none]
        omega
      · rw [if_neg h3]
        have ih2 := ih (map_wf_tail hwf)
        simp only [map_total_cons]
        omega

theorem map_total_erase {K V : Type} [DecidableEq K] (f : V → Nat) (m : List (K × V)) (k : K) :
    map_total f (map_erase m k) + ((map_find m k).map f).getD 0 = map_total f m := by
  induction m with
  | nil => simp [map_erase, map_find, map_total]
  | cons kv rest ih =>
    obtain ⟨k1, v1⟩ := kv
    simp only [map_erase, map_find]
    by_cases h1 : k1 = k
    · simp only [if_pos h1, map_total_cons, Option.map_some', Option.getD_some]
      omega
    · rw [if_neg h1, if_neg h1]
      simp only [map_total_cons]
      omega

theorem map_total_ge {K V : Type} [DecidableEq K] (f : V → Nat) (m : List (K × V)) (k : K)
    (v : V) (h : map_find m k = some v) : f v ≤ map_total f m := by
  have := map_total_erase f m k
  rw [h] at this
  simp only [Option.map_some', Option.getD_some] at this
  omega

theorem level_size_add_assign {comp : Int → Int → Bool} (m : List (Int × Nat)) (p : Int)
    (size : Nat) (p' : Int) :
    level_size (map_add_assign comp m p size) p' =
      if p' = p then (level_size m p + size) % 4294967296 else level_size m p' := by
  unfold level_size map_add_assign
  rw [map_find_assign]
  split_ifs <;> rfl

theorem level_size_cancel {comp : Int → Int → Bool} (hc : IsComparator comp)
    (m : List (Int × Nat)) (order : Order) (hwf : map_wf comp m) (p' : Int) :
    level_size (cancel_level comp m order) p' =
      if p' = order.price then
        (if level_size m order.price > order.size then level_size m order.price - order.size
         else 0)
      else level_size m p' := by
  unfold cancel_level level_size
  cases hf : map_find m order.price with
  | none =>
    simp only [Option.getD_none]
    by_cases h1 : p' = order.price
    · rw [if_pos h1, h1, hf, if_neg (Nat.not_lt_zero _)]
      rfl
    · rw [if_neg h1]
  | some level =>
    simp only [Option.getD_some]
    by_cases hgt : level > order.size
    · rw [if_pos hgt, if_pos hgt, map_find_assign]
      split_ifs <;> rfl
    · rw [if_neg hgt, if_neg hgt, map_find_erase hc m _ _ hwf]
      split_ifs <;> rfl

theorem on_order_add_orders (b : OrderBook) (msg : OrderAdd) :
    (b.on_order_add msg).orders_ =
      map_assign less_u64 b.orders_ msg.order_id
        { order_id := msg.order_id, symbol_id := msg.symbol_id, price := msg.price,
          size := msg.size, side := msg.side } := by
  unfold OrderBook.on_order_add
  simp only
  split_ifs <;> rfl

theorem on_order_add_levels (b : OrderBook) (msg : OrderAdd) :
    (b.on_order_add msg).bids_ =
      (if msg.side = 'B' then map_add_assign greater_i64 b.bids_ msg.price msg.size
       else b.bids_) ∧
    (b.on_order_add msg).asks_ =
      (if msg.side = 'B' then b.asks_
       else map_add_assign less_i64 b.asks_ msg.price msg.size) := by
  unfold OrderBook.on_order_add
  simp only
  split_ifs <;> exact ⟨rfl, rfl⟩

theorem on_order_cancel_found (b : OrderBook) (msg : OrderCancel) (order : Order)
    (h : map_find b.orders_ msg.order_id = some order) :
    (b.on_order_cancel msg).orders_ = map_erase b.orders_ msg.order_id ∧
    (b.on_order_cancel msg).bids_ =
      (if order.side = 'B' then cancel_level greater_i64 b.bids_ order else b.bids_) ∧
    (b.on_order_cancel msg).asks_ =
      (if order.side = 'B' then b.asks_ else cancel_level less_i64 b.asks_ order) := by
  unfold OrderBook.on_order_cancel
  rw [h]
  simp only
  split_ifs <;> exact ⟨rfl, rfl, rfl⟩

theorem resting_add_le (b : OrderBook) (msg : OrderAdd) (hwf : b.wf) (c : Bool) (p : Int) :
    (b.on_order_add msg).resting c p ≤
      b.resting c p +
        (if decide (msg.side = 'B') = c ∧ msg.price = p then msg.size else 0) := by
  have h := map_total_assign less_u64_comparator (order_weight c p) b.orders_ msg.order_id
    { order_id := msg.order_id, symbol_id := msg.symbol_id, price := msg.price,
      size := msg.size, side := msg.side } hwf.2.2
  unfold OrderBook.resting
  rw [on_order_add_orders]
  simp only [order_weight] at h ⊢
  omega

theorem resting_cancel_eq (b : OrderBook) (msg : OrderCancel) (order : Order)
    (hf : map_find b.orders_ msg.order_id = some order) (c : Bool) (p : Int) :
    (b.on_order_cancel msg).resting c p +
        (if decide (order.side = 'B') = c ∧ order.price = p then order.size else 0) =
      b.resting c p := by
  have h := map_total_erase (order_weight c p) b.orders_ msg.order_id
  rw [hf] at h
  unfold OrderBook.resting
  rw [(on_order_cancel_found b msg order hf).1]
  simp only [order_weight, Option.map_some', Option.getD_some] at h ⊢
  exact h

theorem covered_add (b : OrderBook) (msg : OrderAdd) (h : b.covered) (hs : 0 < msg.size)
    (hsum : level_size (b.side_levels msg.side) msg.price + msg.size < 4294967296) :
    (b.on_order_add msg).covered := by
  obtain ⟨hwf, hpos, hb, ha⟩ := h
  obtain ⟨hbids, hasks⟩ := on_order_add_levels b msg
  unfold OrderBook.side_levels at hsum
  refine ⟨wf_on_order_add b msg hwf, ?_, ?_, ?_⟩
  · intro id order hf
    rw [on_order_add_orders, map_find_assign] at hf
    by_cases h1 : id = msg.order_id
    · rw [if_pos h1] at hf
      rw [← Option.some.inj hf]
      exact hs
    · rw [if_neg h1] at hf
      exact hpos id order hf
  · intro p
    have h1 := resting_add_le b msg hwf true p
    have h2 := hb p
    rw [hbids]
    by_cases hside : msg.side = 'B'
    · rw [if_pos hside] at hsum ⊢
      rw [level_size_add_assign]
      by_cases hp : p = msg.price
      · rw [if_pos hp, ← hp, Nat.mod_eq_of_lt (by rw [hp]; exact hsum)]
        split_ifs at h1 <;> omega
      · rw [if_neg hp]
        rw [if_neg (fun hc => hp hc.2.symm)] at h1
        omega
    · rw [if_neg hside]
      rw [if_neg (fun hc => hside (of_decide_eq_true hc.1))] at h1
      omega
  · intro p
    have h1 := resting_add_le b msg hwf false p
    have h2 := ha p
    rw [hasks]
    by_cases hside : msg.side = 'B'
    · rw [if_pos hside]
      rw [if_neg (fun hc => by rw [decide_eq_true hside] at hc; exact Bool.noConfusion hc.1)] at h1
      omega
    · rw [if_neg hside] at hsum ⊢
      rw [level_size_add_assign]
      by_cases hp : p = msg.price
      · rw [if_pos hp, ← hp, Nat.mod_eq_of_lt (by rw [hp]; exact hsum)]
        split_ifs at h1 <;> omega
      · rw [if_neg hp]
        rw [if_neg (fun hc => hp hc.2.symm)] at h1
        omega

theorem covered_cancel (b : OrderBook) (msg : OrderCancel) (h : b.covered) :
    (b.on_order_cancel msg).covered := by
  cases hf : map_find b.orders_ msg.order_id with
  | none =>
    have hsame : b.on_order_cancel msg = b := by
      unfold OrderBook.on_order_cancel
      rw [hf]
    rw [hsame]
    exact h
  | some order =>
    obtain ⟨hwf, hpos, hb, ha⟩ := h
    obtain ⟨horders, hbids, hasks⟩ := on_order_cancel_found b msg order hf
    refine ⟨wf_on_order_cancel b msg hwf, ?_, ?_, ?_⟩
    · intro id o hfo
      rw [horders, map_find_erase less_u64_comparator _ _ _ hwf.2.2] at hfo
      by_cases h1 : id = msg.order_id
      · rw [if_pos h1] at hfo
        exact Option.noConfusion hfo
      · rw [if_neg h1] at hfo
        exact hpos id o hfo
    · intro p
      have h1 := resting_cancel_eq b msg order hf true p
      have h2 := hb p
      rw [hbids]
      by_cases hside : order.side = 'B'
      · rw [if_pos hside, level_size_cancel greater_i64_comparator _ _ hwf.1]
        by_cases hp : p = order.price
        · subst hp
          rw [if_pos rfl]
          rw [if_pos ⟨decide_eq_true hside, rfl⟩] at h1
          split_ifs <;> omega
        · rw [if_neg hp]
          omega
      · rw [if_neg hside]
        omega
    · intro p
      have h1 := resting_cancel_eq b msg order hf false p
      have h2 := ha p
      rw [hasks]
      by_cases hside : order.side = 'B'
      · rw [if_pos hside]
        omega
      · rw [if_neg hside, level_size_cancel less_i64_comparator _ _ hwf.2.1]
        by_cases hp : p = order.price
        · subst hp
          rw [if_pos rfl]
          rw [if_pos ⟨decide_eq_false hside, rfl⟩] at h1
          split_ifs <;> omega
        · rw [if_neg hp]
          omega

theorem covered_run (events : List BookEvent) :
    ∀ b : OrderBook, b.covered → OrderBook.steps_hold order_step b events →
      (b.run events).covered := by
  induction events with
  | nil => intro b h _; exact h
  | cons ev rest ih =>
    intro b h hsteps
    apply ih (b.apply ev) _ hsteps.2
    cases ev with
    | add msg => exact covered_add b msg h hsteps.1.1 hsteps.1.2
    | cancel msg => exact covered_cancel b msg h
    | quote msg => exact absurd hsteps.1 (fun hfalse => hfalse)

theorem level_size_assign {comp : Int → Int → Bool} (m : List (Int × Nat)) (p : Int)
    (v : Nat) (p' : Int) :
    level_size (map_assign comp m p v) p' = if p' = p then v else level_size m p' := by
  unfold level_size
  rw [map_find_assign]
  split_ifs <;> rfl

theorem covered_quote (b : OrderBook) (msg : Quote) (h : b.covered)
    (hbid : b.resting true msg.bid_price ≤ msg.bid_size)
    (hask : b.resting false msg.ask_price ≤ msg.ask_size) : (b.on_quote msg).covered := by
  obtain ⟨hwf, hpos, hb, ha⟩ := h
  refine ⟨wf_on_quote b msg hwf, hpos, fun p => ?_, fun p => ?_⟩
  · show b.resting true p ≤ level_size (map_assign greater_i64 b.bids_ msg.bid_price
      msg.bid_size) p
    rw [level_size_assign]
    by_cases hp : p = msg.bid_price
    · rw [if_pos hp, hp]; exact hbid
    · rw [if_neg hp]; exact hb p
  · show b.resting false p ≤ level_size (map_assign less_i64 b.asks_ msg.ask_price
      msg.ask_size) p
    rw [level_size_assign]
    by_cases hp : p = msg.ask_price
    · rw [if_pos hp, hp]; exact hask
    · rw [if_neg hp]; exact ha p

theorem covered_run_mixed (events : List BookEvent) :
    ∀ b : OrderBook, b.covered → OrderBook.steps_hold covering_step b events →
      (b.run events).covered := by
  induction events with
  | nil => intro b h _; exact h
  | cons ev rest ih =>
    intro b h hsteps
    apply ih (b.apply ev) _ hsteps.2
    cases ev with
    | add msg => exact covered_add b msg h hsteps.1.1 hsteps.1.2
    | cancel msg => exact covered_cancel b msg h
    | quote msg => exact covered_quote b msg h hsteps.1.1 hsteps.1.2

theorem covered_empty : ({} : OrderBook).covered :=
  ⟨wf_empty, fun _ _ hf => Option.noConfusion hf, fun _ => Nat.le_refl _,
    fun _ => Nat.le_refl _⟩

theorem covered_order (b : OrderBook) (h : b.covered) (id : Nat) (order : Order)
    (hf : map_find b.orders_ id = some order) :
    ∃ v, map_find (b.side_levels order.side) order.price = some v ∧ order.size ≤ v := by
  obtain ⟨_, hpos, hb, ha⟩ := h
  have hs := hpos id order hf
  unfold OrderBook.side_levels
  by_cases hside : order.side = 'B'
  · rw [if_pos hside]
    have h1 := map_total_ge (order_weight true order.price) b.orders_ id order hf
    have h2 := hb order.price
    unfold OrderBook.resting at h2
    simp only [order_weight, decide_eq_true hside, true_and, if_true] at h1
    exact ⟨_, level_size_pos (by omega), by omega⟩
  · rw [if_neg hside]
    have h1 := map_total_ge (order_weight false order.price) b.orders_ id order hf
    have h2 := ha order.price
    unfold OrderBook.resting at h2
    simp only [order_weight, decide_eq_false hside, true_and, if_true] at h1
    exact ⟨_, level_size_pos (by omega), by omega⟩

/-! ## Order book: main results -/

/-- C12: for every OrderAdd with side `'B'` applied to the empty book,
`best_bid()` equals the order's price after the add; after the following
`on_order_cancel` with the same order id, `best_bid()` is 0 and `orders_`,
`bids_` and `asks_` are all empty. -/
theorem add_then_cancel_on_empty (a : OrderAdd) (c : OrderCancel) (hs : a.side = 'B')
    (hid : c.order_id = a.order_id) :
    (({} : OrderBook).on_order_add a).best_bid = a.price ∧
    ((({} : OrderBook).on_order_add a).on_order_cancel c).best_bid = 0 ∧
    ((({} : OrderBook).on_order_add a).on_order_cancel c).orders_ = [] ∧
    ((({} : OrderBook).on_order_add a).on_order_cancel c).bids_ = [] ∧
    ((({} : OrderBook).on_order_add a).on_order_cancel c).asks_ = [] := by
  have hle : ¬ (a.size % 4294967296 > a.size) := Nat.not_lt.mpr (Nat.mod_le _ _)
  have hadd : ({} : OrderBook).on_order_add a =
      { bids_ := [(a.price, a.size % 4294967296)], asks_ := [],
        orders_ := [(a.order_id, { order_id := a.order_id, symbol_id := a.symbol_id,
                                   price := a.price, size := a.size, side := a.side })] } := by
    simp [OrderBook.on_order_add, hs, map_add_assign, map_assign, map_find]
  have hcancel : (({} : OrderBook).on_order_add a).on_order_cancel c = {} := by
    rw [hadd]
    simp [OrderBook.on_order_cancel, map_find, hid, hs, cancel_level, hle, map_erase]
  rw [hcancel, hadd]
  exact ⟨rfl, rfl, rfl, rfl, rfl⟩

/-- C12 (witness): scenario S2, order id 10, side `'B'`, price 1000000,
size 100. -/
theorem add_then_cancel_on_empty_witness :
    (({} : OrderBook).on_order_add (mk_add 10 'B' 1000000 100)).best_bid = 1000000 ∧
    ((({} : OrderBook).on_order_add (mk_add 10 'B' 1000000 100)).on_order_cancel
      (mk_cancel 10)).best_bid = 0 ∧
    ((({} : OrderBook).on_order_add (mk_add 10 'B' 1000000 100)).on_order_cancel
      (mk_cancel 10)).orders_ = [] ∧
    ((({} : OrderBook).on_order_add (mk_add 10 'B' 1000000 100)).on_order_cancel
      (mk_cancel 10)).bids_ = [] ∧
    ((({} : OrderBook).on_order_add (mk_add 10 'B' 1000000 100)).on_order_cancel
      (mk_cancel 10)).asks_ = [] :=
  add_then_cancel_on_empty (mk_add 10 'B' 1000000 100) (mk_cancel 10) (by decide) (by decide)

/-- C16: for every book state (whose maps satisfy the ordering invariant of
`std::map`), `best_bid()` is 0 when `bids_` is empty and otherwise a price key
of `bids_` that is greater than or equal to every price key of `bids_`;
`best_ask()` is 0 when `asks_` is empty and otherwise a price key of `asks_`
that is less than or equal to every price key of `asks_`. -/
theorem best_bid_ask_extremal (b : OrderBook) (h : b.wf) :
    (b.bids_ = [] → b.best_bid = 0) ∧
    (b.bids_ ≠ [] →
      b.best_bid ∈ b.bids_.map Prod.fst ∧ ∀ p ∈ b.bids_.map Prod.fst, p ≤ b.best_bid) ∧
    (b.asks_ = [] → b.best_ask = 0) ∧
    (b.asks_ ≠ [] →
      b.best_ask ∈ b.asks_.map Prod.fst ∧ ∀ p ∈ b.asks_.map Prod.fst, b.best_ask ≤ p) := by
  refine ⟨fun h0 => ?_, fun hne => ⟨best_bid_mem b hne, best_bid_ge b h.1⟩,
    fun h0 => ?_, fun hne => ⟨best_ask_mem b hne, best_ask_le b h.2.1⟩⟩
  · simp [OrderBook.best_bid, h0]
  · simp [OrderBook.best_ask, h0]

/-- C16 (witness): a book with bids at 1500100, 1500050, 1500000 and asks at
1500050, 1500100, 1500150 has best bid 1500100 and best ask 1500050; the empty
book has best bid 0. -/
theorem best_bid_ask_extremal_witness :
    (∀ p ∈ [(1500100 : Int), 1500050, 1500000],
      p ≤ (OrderBook.mk [(1500100, 1), (1500050, 1), (1500000, 1)]
        [(1500050, 1), (1500100, 1), (1500150, 1)] []).best_bid) ∧
    (∀ p ∈ [(1500050 : Int), 1500100, 1500150],
      (OrderBook.mk [(1500100, 1), (1500050, 1), (1500000, 1)]
        [(1500050, 1), (1500100, 1), (1500150, 1)] []).best_ask ≤ p) ∧
    ({} : OrderBook).best_bid = 0 :=
  ⟨((best_bid_ask_extremal (OrderBook.mk [(1500100, 1), (1500050, 1), (1500000, 1)]
      [(1500050, 1), (1500100, 1), (1500150, 1)] [])
      (by decide)).2.1 (by decide)).2,
   ((best_bid_ask_extremal (OrderBook.mk [(1500100, 1), (1500050, 1), (1500000, 1)]
      [(1500050, 1), (1500100, 1), (1500150, 1)] [])
      (by decide)).2.2.2 (by decide)).2,
   (best_bid_ask_extremal {} wf_empty).1 rfl⟩

/-- C17: for every book state and every OrderCancel whose order id is not
present in `orders_`, `on_order_cancel` changes nothing: `bids_`, `asks_` and
`orders_` are the same as before. -/
theorem cancel_absent_noop (b : OrderBook) (c : OrderCancel)
    (h : map_find b.orders_ c.order_id = none) : b.on_order_cancel c = b := by
  unfold OrderBook.on_order_cancel
  rw [h]

/-- C17 (witness): cancelling id 11 in a book that holds only order 10. -/
theorem cancel_absent_noop_witness :
    (({} : OrderBook).on_order_add (mk_add 10 'B' 1000000 100)).on_order_cancel (mk_cancel 11) =
      ({} : OrderBook).on_order_add (mk_add 10 'B' 1000000 100) :=
  cancel_absent_noop (({} : OrderBook).on_order_add (mk_add 10 'B' 1000000 100))
    (mk_cancel 11) (by decide)

/-- C18: for every book state and every Quote, after `on_quote` the level at
`bid_price` in `bids_` is exactly `bid_size` and the level at `ask_price` in
`asks_` is exactly `ask_size` (whatever was there before, and also when the
size is 0), every other price level is as before, and `orders_` is
unchanged. -/
theorem on_quote_overwrites (b : OrderBook) (q : Quote) :
    map_find (b.on_quote q).bids_ q.bid_price = some q.bid_size ∧
    map_find (b.on_quote q).asks_ q.ask_price = some q.ask_size ∧
    (∀ p, p ≠ q.bid_price → map_find (b.on_quote q).bids_ p = map_find b.bids_ p) ∧
    (∀ p, p ≠ q.ask_price → map_find (b.on_quote q).asks_ p = map_find b.asks_ p) ∧
    (b.on_quote q).orders_ = b.orders_ := by
  simp only [OrderBook.on_quote, map_find_assign, if_true]
  exact ⟨trivial, trivial, fun p hp => if_neg hp, fun p hp => if_neg hp, trivial⟩

/-- C18 (witness): a quote with bid 100 of size 0 and ask 101 of size 7 on a
book with levels bid 100 of size 5 and bid 90 of size 3: the level at 100
becomes 0 and the level at 90 stays 3. -/
theorem on_quote_overwrites_witness :
    map_find ((OrderBook.mk [(100, 5), (90, 3)] [] []).on_quote (mk_quote 100 101 0 7)).bids_
      100 = some 0 ∧
    map_find ((OrderBook.mk [(100, 5), (90, 3)] [] []).on_quote (mk_quote 100 101 0 7)).bids_
      90 = some 3 :=
  ⟨(on_quote_overwrites (OrderBook.mk [(100, 5), (90, 3)] [] []) (mk_quote 100 101 0 7)).1,
   ((on_quote_overwrites (OrderBook.mk [(100, 5), (90, 3)] [] [])
      (mk_quote 100 101 0 7)).2.2.1 90 (by decide)).trans (by decide)⟩

/-- C19: for every book state and every quote with bid price `p`, after
`on_quote` the value of `best_bid()` is at least `p`, and it equals `p`
whenever `p` is at least every bid price that was present before the quote. -/
theorem best_bid_after_quote (b : OrderBook) (q : Quote) (h : b.wf) :
    q.bid_price ≤ (b.on_quote q).best_bid ∧
    ((∀ p ∈ b.bids_.map Prod.fst, p ≤ q.bid_price) →
      (b.on_quote q).best_bid = q.bid_price) := by
  have hwf := wf_on_quote b q h
  have hmem : q.bid_price ∈ (b.on_quote q).bids_.map Prod.fst := by
    simp only [OrderBook.on_quote, mem_keys_assign, true_or]
  have hge := best_bid_ge (b.on_quote q) hwf.1 _ hmem
  refine ⟨hge, fun hall => ?_⟩
  have hbest := best_bid_mem (b.on_quote q) (keys_ne_nil_of_mem hmem)
  simp only [OrderBook.on_quote, mem_keys_assign] at hbest
  rcases hbest with hb | hb
  · exact hb
  · exact Int.le_antisymm (hall _ hb) hge

/-- C19 (witness): on a book with bids at 100 and 90, a quote with bid 95
leaves the best bid at 100, and a quote with bid 120 makes it 120. -/
theorem best_bid_after_quote_witness :
    (95 : Int) ≤ ((OrderBook.mk [(100, 5), (90, 3)] [] []).on_quote
      (mk_quote 95 130 1 1)).best_bid ∧
    ((OrderBook.mk [(100, 5), (90, 3)] [] []).on_quote (mk_quote 120 130 1 1)).best_bid = 120 :=
  ⟨(best_bid_after_quote (OrderBook.mk [(100, 5), (90, 3)] [] []) (mk_quote 95 130 1 1)
      (by decide)).1,
   (best_bid_after_quote (OrderBook.mk [(100, 5), (90, 3)] [] []) (mk_quote 120 130 1 1)
      (by decide)).2 (by decide)⟩

/-- C20: for every non-empty list of quotes applied with `on_quote` to the
empty book, `best_bid()` afterwards is the maximum `bid_price` of the list (a
bid price of the list that no bid price of the list exceeds) and `best_ask()`
is the minimum `ask_price` of the list. -/
theorem best_prices_of_quotes (qs : List Quote) (hne : qs ≠ []) :
    (qs.foldl OrderBook.on_quote {}).best_bid ∈ qs.map (fun q => q.bid_price) ∧
    (∀ q ∈ qs, q.bid_price ≤ (qs.foldl OrderBook.on_quote {}).best_bid) ∧
    (qs.foldl OrderBook.on_quote {}).best_ask ∈ qs.map (fun q => q.ask_price) ∧
    (∀ q ∈ qs, (qs.foldl OrderBook.on_quote {}).best_ask ≤ q.ask_price) := by
  have hwf := wf_on_quotes qs {} wf_empty
  obtain ⟨q0, hq0⟩ := List.exists_mem_of_ne_nil qs hne
  have hb0 : q0.bid_price ∈ (qs.foldl OrderBook.on_quote {}).bids_.map Prod.fst :=
    (mem_bids_on_quotes qs {} _).mpr (Or.inr (List.mem_map_of_mem _ hq0))
  have ha0 : q0.ask_price ∈ (qs.foldl OrderBook.on_quote {}).asks_.map Prod.fst :=
    (mem_asks_on_quotes qs {} _).mpr (Or.inr (List.mem_map_of_mem _ hq0))
  refine ⟨?_, fun q hq => ?_, ?_, fun q hq => ?_⟩
  · rcases (mem_bids_on_quotes qs {} _).mp (best_bid_mem _ (keys_ne_nil_of_mem hb0)) with h | h
    · simp at h
    · exact h
  · exact best_bid_ge _ hwf.1 _
      ((mem_bids_on_quotes qs {} _).mpr (Or.inr (List.mem_map_of_mem _ hq)))
  · rcases (mem_asks_on_quotes qs {} _).mp (best_ask_mem _ (keys_ne_nil_of_mem ha0)) with h | h
    · simp at h
    · exact h
  · exact best_ask_le _ hwf.2.1 _
      ((mem_asks_on_quotes qs {} _).mpr (Or.inr (List.mem_map_of_mem _ hq)))

/-- C20 (witness): scenario S1, the quotes (1500000, 1500050),
(1500100, 1500150), (1500050, 1500100) give best bid 1500100 and best ask
1500050. -/
theorem best_prices_of_quotes_witness :
    ([mk_quote 1500000 1500050 10 10, mk_quote 1500100 1500150 10 10,
      mk_quote 1500050 1500100 10 10].foldl OrderBook.on_quote {}).best_bid = 1500100 ∧
    ([mk_quote 1500000 1500050 10 10, mk_quote 1500100 1500150 10 10,
      mk_quote 1500050 1500100 10 10].foldl OrderBook.on_quote {}).best_ask = 1500050 :=
  ⟨Int.le_antisymm (by decide)
      ((best_prices_of_quotes [mk_quote 1500000 1500050 10 10, mk_quote 1500100 1500150 10 10,
        mk_quote 1500050 1500100 10 10] (by decide)).2.1
        (mk_quote 1500100 1500150 10 10) (by decide)),
   Int.le_antisymm
      ((best_prices_of_quotes [mk_quote 1500000 1500050 10 10, mk_quote 1500100 1500150 10 10,
        mk_quote 1500050 1500100 10 10] (by decide)).2.2.2
        (mk_quote 1500000 1500050 10 10) (by decide)) (by decide)⟩

/-- C11 (counterexample): three books on which an add followed by the
matching cancel does not restore the observed values. With order 1 already
stored, adding order 1 again and cancelling it leaves no order where there was
one; with a level of size 0 at price 100, adding 5 there and cancelling erases
the level and `best_bid()` drops from 100 to 0; with a level of size
`2^32 - 1` at price 100, adding 2 wraps the level and the cancel erases it. -/
theorem add_cancel_not_restored_counter :
    (({} : OrderBook).on_order_add (mk_add 1 'B' 100 10)).orders_.length = 1 ∧
    (((({} : OrderBook).on_order_add (mk_add 1 'B' 100 10)).on_order_add
      (mk_add 1 'B' 100 10)).on_order_cancel (mk_cancel 1)).orders_.length = 0 ∧
    (({} : OrderBook).on_quote (mk_quote 100 200 0 0)).best_bid = 100 ∧
    (((({} : OrderBook).on_quote (mk_quote 100 200 0 0)).on_order_add
      (mk_add 1 'B' 100 5)).on_order_cancel (mk_cancel 1)).best_bid = 0 ∧
    (({} : OrderBook).on_quote (mk_quote 100 200 4294967295 1)).best_bid = 100 ∧
    (((({} : OrderBook).on_quote (mk_quote 100 200 4294967295 1)).on_order_add
      (mk_add 1 'B' 100 2)).on_order_cancel (mk_cancel 1)).best_bid = 0 := by
  decide

/-- C11 (amended): for every book state and every OrderAdd `a` whose order id
is not yet present in `orders_` and whose price level on its side is either
absent or has a size `L` with `0 < L` and `L + a.size < 2^32`, `on_order_add(a)`
followed by `on_order_cancel` with the same order id restores the whole book,
so `best_bid()`, `best_ask()` and the number of entries of `orders_` are the
same as before the add. -/
theorem add_cancel_round_trip (b : OrderBook) (a : OrderAdd) (c : OrderCancel)
    (hwf : b.wf) (hid : c.order_id = a.order_id)
    (hnew : map_find b.orders_ a.order_id = none)
    (hlevel : map_find (b.side_levels a.side) a.price = none ∨
      (0 < level_size (b.side_levels a.side) a.price ∧
        level_size (b.side_levels a.side) a.price + a.size < 4294967296)) :
    (b.on_order_add a).on_order_cancel c = b ∧
    ((b.on_order_add a).on_order_cancel c).best_bid = b.best_bid ∧
    ((b.on_order_add a).on_order_cancel c).best_ask = b.best_ask ∧
    ((b.on_order_add a).on_order_cancel c).orders_.length = b.orders_.length := by
  have key : (b.on_order_add a).on_order_cancel c = b := by
    obtain ⟨h1, h2, h3⟩ := hwf
    have horders := map_erase_assign less_u64_comparator b.orders_ a.order_id
      { order_id := a.order_id, symbol_id := a.symbol_id, price := a.price,
        size := a.size, side := a.side } h3 hnew
    unfold OrderBook.side_levels at hlevel
    unfold OrderBook.on_order_add OrderBook.on_order_cancel
    by_cases hs : a.side = 'B'
    · rw [if_pos hs] at hlevel
      simp only [if_pos hs, hid, map_find_assign, if_true]
      have hlev := cancel_level_add_assign greater_i64_comparator b.bids_
        { order_id := a.order_id, symbol_id := a.symbol_id, price := a.price,
          size := a.size, side := a.side } h1 hlevel
      simp only at hlev
      rw [hlev, horders]
    · rw [if_neg hs] at hlevel
      simp only [if_neg hs, hid, map_find_assign, if_true]
      have hlev := cancel_level_add_assign less_i64_comparator b.asks_
        { order_id := a.order_id, symbol_id := a.symbol_id, price := a.price,
          size := a.size, side := a.side } h2 hlevel
      simp only at hlev
      rw [hlev, horders]
  rw [key]
  exact ⟨rfl, rfl, rfl, rfl⟩

/-- C11 (witness): on a book with a bid level of 50 at price 100 held by
order 1, adding order 2 with size 50 at the same price and cancelling it gives
the same book back. -/
theorem add_cancel_round_trip_witness :
    ((({} : OrderBook).on_order_add (mk_add 1 'B' 100 50)).on_order_add
      (mk_add 2 'B' 100 50)).on_order_cancel (mk_cancel 2) =
      ({} : OrderBook).on_order_add (mk_add 1 'B' 100 50) :=
  (add_cancel_round_trip (({} : OrderBook).on_order_add (mk_add 1 'B' 100 50))
    (mk_add 2 'B' 100 50) (mk_cancel 2) (by decide) (by decide) (by decide)
    (Or.inr (by decide))).1

/-- C15 (counterexample): applying `on_order_add` twice with the same message
to the empty book leaves a level of 20 where one application leaves 10. -/
theorem add_twice_counter :
    level_size (({} : OrderBook).on_order_add (mk_add 1 'B' 100 10)).bids_ 100 = 10 ∧
    level_size ((({} : OrderBook).on_order_add (mk_add 1 'B' 100 10)).on_order_add
      (mk_add 1 'B' 100 10)).bids_ 100 = 20 ∧
    (({} : OrderBook).on_order_add (mk_add 1 'B' 100 10)).on_order_add (mk_add 1 'B' 100 10) ≠
      ({} : OrderBook).on_order_add (mk_add 1 'B' 100 10) := by
  decide

/-- C15 (amended): `on_order_cancel` and `on_quote` are idempotent state
transitions: for every book state and every message, applying the handler
twice with the same message yields the same book (bids, asks, orders) as
applying it once. `on_order_add` is idempotent exactly for messages whose size
is 0 modulo `2^32`: otherwise the second application adds the size to the
level again. -/
theorem handlers_idempotent (b : OrderBook) (hwf : b.wf) (a : OrderAdd) (c : OrderCancel)
    (q : Quote) :
    (b.on_order_cancel c).on_order_cancel c = b.on_order_cancel c ∧
    (b.on_quote q).on_quote q = b.on_quote q ∧
    ((b.on_order_add a).on_order_add a = b.on_order_add a ↔ a.size % 4294967296 = 0) := by
  refine ⟨?_, ?_, ?_⟩
  · have hnone : map_find (b.on_order_cancel c).orders_ c.order_id = none := by
      unfold OrderBook.on_order_cancel
      cases hf : map_find b.orders_ c.order_id with
      | none => simp only; exact hf
      | some order =>
        simp only
        split_ifs <;> exact map_find_erase_self less_u64_comparator _ _ hwf.2.2
    generalize b.on_order_cancel c = b1 at hnone
    unfold OrderBook.on_order_cancel
    rw [hnone]
  · simp only [OrderBook.on_quote, map_assign_assign]
  · unfold OrderBook.on_order_add
    by_cases hs : a.side = 'B'
    · simp only [if_pos hs, map_assign_assign, map_add_assign_twice]
      rw [← map_add_assign_twice_eq_iff greater_i64 b.bids_ a.price a.size,
        map_add_assign_twice]
      constructor
      · intro h
        exact congrArg OrderBook.bids_ h
      · intro h
        rw [h]
    · simp only [if_neg hs, map_assign_assign, map_add_assign_twice]
      rw [← map_add_assign_twice_eq_iff less_i64 b.asks_ a.price a.size,
        map_add_assign_twice]
      constructor
      · intro h
        exact congrArg OrderBook.asks_ h
      · intro h
        rw [h]

/-- C15 (witness): on the book holding order 1, cancelling order 1 twice is
the same as cancelling it once, and quoting twice is the same as quoting
once. -/
theorem handlers_idempotent_witness :
    ((({} : OrderBook).on_order_add (mk_add 1 'B' 100 10)).on_order_cancel
      (mk_cancel 1)).on_order_cancel (mk_cancel 1) =
      (({} : OrderBook).on_order_add (mk_add 1 'B' 100 10)).on_order_cancel (mk_cancel 1) ∧
    ((({} : OrderBook).on_order_add (mk_add 1 'B' 100 10)).on_quote
      (mk_quote 100 101 7 8)).on_quote (mk_quote 100 101 7 8) =
      (({} : OrderBook).on_order_add (mk_add 1 'B' 100 10)).on_quote (mk_quote 100 101 7 8) :=
  ⟨(handlers_idempotent (({} : OrderBook).on_order_add (mk_add 1 'B' 100 10)) (by decide)
      (mk_add 1 'B' 100 10) (mk_cancel 1) (mk_quote 100 101 7 8)).1,
   (handlers_idempotent (({} : OrderBook).on_order_add (mk_add 1 'B' 100 10)) (by decide)
      (mk_add 1 'B' 100 10) (mk_cancel 1) (mk_quote 100 101 7 8)).2.1⟩

/-- C13 (counterexample): three call sequences from the empty book that leave a
bid level of size 0 at price 100: a quote with `bid_size = 0`; an add of
size 0; a quote of size `2^32 - 1` followed by an add of size 1 at the same
price, which wraps the level to 0. -/
theorem zero_level_counter :
    map_find (({} : OrderBook).run [BookEvent.quote (mk_quote 100 101 0 0)]).bids_ 100 =
      some 0 ∧
    map_find (({} : OrderBook).run [BookEvent.add (mk_add 1 'B' 100 0)]).bids_ 100 = some 0 ∧
    map_find (({} : OrderBook).run [BookEvent.quote (mk_quote 100 101 4294967295 1),
      BookEvent.add (mk_add 1 'B' 100 1)]).bids_ 100 = some 0 := by
  decide

/-- C13 (amended): after any sequence of `on_order_add`, `on_order_cancel`
and `on_quote` calls starting from the empty book in which every quote has
`bid_size > 0` and `ask_size > 0`, every added order has `size > 0` and no
level addition wraps at `2^32`, every price key present in `bids_` or `asks_`
has an aggregated size strictly greater than 0. -/
theorem levels_stay_positive (events : List BookEvent)
    (h : OrderBook.steps_hold positive_step {} events) :
    (∀ p v, map_find (({} : OrderBook).run events).bids_ p = some v → 0 < v) ∧
    (∀ p v, map_find (({} : OrderBook).run events).asks_ p = some v → 0 < v) :=
  levels_positive_run events {} wf_empty
    ⟨fun _ _ hf => Option.noConfusion hf, fun _ _ hf => Option.noConfusion hf⟩ h

/-- C13 (witness): two adds at one price, a quote and a cancel; the bid level
at 100 ends at 50. -/
theorem levels_stay_positive_witness :
    map_find (({} : OrderBook).run
      [BookEvent.add (mk_add 1 'B' 100 50), BookEvent.add (mk_add 2 'B' 100 50),
       BookEvent.quote (mk_quote 90 110 5 5), BookEvent.cancel (mk_cancel 1)]).bids_ 100 =
      some 50 ∧ (0 : Nat) < 50 :=
  ⟨by decide,
   (levels_stay_positive
    [BookEvent.add (mk_add 1 'B' 100 50), BookEvent.add (mk_add 2 'B' 100 50),
     BookEvent.quote (mk_quote 90 110 5 5), BookEvent.cancel (mk_cancel 1)]
    (by decide)).1 100 50 (by decide)⟩

/-- C14 (counterexample): three call sequences from the empty book after which
a stored order is not covered by its level. After an add of size 10 at bid
100, a quote sets that level to 5; after adds of sizes 5 and 0 at bid 100,
cancelling the first erases the level under the second; after adds of sizes
`2^32 - 1` and 1 at bid 100 the level has wrapped to 0. -/
theorem order_not_covered_counter :
    map_find (({} : OrderBook).run [BookEvent.add (mk_add 1 'B' 100 10),
      BookEvent.quote (mk_quote 100 101 5 1)]).orders_ 1 = some (Order.mk 1 55 100 10 'B') ∧
    map_find (({} : OrderBook).run [BookEvent.add (mk_add 1 'B' 100 10),
      BookEvent.quote (mk_quote 100 101 5 1)]).bids_ 100 = some 5 ∧
    map_find (({} : OrderBook).run [BookEvent.add (mk_add 1 'B' 100 5),
      BookEvent.add (mk_add 2 'B' 100 0),
      BookEvent.cancel (mk_cancel 1)]).orders_ 2 = some (Order.mk 2 55 100 0 'B') ∧
    map_find (({} : OrderBook).run [BookEvent.add (mk_add 1 'B' 100 5),
      BookEvent.add (mk_add 2 'B' 100 0), BookEvent.cancel (mk_cancel 1)]).bids_ 100 = none ∧
    map_find (({} : OrderBook).run [BookEvent.add (mk_add 1 'B' 100 4294967295),
      BookEvent.add (mk_add 2 'B' 100 1)]).orders_ 2 = some (Order.mk 2 55 100 1 'B') ∧
    map_find (({} : OrderBook).run [BookEvent.add (mk_add 1 'B' 100 4294967295),
      BookEvent.add (mk_add 2 'B' 100 1)]).bids_ 100 = some 0 := by
  decide

/-- C14 (amended): after any sequence of `on_order_add`, `on_order_cancel` and
`on_quote` calls starting from the empty book, in which every added order has
`size > 0`, no level addition wraps at `2^32`, and every quote has a
`bid_size` (`ask_size`) at least the total size of the stored orders resting
at its `bid_price` on the bid side (at its `ask_price` on the ask side), for
every order `o` stored in `orders_` the map for its side (`bids_` if
`o.side == 'B'`, `asks_` otherwise) contains an entry at `o.price` whose
aggregated size is at least `o.size`. -/
theorem stored_orders_covered (events : List BookEvent)
    (h : OrderBook.steps_hold covering_step {} events) (id : Nat) (order : Order)
    (hf : map_find (({} : OrderBook).run events).orders_ id = some order) :
    ∃ v, map_find ((({} : OrderBook).run events).side_levels order.side) order.price = some v ∧
      order.size ≤ v :=
  covered_order _ (covered_run_mixed events {} covered_empty h) id order hf

/-- C14 (witness): two adds of size 50 at bid 100, a quote that sets the bid
level at 100 to 120 (at least the 100 resting there) and the ask level at 101,
then the cancel of the first order: the stored order 2 is covered by the level
at 100. -/
theorem stored_orders_covered_witness :
    ∃ v, map_find ((({} : OrderBook).run [BookEvent.add (mk_add 1 'B' 100 50),
      BookEvent.add (mk_add 2 'B' 100 50), BookEvent.quote (mk_quote 100 101 120 7),
      BookEvent.cancel (mk_cancel 1)]).side_levels 'B') 100 = some v ∧ 50 ≤ v :=
  stored_orders_covered [BookEvent.add (mk_add 1 'B' 100 50),
    BookEvent.add (mk_add 2 'B' 100 50), BookEvent.quote (mk_quote 100 101 120 7),
    BookEvent.cancel (mk_cancel 1)] (by decide) 2 (Order.mk 2 55 100 50 'B') (by decide)

/-! ## Parser: sequence arithmetic and rejected frames -/

theorem gap_u32_eq_emod (s l : Nat) :
    gap_u32 s l = (((s : Int) - (l : Int) - 1) % 4294967296).toNat := by
  unfold gap_u32
  omega

theorem parse_fst_snd_of_same (p q : MessageParser) (raw : RawMessage)
    (h1 : p.last_sequence_ = q.last_sequence_) (h2 : p.gaps_ = q.gaps_) :
    (p.parse raw).1 = (q.parse raw).1 ∧
    (p.parse raw).2.last_sequence_ = (q.parse raw).2.last_sequence_ ∧
    (p.parse raw).2.gaps_ = (q.parse raw).2.gaps_ := by
  by_cases hv : raw.valid
  · rw [parse_of_valid p raw hv, parse_of_valid q raw hv]
    simp only [MessageParser.accept_state, h1, h2, and_self]
  · rw [parse_of_not_valid p raw hv, parse_of_not_valid q raw hv]
    exact ⟨rfl, h1, h2⟩

theorem parse_all_of_same (raws : List RawMessage) :
    ∀ p q : MessageParser, p.last_sequence_ = q.last_sequence_ → p.gaps_ = q.gaps_ →
      (p.parse_all raws).last_sequence_ = (q.parse_all raws).last_sequence_ ∧
      (p.parse_all raws).gaps_ = (q.parse_all raws).gaps_ := by
  induction raws with
  | nil => intro p q h1 h2; exact ⟨h1, h2⟩
  | cons raw rest ih =>
    intro p q h1 h2
    have h := parse_fst_snd_of_same p q raw h1 h2
    exact ih (p.parse raw).2 (q.parse raw).2 h.2.1 h.2.2

/-- C29 (counterexample): with `last_sequence_ = 7` and `gaps_ = 2^64 - 1`, the
valid frame that replays sequence number 7 has `d = 2^32 - 1`, and
`sequence_gaps()` becomes `2^32 - 2`, not `gaps + d`. -/
theorem parse_replay_wraps_counter :
    (quote_frame 7).valid ∧ (quote_frame 7).header.sequence_num = 7 ∧
    ((MessageParser.mk 7 18446744073709551615 0).parse (quote_frame 7)).2.sequence_gaps =
      4294967294 ∧
    ((MessageParser.mk 7 18446744073709551615 0).parse (quote_frame 7)).2.sequence_gaps ≠
      (MessageParser.mk 7 18446744073709551615 0).sequence_gaps + 4294967295 := by
  decide

/-- C29 (amended): for every parser state (`gaps_` a `uint64_t`) and every valid frame with sequence number `s`, `parse`
sets `last_sequence_` to `s` and sets `sequence_gaps()` to `(gaps + d) mod 2^64`
(which is `gaps + d` whenever that is below `2^64`), where `d = 0` if
`last == 0` or `s == (last + 1) mod 2^32`, and otherwise
`d = (s - last - 1) mod 2^32`. A replay of the same non-zero sequence number
has `d = 2^32 - 1`, and after a valid frame with `s == 0` the next valid frame
leaves `sequence_gaps()` unchanged whatever its sequence number. -/
theorem parse_gap_arithmetic (p : MessageParser) (raw : RawMessage) (hv : raw.valid)
    (hg : p.gaps_ < 18446744073709551616) :
    (p.parse raw).2.last_sequence_ = raw.header.sequence_num ∧
    (p.parse raw).2.sequence_gaps =
      (p.sequence_gaps +
        (if p.last_sequence_ = 0 ∨
            raw.header.sequence_num = (p.last_sequence_ + 1) % 4294967296 then 0
         else (((raw.header.sequence_num : Int) - (p.last_sequence_ : Int) - 1) %
            4294967296).toNat)) % 18446744073709551616 ∧
    (p.last_sequence_ ≠ 0 → raw.header.sequence_num = p.last_sequence_ →
      (p.parse raw).2.sequence_gaps = (p.sequence_gaps + 4294967295) % 18446744073709551616) ∧
    (raw.header.sequence_num = 0 → ∀ next : RawMessage, next.valid →
      ((p.parse raw).2.parse next).2.sequence_gaps = (p.parse raw).2.sequence_gaps) := by
  have hb := raw.sequence_num_lt
  rw [parse_of_valid p raw hv]
  refine ⟨rfl, ?_, ?_, ?_⟩
  · simp only [MessageParser.accept_state, MessageParser.sequence_gaps]
    by_cases hc : p.last_sequence_ = 0 ∨
        raw.header.sequence_num = (p.last_sequence_ + 1) % 4294967296
    · rw [if_pos hc, if_neg (by tauto), Nat.add_zero, Nat.mod_eq_of_lt hg]
    · rw [if_neg hc, if_pos (by tauto), gap_u32_eq_emod]
  · intro h0 hrep
    simp only [MessageParser.accept_state, MessageParser.sequence_gaps]
    rw [if_pos ⟨h0, by omega⟩]
    have : gap_u32 raw.header.sequence_num p.last_sequence_ = 4294967295 := by
      unfold gap_u32
      omega
    rw [this]
  · intro hs next hnext
    rw [parse_of_valid _ next hnext]
    simp only [MessageParser.accept_state, MessageParser.sequence_gaps, hs]
    rw [if_neg (fun h => h.1 rfl)]

/-- C29 (witness): after sequence number 7 a replay of 7 adds `2^32 - 1`, and
after sequence number 0 the frame numbered 9 adds nothing. -/
theorem parse_gap_arithmetic_witness :
    ((MessageParser.mk 7 0 0).parse (quote_frame 7)).2.sequence_gaps =
      (0 + 4294967295) % 18446744073709551616 ∧
    (((MessageParser.mk 7 0 0).parse (quote_frame 0)).2.parse (quote_frame 9)).2.sequence_gaps =
      ((MessageParser.mk 7 0 0).parse (quote_frame 0)).2.sequence_gaps :=
  ⟨(parse_gap_arithmetic (MessageParser.mk 7 0 0) (quote_frame 7) (by decide)
      (by decide)).2.2.1 (by decide) (by decide),
   (parse_gap_arithmetic (MessageParser.mk 7 0 0) (quote_frame 0) (by decide)
      (by decide)).2.2.2 (by decide) (quote_frame 9) (by decide)⟩

/-- C30: for every parser state and every frame for which `parse` returns no
message, `last_sequence_` and `sequence_gaps()` are unchanged, and parsing any
further frames gives the same `last_sequence_` and `sequence_gaps()` as if the
rejected frame had never been parsed. -/
theorem parse_rejected_frame (p : MessageParser) (raw : RawMessage)
    (h : (p.parse raw).1 = none) :
    (p.parse raw).2.last_sequence_ = p.last_sequence_ ∧
    (p.parse raw).2.sequence_gaps = p.sequence_gaps ∧
    (∀ raws : List RawMessage,
      ((p.parse raw).2.parse_all raws).last_sequence_ = (p.parse_all raws).last_sequence_ ∧
      ((p.parse raw).2.parse_all raws).sequence_gaps = (p.parse_all raws).sequence_gaps) := by
  have hnv : ¬ raw.valid := by
    intro hv
    rw [parse_of_valid p raw hv] at h
    exact Option.noConfusion h
  rw [parse_of_not_valid p raw hnv]
  exact ⟨rfl, rfl, fun raws => parse_all_of_same raws _ _ rfl rfl⟩

/-- C30 (witness): the test's frame of `len = 4` between the frames numbered 1
and 3 does not change the gap count, which is 1 either way. -/
theorem parse_rejected_frame_witness :
    ((((MessageParser.mk 1 0 0).parse (RawMessage.mk [] 4 0)).2).parse_all
      [quote_frame 3]).sequence_gaps =
      ((MessageParser.mk 1 0 0).parse_all [quote_frame 3]).sequence_gaps :=
  ((parse_rejected_frame (MessageParser.mk 1 0 0) (RawMessage.mk [] 4 0) (by decide)).2.2
    [quote_frame 3]).2

/-! ## Order book: quote streams, partial cancels and resting orders -/

theorem best_bid_mem_quotes (qs : List Quote) (hne : qs ≠ []) :
    (qs.foldl OrderBook.on_quote {}).bids_ ≠ [] ∧
    (qs.foldl OrderBook.on_quote {}).best_bid ∈ qs.map (fun q => q.bid_price) := by
  obtain ⟨q0, hq0⟩ := List.exists_mem_of_ne_nil qs hne
  have hb0 : q0.bid_price ∈ (qs.foldl OrderBook.on_quote {}).bids_.map Prod.fst :=
    (mem_bids_on_quotes qs {} _).mpr (Or.inr (List.mem_map_of_mem _ hq0))
  refine ⟨keys_ne_nil_of_mem hb0, ?_⟩
  rcases (mem_bids_on_quotes qs {} _).mp (best_bid_mem _ (keys_ne_nil_of_mem hb0)) with h | h
  · simp at h
  · exact h

theorem best_ask_mem_quotes (qs : List Quote) (hne : qs ≠ []) :
    (qs.foldl OrderBook.on_quote {}).asks_ ≠ [] ∧
    (qs.foldl OrderBook.on_quote {}).best_ask ∈ qs.map (fun q => q.ask_price) := by
  obtain ⟨q0, hq0⟩ := List.exists_mem_of_ne_nil qs hne
  have ha0 : q0.ask_price ∈ (qs.foldl OrderBook.on_quote {}).asks_.map Prod.fst :=
    (mem_asks_on_quotes qs {} _).mpr (Or.inr (List.mem_map_of_mem _ hq0))
  refine ⟨keys_ne_nil_of_mem ha0, ?_⟩
  rcases (mem_asks_on_quotes qs {} _).mp (best_ask_mem _ (keys_ne_nil_of_mem ha0)) with h | h
  · simp at h
  · exact h

theorem steps_hold_take (P : OrderBook → BookEvent → Prop) (events : List BookEvent) :
    ∀ (b : OrderBook) (n : Nat), OrderBook.steps_hold P b events →
      OrderBook.steps_hold P b (events.take n) := by
  induction events with
  | nil => intro b n h; simpa using h
  | cons ev rest ih =>
    intro b n h
    cases n with
    | zero => exact trivial
    | succ n => exact ⟨h.1, ih _ n h.2⟩

/-- C21 (counterexample): the first two quotes of scenario S1, each with
`bid_price < ask_price`; after the second, `best_bid()` is 1500100 and
`best_ask()` is 1500050, so `best_bid() < best_ask()` does not hold. -/
theorem quote_stream_crossed_counter :
    (mk_quote 1500000 1500050 10 10).bid_price < (mk_quote 1500000 1500050 10 10).ask_price ∧
    (mk_quote 1500100 1500150 10 10).bid_price < (mk_quote 1500100 1500150 10 10).ask_price ∧
    ([mk_quote 1500000 1500050 10 10, mk_quote 1500100 1500150 10 10].foldl
      OrderBook.on_quote {}).best_bid = 1500100 ∧
    ([mk_quote 1500000 1500050 10 10, mk_quote 1500100 1500150 10 10].foldl
      OrderBook.on_quote {}).best_ask = 1500050 ∧
    ¬ ([mk_quote 1500000 1500050 10 10, mk_quote 1500100 1500150 10 10].foldl
        OrderBook.on_quote {}).best_bid <
      ([mk_quote 1500000 1500050 10 10, mk_quote 1500100 1500150 10 10].foldl
        OrderBook.on_quote {}).best_ask := by
  decide

/-- C21 (amended): for a pure quote stream applied with `on_quote` to the
empty book in which every bid price is below every ask price of the stream
(not only the ask price of its own quote), after every quote both sides are
non-empty and `best_bid() < best_ask()`. -/
theorem quote_stream_uncrossed (qs : List Quote) (hne : qs ≠ [])
    (hcross : ∀ q1 ∈ qs, ∀ q2 ∈ qs, q1.bid_price < q2.ask_price) (n : Nat) (hn : 0 < n) :
    ((qs.take n).foldl OrderBook.on_quote {}).bids_ ≠ [] ∧
    ((qs.take n).foldl OrderBook.on_quote {}).asks_ ≠ [] ∧
    ((qs.take n).foldl OrderBook.on_quote {}).best_bid <
      ((qs.take n).foldl OrderBook.on_quote {}).best_ask := by
  have htake : qs.take n ≠ [] := by
    cases qs with
    | nil => exact absurd rfl hne
    | cons q rest =>
      cases n with
      | zero => exact absurd hn (by decide)
      | succ n => simp
  obtain ⟨hb1, hb2⟩ := best_bid_mem_quotes (qs.take n) htake
  obtain ⟨ha1, ha2⟩ := best_ask_mem_quotes (qs.take n) htake
  refine ⟨hb1, ha1, ?_⟩
  obtain ⟨q1, hq1, e1⟩ := List.mem_map.mp hb2
  obtain ⟨q2, hq2, e2⟩ := List.mem_map.mp ha2
  rw [← e1, ← e2]
  exact hcross q1 (List.mem_of_mem_take hq1) q2 (List.mem_of_mem_take hq2)

/-- C21 (witness): two quotes whose bids 100 and 101 are below both asks 105
and 106; after the second, the best bid 101 is below the best ask 105. -/
theorem quote_stream_uncrossed_witness :
    (([mk_quote 100 105 1 1, mk_quote 101 106 1 1].take 2).foldl
      OrderBook.on_quote {}).best_bid <
    (([mk_quote 100 105 1 1, mk_quote 101 106 1 1].take 2).foldl
      OrderBook.on_quote {}).best_ask :=
  (quote_stream_uncrossed [mk_quote 100 105 1 1, mk_quote 101 106 1 1] (by decide)
    (by decide) 2 (by decide)).2.2

theorem map_find_add_assign {K : Type} [DecidableEq K] (comp : K → K → Bool)
    (m : List (K × Nat)) (k : K) (size : Nat) (k' : K) :
    map_find (map_add_assign comp m k size) k' =
      if k' = k then some (((map_find m k).getD 0 + size) % 4294967296) else map_find m k' := by
  unfold map_add_assign
  rw [map_find_assign]

theorem map_find_cancel_level_ne (comp : Int → Int → Bool) (m : List (Int × Nat))
    (order : Order) (p : Int) (hp : p ≠ order.price) :
    map_find (cancel_level comp m order) p = map_find m p := by
  unfold cancel_level
  split
  · rfl
  · split_ifs
    · rw [map_find_assign, if_neg hp]
    · exact map_find_erase_ne m _ _ hp

/-- Two adds at one price on one side of the empty book, then the cancel of
the first: the level map of that side, for either comparator. -/
theorem two_adds_cancel_levels (comp : Int → Int → Bool) (p : Int) (s1 s2 : Nat)
    (order : Order) (hp : order.price = p) (hs : order.size = s1) (h2 : 0 < s2)
    (hsum : s1 + s2 < 4294967296) :
    map_find (map_add_assign comp (map_add_assign comp [] p s1) p s2) p = some (s1 + s2) ∧
    cancel_level comp (map_add_assign comp (map_add_assign comp [] p s1) p s2) order =
      [(p, s2)] := by
  have hfind : map_find (map_add_assign comp (map_add_assign comp [] p s1) p s2) p =
      some (s1 + s2) := by
    rw [map_find_add_assign, if_pos rfl, map_find_add_assign, if_pos rfl]
    simp only [map_find, Option.getD_none, Option.getD_some, Nat.zero_add]
    rw [Nat.mod_eq_of_lt (by omega : s1 < 4294967296), Nat.mod_eq_of_lt hsum]
  refine ⟨hfind, ?_⟩
  unfold cancel_level
  rw [hp, hfind, hs]
  simp only
  rw [if_pos (by omega)]
  unfold map_add_assign
  rw [map_assign_assign, map_assign_assign, Nat.add_sub_cancel_left]
  rfl

/-- C26: starting from the empty book, after two `on_order_add` calls with
distinct order ids, the same price and side and sizes `s1`, `s2` with `s2 > 0`
and `s1 + s2 < 2^32`, the level at that price holds `s1 + s2`; after
`on_order_cancel` of the first id the level holds `s2` and the best price on
that side (`best_bid()` for side `'B'`, `best_ask()` otherwise) is still that
price. -/
theorem two_adds_then_cancel (a1 a2 : OrderAdd) (c : OrderCancel)
    (hid : a1.order_id ≠ a2.order_id) (hp : a2.price = a1.price) (hs : a2.side = a1.side)
    (hc : c.order_id = a1.order_id) (h2 : 0 < a2.size)
    (hsum : a1.size + a2.size < 4294967296) :
    map_find (((({} : OrderBook).on_order_add a1).on_order_add a2).side_levels a1.side)
      a1.price = some (a1.size + a2.size) ∧
    map_find ((((({} : OrderBook).on_order_add a1).on_order_add a2).on_order_cancel
      c).side_levels a1.side) a1.price = some a2.size ∧
    (a1.side = 'B' →
      (((({} : OrderBook).on_order_add a1).on_order_add a2).on_order_cancel c).best_bid =
        a1.price) ∧
    (a1.side ≠ 'B' →
      (((({} : OrderBook).on_order_add a1).on_order_add a2).on_order_cancel c).best_ask =
        a1.price) := by
  have horder : map_find ((({} : OrderBook).on_order_add a1).on_order_add a2).orders_
      c.order_id = some (Order.mk a1.order_id a1.symbol_id a1.price a1.size a1.side) := by
    rw [on_order_add_orders, map_find_assign, hc, if_neg hid, on_order_add_orders,
      map_find_assign, if_pos rfl]
  obtain ⟨_, hb3, ha3⟩ := on_order_cancel_found _ c _ horder
  obtain ⟨hb2, ha2⟩ := on_order_add_levels (({} : OrderBook).on_order_add a1) a2
  obtain ⟨hb1, ha1⟩ := on_order_add_levels ({} : OrderBook) a1
  rw [hs, hp] at hb2 ha2
  simp only at hb3 ha3
  unfold OrderBook.side_levels
  by_cases hB : a1.side = 'B'
  · rw [if_pos hB] at hb1 hb2 hb3
    rw [hb2, hb1] at hb3
    rw [hb1] at hb2
    have key := two_adds_cancel_levels greater_i64 a1.price a1.size a2.size
      { order_id := a1.order_id, symbol_id := a1.symbol_id, price := a1.price,
        size := a1.size, side := a1.side } rfl rfl h2 hsum
    rw [key.2] at hb3
    simp only [if_pos hB]
    refine ⟨?_, ?_, ?_, fun h => absurd hB h⟩
    · rw [hb2]; exact key.1
    · rw [hb3]; simp [map_find]
    · intro _; simp [OrderBook.best_bid, hb3]
  · rw [if_neg hB] at ha1 ha2 ha3
    rw [ha2, ha1] at ha3
    rw [ha1] at ha2
    have key := two_adds_cancel_levels less_i64 a1.price a1.size a2.size
      { order_id := a1.order_id, symbol_id := a1.symbol_id, price := a1.price,
        size := a1.size, side := a1.side } rfl rfl h2 hsum
    rw [key.2] at ha3
    simp only [if_neg hB]
    refine ⟨?_, ?_, fun h => absurd h hB, ?_⟩
    · rw [ha2]; exact key.1
    · rw [ha3]; simp [map_find]
    · intro _; simp [OrderBook.best_ask, ha3]

/-- C26 (witness): scenario S3, ids 1 and 2 with size 50 each at bid 100: the
level is 100, and after the cancel of id 1 it is 50 with best bid 100. -/
theorem two_adds_then_cancel_witness :
    map_find (((({} : OrderBook).on_order_add (mk_add 1 'B' 100 50)).on_order_add
      (mk_add 2 'B' 100 50)).side_levels 'B') 100 = some (50 + 50) ∧
    map_find ((((({} : OrderBook).on_order_add (mk_add 1 'B' 100 50)).on_order_add
      (mk_add 2 'B' 100 50)).on_order_cancel (mk_cancel 1)).side_levels 'B') 100 = some 50 ∧
    (((({} : OrderBook).on_order_add (mk_add 1 'B' 100 50)).on_order_add
      (mk_add 2 'B' 100 50)).on_order_cancel (mk_cancel 1)).best_bid = 100 :=
  ⟨(two_adds_then_cancel (mk_add 1 'B' 100 50) (mk_add 2 'B' 100 50) (mk_cancel 1)
      (by decide) (by decide) (by decide) (by decide) (by decide) (by decide)).1,
   (two_adds_then_cancel (mk_add 1 'B' 100 50) (mk_add 2 'B' 100 50) (mk_cancel 1)
      (by decide) (by decide) (by decide) (by decide) (by decide) (by decide)).2.1,
   (two_adds_then_cancel (mk_add 1 'B' 100 50) (mk_add 2 'B' 100 50) (mk_cancel 1)
      (by decide) (by decide) (by decide) (by decide) (by decide) (by decide)).2.2.1
      (by decide)⟩

/-- C27: `on_order_cancel` reads only the order id of the message: two
OrderCancel messages with the same order id (whatever their `symbol_id` and
header) give the same book. When the id is present with stored order `o`,
the map of the other side is unchanged, every level of `o`'s side at a price
other than `o.price` is unchanged, the entry of the id is erased from
`orders_`, and every other entry of `orders_` is unchanged. -/
theorem cancel_uses_stored_order (b : OrderBook) (hwf : b.wf) (c1 c2 : OrderCancel)
    (hid : c1.order_id = c2.order_id) :
    b.on_order_cancel c1 = b.on_order_cancel c2 ∧
    (∀ order, map_find b.orders_ c1.order_id = some order →
      (order.side = 'B' → (b.on_order_cancel c1).asks_ = b.asks_ ∧
        ∀ p, p ≠ order.price → map_find (b.on_order_cancel c1).bids_ p = map_find b.bids_ p) ∧
      (order.side ≠ 'B' → (b.on_order_cancel c1).bids_ = b.bids_ ∧
        ∀ p, p ≠ order.price → map_find (b.on_order_cancel c1).asks_ p = map_find b.asks_ p) ∧
      map_find (b.on_order_cancel c1).orders_ c1.order_id = none ∧
      ∀ id, id ≠ c1.order_id →
        map_find (b.on_order_cancel c1).orders_ id = map_find b.orders_ id) := by
  constructor
  · unfold OrderBook.on_order_cancel
    rw [hid]
  · intro order hf
    obtain ⟨ho, hb, ha⟩ := on_order_cancel_found b c1 order hf
    refine ⟨fun hB => ?_, fun hB => ?_, ?_, fun id hne => ?_⟩
    · rw [if_pos hB] at hb ha
      exact ⟨ha, fun p hp => by rw [hb]; exact map_find_cancel_level_ne _ _ _ _ hp⟩
    · rw [if_neg hB] at hb ha
      exact ⟨hb, fun p hp => by rw [ha]; exact map_find_cancel_level_ne _ _ _ _ hp⟩
    · rw [ho]
      exact map_find_erase_self less_u64_comparator _ _ hwf.2.2
    · rw [ho]
      exact map_find_erase_ne _ _ _ hne

/-- C27 (witness): with orders 1 (bid 100, size 50) and 2 (bid 90, size 7)
stored, two cancels of id 1 that differ in `symbol_id` and sequence number
give the same book, and the level at 90 is untouched. -/
theorem cancel_uses_stored_order_witness :
    ((({} : OrderBook).on_order_add (mk_add 1 'B' 100 50)).on_order_add
      (mk_add 2 'B' 90 7)).on_order_cancel (mk_cancel 1) =
    ((({} : OrderBook).on_order_add (mk_add 1 'B' 100 50)).on_order_add
      (mk_add 2 'B' 90 7)).on_order_cancel (OrderCancel.mk (header_of 4 99) 1 77) ∧
    map_find (((({} : OrderBook).on_order_add (mk_add 1 'B' 100 50)).on_order_add
      (mk_add 2 'B' 90 7)).on_order_cancel (mk_cancel 1)).bids_ 90 =
    map_find ((({} : OrderBook).on_order_add (mk_add 1 'B' 100 50)).on_order_add
      (mk_add 2 'B' 90 7)).bids_ 90 :=
  ⟨(cancel_uses_stored_order ((({} : OrderBook).on_order_add (mk_add 1 'B' 100 50)).on_order_add
      (mk_add 2 'B' 90 7)) (by decide) (mk_cancel 1) (OrderCancel.mk (header_of 4 99) 1 77)
      (by decide)).1,
   (((cancel_uses_stored_order ((({} : OrderBook).on_order_add
      (mk_add 1 'B' 100 50)).on_order_add (mk_add 2 'B' 90 7)) (by decide) (mk_cancel 1)
      (OrderCancel.mk (header_of 4 99) 1 77) (by decide)).2
      (Order.mk 1 55 100 50 'B') (by decide)).1 (by decide)).2 90 (by decide)⟩

/-- C28: for every sequence of `on_order_add` and `on_order_cancel` calls from
the empty book in which every added size is positive and no level addition
wraps at `2^32`, after each call (after the first `n` calls, for every `n`)
and for every price `p` and side, if a stored order rests at `p` on that side
then the level at `p` on that side exists and its size is at least the sum of
the sizes of all stored orders resting there. Order ids may be re-used. -/
theorem levels_cover_resting (events : List BookEvent)
    (h : OrderBook.steps_hold order_step {} events) (n : Nat) (bid : Bool) (p : Int)
    (hrest : ∃ id order, map_find (({} : OrderBook).run (events.take n)).orders_ id =
      some order ∧ order.price = p ∧ decide (order.side = 'B') = bid) :
    ∃ v, map_find (if bid then (({} : OrderBook).run (events.take n)).bids_
        else (({} : OrderBook).run (events.take n)).asks_) p = some v ∧
      (({} : OrderBook).run (events.take n)).resting bid p ≤ v := by
  obtain ⟨_, hpos, hb, ha⟩ :=
    covered_run (events.take n) {} covered_empty (steps_hold_take _ events {} n h)
  obtain ⟨id, order, hf, hp, hside⟩ := hrest
  have hsize := hpos id order hf
  have hge := map_total_ge (order_weight bid p) _ id order hf
  simp only [order_weight, hside, hp, and_self, if_true] at hge
  cases bid with
  | true =>
    have hcov := hb p
    unfold OrderBook.resting at hcov ⊢
    simp only [if_true]
    exact ⟨_, level_size_pos (by omega), hcov⟩
  | false =>
    have hcov := ha p
    unfold OrderBook.resting at hcov ⊢
    simp only [Bool.false_eq_true, if_false]
    exact ⟨_, level_size_pos (by omega), hcov⟩

/-- C28 (witness): ids 1 and 2 rest at bid 100 with sizes 50 and 30, id 1 is
then re-used for an add of 20 at bid 100; the level covers the resting orders
2 and 1. -/
theorem levels_cover_resting_witness :
    ∃ v, map_find (if true then (({} : OrderBook).run
        ([BookEvent.add (mk_add 1 'B' 100 50), BookEvent.add (mk_add 2 'B' 100 30),
          BookEvent.add (mk_add 1 'B' 100 20)].take 3)).bids_
        else (({} : OrderBook).run
        ([BookEvent.add (mk_add 1 'B' 100 50), BookEvent.add (mk_add 2 'B' 100 30),
          BookEvent.add (mk_add 1 'B' 100 20)].take 3)).asks_) 100 = some v ∧
      (({} : OrderBook).run
        ([BookEvent.add (mk_add 1 'B' 100 50), BookEvent.add (mk_add 2 'B' 100 30),
          BookEvent.add (mk_add 1 'B' 100 20)].take 3)).resting true 100 ≤ v :=
  levels_cover_resting
    [BookEvent.add (mk_add 1 'B' 100 50), BookEvent.add (mk_add 2 'B' 100 30),
     BookEvent.add (mk_add 1 'B' 100 20)] (by decide) 3 true 100
    ⟨2, Order.mk 2 55 100 30 'B', by decide, by decide, by decide⟩

/-! ## Latency stats: auxiliary facts -/

theorem bucket_of_eq (x : Nat) :
    bucket_of x =
      if x < 500 then 0 else if x < 1000 then 1 else if x < 2000 then 2
      else if x < 5000 then 3 else 4 := by
  simp only [bucket_of, bucket_bounds_, bucket_index]
  split_ifs <;> first | rfl | omega

theorem bucket_of_lt (x : Nat) : bucket_of x < 5 := by
  rw [bucket_of_eq]
  split_ifs <;> omega

/-- What `record` returns when it is defined, field by field. -/
theorem record_fields (s : LatencyStats) (x : Nat) (hc : s.max_samples_ ≠ 0)
    (hdef : s.samples_.length < s.max_samples_ ∨ s.next_index_ < s.samples_.length) :
    ∃ s', s.record x = some s' ∧ s'.max_samples_ = s.max_samples_ ∧
      s'.samples_ = (if s.samples_.length < s.max_samples_ then s.samples_ ++ [x]
        else s.samples_.set s.next_index_ x) ∧
      s'.next_index_ = (s.next_index_ + 1) % s.max_samples_ ∧
      s'.total_latency_ns_ = (s.total_latency_ns_ + x) % 18446744073709551616 ∧
      s'.total_samples_ = (s.total_samples_ + 1) % 18446744073709551616 ∧
      s'.min_ns_ = min s.min_ns_ x ∧ s'.max_ns_ = max s.max_ns_ x ∧
      s'.bucket_counts_ = s.bucket_counts_.set (bucket_of x)
        ((s.bucket_counts_.getD (bucket_of x) 0 + 1) % 18446744073709551616) := by
  unfold LatencyStats.record
  rw [if_neg hc]
  by_cases h1 : s.samples_.length < s.max_samples_
  · rw [if_pos h1]
    exact ⟨_, rfl, rfl, by rw [if_pos h1]; rfl, rfl, rfl, rfl, rfl, rfl, rfl⟩
  · have h2 : s.next_index_ < s.samples_.length := hdef.resolve_left h1
    rw [if_neg h1, if_pos h2]
    exact ⟨_, rfl, rfl, by rw [if_neg h1]; rfl, rfl, rfl, rfl, rfl, rfl, rfl⟩

theorem tracks_samples_length {c : Nat} {s : LatencyStats} {vals : List Nat}
    (h : s.tracks_samples c vals) : s.samples_.length = min vals.length c := by
  obtain ⟨_, _, h3⟩ := h
  rcases h3 with ⟨hlt, hs⟩ | ⟨hle, D, T, hs, hd, _⟩
  · rw [hs]; omega
  · have := congrArg List.length hd
    rw [List.length_drop, List.length_append] at this
    rw [hs, List.length_append]
    omega

theorem tracks_samples_defined {c : Nat} {s : LatencyStats} {vals : List Nat} (hc : 0 < c)
    (h : s.tracks_samples c vals) :
    s.max_samples_ ≠ 0 ∧
    (s.samples_.length < s.max_samples_ ∨ s.next_index_ < s.samples_.length) := by
  have hlen := tracks_samples_length h
  obtain ⟨h1, h2, _⟩ := h
  have hmod : vals.length % c < c := Nat.mod_lt _ hc
  refine ⟨by omega, ?_⟩
  by_cases hk : vals.length < c
  · left; omega
  · right; omega

theorem tracks_samples_step {c : Nat} {s s' : LatencyStats} {vals : List Nat} (x : Nat)
    (hc : 0 < c) (h : s.tracks_samples c vals) (hmax : s'.max_samples_ = s.max_samples_)
    (hsam : s'.samples_ = (if s.samples_.length < s.max_samples_ then s.samples_ ++ [x]
        else s.samples_.set s.next_index_ x))
    (hnext : s'.next_index_ = (s.next_index_ + 1) % s.max_samples_) :
    s'.tracks_samples c (vals ++ [x]) := by
  have hlen := tracks_samples_length h
  obtain ⟨h1, h2, h3⟩ := h
  have hmod : vals.length % c < c := Nat.mod_lt _ hc
  have hnext' : s'.next_index_ = (vals ++ [x]).length % c := by
    rw [hnext, h1, h2, List.length_append, List.length_singleton, Nat.mod_add_mod]
  refine ⟨by rw [hmax, h1], hnext', ?_⟩
  rw [List.length_append, List.length_singleton] at hnext' ⊢
  rcases h3 with ⟨hlt, hs⟩ | ⟨hle, D, T, hs, hd, hD⟩
  · rw [if_pos (by omega), hs] at hsam
    by_cases hk : vals.length + 1 < c
    · exact Or.inl ⟨hk, hsam⟩
    · right
      have hkc : vals.length + 1 = c := by omega
      refine ⟨by omega, [], vals ++ [x], by rw [hsam]; rfl, ?_, ?_⟩
      · rw [hkc, Nat.sub_self, List.drop_zero, List.append_nil]
      · rw [hnext', hkc, Nat.mod_self]
        rfl
  · right
    rw [if_neg (by omega), hs] at hsam
    have hTD := congrArg List.length hd
    rw [List.length_drop, List.length_append] at hTD
    have hrecent : (vals ++ [x]).drop (vals.length + 1 - c) =
        (T ++ D).drop 1 ++ [x] := by
      rw [List.drop_append_of_le_length (by omega), ← hd, List.drop_drop]
      congr 2
      omega
    cases T with
    | nil =>
      rw [List.length_nil] at hTD
      omega
    | cons t0 T' =>
      rw [List.length_cons] at hTD
      have hset : s'.samples_ = D ++ x :: T' := by
        rw [hsam, List.set_append_right _ _ (by omega), ← hD, Nat.sub_self]
        rfl
      have hrecent' : (vals ++ [x]).drop (vals.length + 1 - c) = T' ++ D ++ [x] := by
        rw [hrecent]
        rfl
      refine ⟨by omega, ?_⟩
      by_cases hk : s.next_index_ + 1 < c
      · refine ⟨D ++ [x], T', ?_, ?_, ?_⟩
        · rw [hset, List.append_assoc]
          rfl
        · rw [hrecent', List.append_assoc]
        · rw [List.length_append, List.length_singleton, hD, hnext, h1,
            Nat.mod_eq_of_lt hk]
      · have hT' : T' = [] := List.eq_nil_of_length_eq_zero (by omega)
        refine ⟨[], D ++ [x], ?_, ?_, ?_⟩
        · rw [hset, hT']
          rfl
        · rw [hrecent', hT']
          simp
        · have hkc : s.next_index_ + 1 = c := by omega
          rw [hnext, h1, hkc, Nat.mod_self]
          rfl

theorem bucket_tally_append (vals : List Nat) (x i : Nat) :
    bucket_tally (vals ++ [x]) i = bucket_tally vals i + if bucket_of x = i then 1 else 0 := by
  simp only [bucket_tally, List.countP_append, List.countP_singleton, decide_eq_true_eq]

theorem tracks_counts_step {s s' : LatencyStats} {vals : List Nat} (x : Nat)
    (h : s.tracks_counts vals)
    (hlat : s'.total_latency_ns_ = (s.total_latency_ns_ + x) % 18446744073709551616)
    (hcnt : s'.total_samples_ = (s.total_samples_ + 1) % 18446744073709551616)
    (hbuck : s'.bucket_counts_ = s.bucket_counts_.set (bucket_of x)
        ((s.bucket_counts_.getD (bucket_of x) 0 + 1) % 18446744073709551616)) :
    s'.tracks_counts (vals ++ [x]) := by
  obtain ⟨h1, h2, h3⟩ := h
  refine ⟨?_, ?_, ?_⟩
  · rw [hcnt, h1, List.length_append, List.length_singleton]
    omega
  · rw [hlat, h2, List.sum_append, List.sum_singleton]
    omega
  · rw [hbuck, h3]
    simp only [bucket_tally_append]
    have hb := bucket_of_lt x
    have hcases : bucket_of x = 0 ∨ bucket_of x = 1 ∨ bucket_of x = 2 ∨ bucket_of x = 3 ∨
        bucket_of x = 4 := by omega
    rcases hcases with h | h | h | h | h <;> rw [h] <;>
      simp only [List.set_cons_zero, List.set_cons_succ, List.getD_cons_zero,
        List.getD_cons_succ, if_true, Nat.add_zero, Nat.mod_add_mod, OfNat.ofNat_ne_zero,
        OfNat.zero_ne_ofNat, if_false, Nat.succ_ne_self, reduceCtorEq,
        (by decide : (0 : Nat) ≠ 1), (by decide : (1 : Nat) ≠ 0), (by decide : (1 : Nat) ≠ 2),
        (by decide : (2 : Nat) ≠ 1), (by decide : (1 : Nat) ≠ 3), (by decide : (3 : Nat) ≠ 1),
        (by decide : (1 : Nat) ≠ 4), (by decide : (4 : Nat) ≠ 1), (by decide : (2 : Nat) ≠ 3),
        (by decide : (3 : Nat) ≠ 2), (by decide : (2 : Nat) ≠ 4), (by decide : (4 : Nat) ≠ 2),
        (by decide : (3 : Nat) ≠ 4), (by decide : (4 : Nat) ≠ 3)]

theorem tracks_extremes_step {s s' : LatencyStats} {vals : List Nat} (x : Nat)
    (h : s.tracks_extremes vals) (hmin : s'.min_ns_ = min s.min_ns_ x)
    (hmax : s'.max_ns_ = max s.max_ns_ x) : s'.tracks_extremes (vals ++ [x]) := by
  obtain ⟨h1, h2⟩ := h
  constructor
  · right
    rw [hmax]
    rcases h1 with ⟨h0, hm⟩ | ⟨hm, hall⟩
    · rw [h0, hm, Nat.zero_max]
      simp
    · constructor
      · rw [List.mem_append, List.mem_singleton]
        rcases Nat.le_total s.max_ns_ x with hle | hle
        · right; exact Nat.max_eq_right hle
        · left; rw [Nat.max_eq_left hle]; exact hm
      · intro y hy
        rw [List.mem_append, List.mem_singleton] at hy
        rcases hy with hy | hy
        · exact Nat.le_trans (hall y hy) (Nat.le_max_left _ _)
        · rw [hy]; exact Nat.le_max_right _ _
  · intro hbound
    right
    rw [hmin]
    have hx : x < 18446744073709551616 := hbound x (by simp)
    rcases h2 (fun y hy => hbound y (List.mem_append_left _ hy)) with ⟨h0, hm⟩ | ⟨hm, hall⟩
    · rw [h0, hm, Nat.min_eq_right (by omega)]
      simp
    · constructor
      · rw [List.mem_append, List.mem_singleton]
        rcases Nat.le_total s.min_ns_ x with hle | hle
        · left; rw [Nat.min_eq_left hle]; exact hm
        · right; exact Nat.min_eq_right hle
      · intro y hy
        rw [List.mem_append, List.mem_singleton] at hy
        rcases hy with hy | hy
        · exact Nat.le_trans (Nat.min_le_left _ _) (hall y hy)
        · rw [hy]; exact Nat.min_le_right _ _

/-- What a defined `record` does to the counters, whatever the capacity. -/
theorem record_some_counts (s s' : LatencyStats) (x : Nat) (h : s.record x = some s') :
    s'.total_latency_ns_ = (s.total_latency_ns_ + x) % 18446744073709551616 ∧
    s'.total_samples_ = (s.total_samples_ + 1) % 18446744073709551616 ∧
    s'.bucket_counts_ = s.bucket_counts_.set (bucket_of x)
      ((s.bucket_counts_.getD (bucket_of x) 0 + 1) % 18446744073709551616) := by
  unfold LatencyStats.record at h
  by_cases h0 : s.max_samples_ = 0
  · rw [if_pos h0] at h
    cases h
  · rw [if_neg h0] at h
    by_cases h1 : s.samples_.length < s.max_samples_
    · rw [if_pos h1] at h
      cases h
      exact ⟨rfl, rfl, rfl⟩
    · rw [if_neg h1] at h
      by_cases h2 : s.next_index_ < s.samples_.length
      · rw [if_pos h2] at h
        cases h
        exact ⟨rfl, rfl, rfl⟩
      · rw [if_neg h2] at h
        cases h

/-- The counters follow the recorded values along every defined run, whatever
the capacity. -/
theorem tracks_counts_run (ops : List StatsOp) :
    ∀ (s s' : LatencyStats) (vals : List Nat), s.tracks_counts vals → s.run ops = some s' →
      s'.tracks_counts (recorded_since_reset vals ops) := by
  induction ops with
  | nil =>
    intro s s' vals h hrun
    cases hrun
    exact h
  | cons op rest ih =>
    intro s s' vals h hrun
    cases op with
    | record x =>
      simp only [LatencyStats.run, LatencyStats.apply] at hrun
      cases hrec : s.record x with
      | none => rw [hrec] at hrun; cases hrun
      | some s1 =>
        rw [hrec] at hrun
        obtain ⟨f1, f2, f3⟩ := record_some_counts s s1 x hrec
        exact ih s1 s' (vals ++ [x]) (tracks_counts_step x h f1 f2 f3) hrun
    | reset =>
      simp only [LatencyStats.run, LatencyStats.apply] at hrun
      exact ih s.reset s' [] ⟨rfl, rfl, rfl⟩ hrun

theorem tracks_new (c : Nat) (hc : 0 < c) : (LatencyStats.new c).tracks c [] :=
  ⟨⟨rfl, (Nat.zero_mod c).symm, Or.inl ⟨hc, rfl⟩⟩, ⟨rfl, rfl, rfl⟩,
    ⟨Or.inl ⟨rfl, rfl⟩, fun _ => Or.inl ⟨rfl, rfl⟩⟩⟩

theorem tracks_reset {c : Nat} {s : LatencyStats} {vals : List Nat} (hc : 0 < c)
    (h : s.tracks c vals) : s.reset.tracks c [] :=
  ⟨⟨h.1.1, (Nat.zero_mod c).symm, Or.inl ⟨hc, rfl⟩⟩, ⟨rfl, rfl, rfl⟩,
    ⟨Or.inl ⟨rfl, rfl⟩, fun _ => Or.inl ⟨rfl, rfl⟩⟩⟩

theorem tracks_record {c : Nat} {s : LatencyStats} {vals : List Nat} (x : Nat) (hc : 0 < c)
    (h : s.tracks c vals) : ∃ s', s.record x = some s' ∧ s'.tracks c (vals ++ [x]) := by
  obtain ⟨hs, hcnt, hext⟩ := h
  obtain ⟨hne, hdef⟩ := tracks_samples_defined hc hs
  obtain ⟨s', hrec, f1, f2, f3, f4, f5, f6, f7, f8⟩ := record_fields s x hne hdef
  exact ⟨s', hrec, tracks_samples_step x hc hs f1 f2 f3, tracks_counts_step x hcnt f4 f5 f8,
    tracks_extremes_step x hext f6 f7⟩

theorem tracks_run {c : Nat} (hc : 0 < c) (ops : List StatsOp) :
    ∀ (s : LatencyStats) (vals : List Nat), s.tracks c vals →
      ∃ s', s.run ops = some s' ∧ s'.tracks c (recorded_since_reset vals ops) := by
  induction ops with
  | nil => intro s vals h; exact ⟨s, rfl, h⟩
  | cons op rest ih =>
    intro s vals h
    cases op with
    | record x =>
      obtain ⟨s1, h1, ht⟩ := tracks_record x hc h
      obtain ⟨s2, h2, ht2⟩ := ih s1 (vals ++ [x]) ht
      refine ⟨s2, ?_, ht2⟩
      simp only [LatencyStats.run, LatencyStats.apply, h1]
      exact h2
    | reset =>
      obtain ⟨s2, h2, ht2⟩ := ih s.reset [] (tracks_reset hc h)
      refine ⟨s2, ?_, ht2⟩
      simp only [LatencyStats.run, LatencyStats.apply]
      exact h2

theorem bucket_tally_sum (vals : List Nat) :
    bucket_tally vals 0 + bucket_tally vals 1 + bucket_tally vals 2 + bucket_tally vals 3 +
      bucket_tally vals 4 = vals.length := by
  induction vals with
  | nil => rfl
  | cons x rest ih =>
    have hb := bucket_of_lt x
    simp only [bucket_tally, List.countP_cons, decide_eq_true_eq, List.length_cons] at ih ⊢
    have hcases : bucket_of x = 0 ∨ bucket_of x = 1 ∨ bucket_of x = 2 ∨ bucket_of x = 3 ∨
        bucket_of x = 4 := by omega
    rcases hcases with h | h | h | h | h <;> rw [h] <;> simp <;> omega

theorem bucket_tally_le (vals : List Nat) (i : Nat) : bucket_tally vals i ≤ vals.length :=
  List.countP_le_length _

theorem mem_le_sum (vals : List Nat) (x : Nat) (h : x ∈ vals) : x ≤ vals.sum := by
  induction vals with
  | nil => simp at h
  | cons y rest ih =>
    rw [List.sum_cons]
    rw [List.mem_cons] at h
    rcases h with h | h
    · omega
    · have := ih h
      omega

/-- The snapshot of a tracked state with no recorded call, or with a call
count that is 0 modulo `2^64`, is the value-initialised snapshot. -/
theorem snapshot_of_zero {c : Nat} {s : LatencyStats} {vals : List Nat}
    (h : s.tracks c vals) (hk : vals.length % 18446744073709551616 = 0)
    (scale : Nat → Nat → Nat) : s.snapshot scale = some {} := by
  unfold LatencyStats.snapshot
  simp only [h.2.1.1, hk, Nat.zero_min, if_true]

/-- The snapshot of a tracked state after `1 <= k < 2^64` recorded calls. -/
theorem snapshot_of_pos {c : Nat} {s : LatencyStats} {vals : List Nat} (hc : 0 < c)
    (h : s.tracks c vals) (hk1 : 0 < vals.length) (hk : vals.length < 18446744073709551616)
    (scale : Nat → Nat → Nat) :
    ∃ snap, s.snapshot scale = some snap ∧ snap.sample_count = min vals.length c ∧
      snap.avg_ns = s.total_latency_ns_ / vals.length ∧ snap.min_ns = s.min_ns_ ∧
      snap.max_ns = s.max_ns_ ∧ snap.histogram = s.bucket_counts_ := by
  have hlen := tracks_samples_length h.1
  have hmax := h.1.1
  have hcnt : s.total_samples_ = vals.length := by
    rw [h.2.1.1, Nat.mod_eq_of_lt hk]
  unfold LatencyStats.snapshot
  simp only [hcnt, hmax]
  rw [if_neg (by omega)]
  have hsorted : ¬ ((s.samples_.take (min s.samples_.length (min vals.length c))).insertionSort
      (fun a b => a ≤ b)).length = 0 := by
    rw [List.length_insertionSort, List.length_take]
    omega
  rw [if_neg hsorted]
  exact ⟨_, rfl, rfl, rfl, rfl, rfl, rfl⟩

theorem tracks_counts_buckets {s : LatencyStats} {vals : List Nat} (h : s.tracks_counts vals)
    (hk : vals.length < 18446744073709551616) :
    s.bucket_counts_ = [bucket_tally vals 0, bucket_tally vals 1, bucket_tally vals 2,
      bucket_tally vals 3, bucket_tally vals 4] := by
  have h0 := bucket_tally_le vals 0
  have h1 := bucket_tally_le vals 1
  have h2 := bucket_tally_le vals 2
  have h3 := bucket_tally_le vals 3
  have h4 := bucket_tally_le vals 4
  rw [h.2.2, Nat.mod_eq_of_lt (by omega), Nat.mod_eq_of_lt (by omega),
    Nat.mod_eq_of_lt (by omega), Nat.mod_eq_of_lt (by omega), Nat.mod_eq_of_lt (by omega)]

/-! ## Latency stats: main results -/

/-- C22: for a `LatencyStats` with capacity at least 1 and any sequence of
`record` and `reset` calls (a run of the program, with fewer than `2^64`
`record` calls since the last reset or since construction), every call is
defined and the sum of the five histogram bucket counts returned by
`snapshot()` equals the number of `record` calls made since the last reset. -/
theorem histogram_sum (c : Nat) (hc : 1 ≤ c) (ops : List StatsOp) (scale : Nat → Nat → Nat)
    (hk : (recorded_since_reset [] ops).length < 18446744073709551616) :
    ∃ s snap, (LatencyStats.new c).run ops = some s ∧ s.snapshot scale = some snap ∧
      snap.histogram.length = 5 ∧
      snap.histogram.sum = (recorded_since_reset [] ops).length := by
  obtain ⟨s, hrun, ht⟩ := tracks_run hc ops (LatencyStats.new c) [] (tracks_new c hc)
  by_cases h0 : (recorded_since_reset [] ops).length = 0
  · refine ⟨s, {}, hrun, snapshot_of_zero ht (by rw [h0]) scale, rfl, ?_⟩
    rw [h0]
    rfl
  · obtain ⟨snap, hsnap, _, _, _, _, hhist⟩ := snapshot_of_pos hc ht (by omega) hk scale
    refine ⟨s, snap, hrun, hsnap, ?_, ?_⟩
    · rw [hhist, tracks_counts_buckets ht.2.1 hk]
      rfl
    · rw [hhist, tracks_counts_buckets ht.2.1 hk]
      have := bucket_tally_sum (recorded_since_reset [] ops)
      simp only [List.sum_cons, List.sum_nil]
      omega

/-- C22 (witness): capacity 3, two records, a reset and three records, one
per bucket 0, 1 and 4: the bucket counts of the snapshot sum to 3. -/
theorem histogram_sum_witness :
    ∃ s snap, (LatencyStats.new 3).run [StatsOp.record 10, StatsOp.record 20, StatsOp.reset,
        StatsOp.record 100, StatsOp.record 600, StatsOp.record 7000] = some s ∧
      s.snapshot exact_scale = some snap ∧ snap.histogram.length = 5 ∧
      snap.histogram.sum = (recorded_since_reset [] [StatsOp.record 10, StatsOp.record 20,
        StatsOp.reset, StatsOp.record 100, StatsOp.record 600, StatsOp.record 7000]).length :=
  histogram_sum 3 (by decide) [StatsOp.record 10, StatsOp.record 20, StatsOp.reset,
    StatsOp.record 100, StatsOp.record 600, StatsOp.record 7000] exact_scale (by decide)

/-- C23: in every state of a `LatencyStats` reached from construction by
`record` and `reset` calls (with fewer than `2^64 - 1` records since the last
reset), for every latency value `x`, the bucket update of `record(x)`
(`bucket_for`) increments exactly one of the five histogram buckets by one and
leaves the other four unchanged: bucket 0 when `x < 500`, bucket 1 when
`500 <= x < 1000`, bucket 2 when `1000 <= x < 2000`, bucket 3 when
`2000 <= x < 5000`, bucket 4 when `x >= 5000`; the bucket counts after
`record(x)` are those after `bucket_for(x)`, and `record(x)` is defined when
the capacity is at least 1. -/
theorem record_bucket (c : Nat) (ops : List StatsOp) (s : LatencyStats) (x : Nat)
    (hrun : (LatencyStats.new c).run ops = some s)
    (hk : (recorded_since_reset [] ops).length < 18446744073709551615) :
    s.bucket_counts_.length = 5 ∧
    bucket_of x = (if x < 500 then 0 else if x < 1000 then 1 else if x < 2000 then 2
      else if x < 5000 then 3 else 4) ∧
    (s.bucket_for x).bucket_counts_.length = 5 ∧
    (s.bucket_for x).bucket_counts_.getD (bucket_of x) 0 =
      s.bucket_counts_.getD (bucket_of x) 0 + 1 ∧
    (∀ j, j ≠ bucket_of x →
      (s.bucket_for x).bucket_counts_.getD j 0 = s.bucket_counts_.getD j 0) ∧
    (∀ s', s.record x = some s' → s'.bucket_counts_ = (s.bucket_for x).bucket_counts_) ∧
    (1 ≤ c → ∃ s', s.record x = some s') := by
  have hcnt := tracks_counts_run ops (LatencyStats.new c) s [] ⟨rfl, rfl, rfl⟩ hrun
  have hbuck := tracks_counts_buckets hcnt (by omega)
  have hlen : s.bucket_counts_.length = 5 := by rw [hbuck]; rfl
  have hb := bucket_of_lt x
  have hfor : (s.bucket_for x).bucket_counts_ = s.bucket_counts_.set (bucket_of x)
      ((s.bucket_counts_.getD (bucket_of x) 0 + 1) % 18446744073709551616) := rfl
  have hle : s.bucket_counts_.getD (bucket_of x) 0 ≤ (recorded_since_reset [] ops).length := by
    have h0 := bucket_tally_le (recorded_since_reset [] ops) 0
    have h1 := bucket_tally_le (recorded_since_reset [] ops) 1
    have h2 := bucket_tally_le (recorded_since_reset [] ops) 2
    have h3 := bucket_tally_le (recorded_since_reset [] ops) 3
    have h4 := bucket_tally_le (recorded_since_reset [] ops) 4
    have hcases : bucket_of x = 0 ∨ bucket_of x = 1 ∨ bucket_of x = 2 ∨ bucket_of x = 3 ∨
        bucket_of x = 4 := by omega
    rw [hbuck]
    rcases hcases with h | h | h | h | h <;> rw [h] <;> assumption
  refine ⟨hlen, bucket_of_eq x, by rw [hfor, List.length_set, hlen], ?_, fun j hj => ?_,
    fun s' hrec => ?_, fun hc => ?_⟩
  · rw [hfor, List.getD_eq_getElem?_getD, List.getElem?_set_self (by omega)]
    show (s.bucket_counts_.getD (bucket_of x) 0 + 1) % 18446744073709551616 =
      s.bucket_counts_.getD (bucket_of x) 0 + 1
    exact Nat.mod_eq_of_lt (by omega)
  · rw [hfor, List.getD_eq_getElem?_getD, List.getElem?_set_ne (Ne.symm hj),
      ← List.getD_eq_getElem?_getD]
  · rw [hfor]
    exact (record_some_counts s s' x hrec).2.2
  · obtain ⟨s1, hrun1, ht⟩ := tracks_run hc ops (LatencyStats.new c) [] (tracks_new c hc)
    rw [hrun] at hrun1
    cases hrun1
    obtain ⟨hne, hdef⟩ := tracks_samples_defined hc ht.1
    obtain ⟨s', hrec, _⟩ := record_fields s x hne hdef
    exact ⟨s', hrec⟩

/-- C23 (witness): with capacity 3 and the value 100 recorded (bucket 0), the
boundary value 500 goes to bucket 1, whose count goes from 0 to 1 while the
other four keep their counts, and `record(500)` is defined. -/
theorem record_bucket_witness :
    (LatencyStats.mk 3 [100] 1 100 1 100 100 [1, 0, 0, 0, 0]).bucket_counts_.length = 5 ∧
    bucket_of 500 = (if 500 < 500 then 0 else if 500 < 1000 then 1 else if 500 < 2000 then 2
      else if 500 < 5000 then 3 else 4) ∧
    ((LatencyStats.mk 3 [100] 1 100 1 100 100 [1, 0, 0, 0, 0]).bucket_for
      500).bucket_counts_.length = 5 ∧
    ((LatencyStats.mk 3 [100] 1 100 1 100 100 [1, 0, 0, 0, 0]).bucket_for
      500).bucket_counts_.getD (bucket_of 500) 0 =
      (LatencyStats.mk 3 [100] 1 100 1 100 100 [1, 0, 0, 0, 0]).bucket_counts_.getD
        (bucket_of 500) 0 + 1 ∧
    (∀ j, j ≠ bucket_of 500 →
      ((LatencyStats.mk 3 [100] 1 100 1 100 100 [1, 0, 0, 0, 0]).bucket_for
        500).bucket_counts_.getD j 0 =
      (LatencyStats.mk 3 [100] 1 100 1 100 100 [1, 0, 0, 0, 0]).bucket_counts_.getD j 0) ∧
    (∀ s', (LatencyStats.mk 3 [100] 1 100 1 100 100 [1, 0, 0, 0, 0]).record 500 = some s' →
      s'.bucket_counts_ =
        ((LatencyStats.mk 3 [100] 1 100 1 100 100 [1, 0, 0, 0, 0]).bucket_for
          500).bucket_counts_) ∧
    (1 ≤ 3 → ∃ s', (LatencyStats.mk 3 [100] 1 100 1 100 100 [1, 0, 0, 0, 0]).record 500 =
      some s') :=
  record_bucket 3 [StatsOp.record 100] (LatencyStats.mk 3 [100] 1 100 1 100 100 [1, 0, 0, 0, 0])
    500 (by decide) (by decide)

/-- C24: for a `LatencyStats` with capacity `c >= 1` on which `k >= 1` values
have been recorded since construction or the last reset (a run of the
program, `k < 2^64`), with their sum below `2^64`, `snapshot()` returns
`sample_count = min(k, c)`, `avg_ns = floor(sum / k)`, `min_ns` the minimum and
`max_ns` the maximum of all `k` values, and as histogram a copy of the bucket
counts, which are the numbers of recorded values per bucket. -/
theorem snapshot_summary (c : Nat) (hc : 1 ≤ c) (ops : List StatsOp)
    (scale : Nat → Nat → Nat) (hk1 : 1 ≤ (recorded_since_reset [] ops).length)
    (hk : (recorded_since_reset [] ops).length < 18446744073709551616)
    (hsum : (recorded_since_reset [] ops).sum < 18446744073709551616) :
    ∃ s snap, (LatencyStats.new c).run ops = some s ∧ s.snapshot scale = some snap ∧
      snap.sample_count = min (recorded_since_reset [] ops).length c ∧
      snap.avg_ns = (recorded_since_reset [] ops).sum / (recorded_since_reset [] ops).length ∧
      snap.min_ns ∈ recorded_since_reset [] ops ∧
      (∀ x ∈ recorded_since_reset [] ops, snap.min_ns ≤ x) ∧
      snap.max_ns ∈ recorded_since_reset [] ops ∧
      (∀ x ∈ recorded_since_reset [] ops, x ≤ snap.max_ns) ∧
      snap.histogram = s.bucket_counts_ ∧
      snap.histogram =
        [bucket_tally (recorded_since_reset [] ops) 0,
         bucket_tally (recorded_since_reset [] ops) 1,
         bucket_tally (recorded_since_reset [] ops) 2,
         bucket_tally (recorded_since_reset [] ops) 3,
         bucket_tally (recorded_since_reset [] ops) 4] := by
  obtain ⟨s, hrun, ht⟩ := tracks_run hc ops (LatencyStats.new c) [] (tracks_new c hc)
  obtain ⟨snap, hsnap, h1, h2, h3, h4, h5⟩ := snapshot_of_pos hc ht hk1 hk scale
  have hne : recorded_since_reset [] ops ≠ [] := by
    intro h0
    rw [h0] at hk1
    exact absurd hk1 (by decide)
  have hbound : ∀ x ∈ recorded_since_reset [] ops, x < 18446744073709551616 :=
    fun x hx => Nat.lt_of_le_of_lt (mem_le_sum _ x hx) hsum
  obtain ⟨hmaxp, hminp⟩ := ht.2.2
  have hminp := hminp hbound
  have hmax : s.max_ns_ ∈ recorded_since_reset [] ops ∧
      ∀ x ∈ recorded_since_reset [] ops, x ≤ s.max_ns_ := by
    rcases hmaxp with ⟨h0, _⟩ | h
    · exact absurd h0 hne
    · exact h
  have hmin : s.min_ns_ ∈ recorded_since_reset [] ops ∧
      ∀ x ∈ recorded_since_reset [] ops, s.min_ns_ ≤ x := by
    rcases hminp with ⟨h0, _⟩ | h
    · exact absurd h0 hne
    · exact h
  refine ⟨s, snap, hrun, hsnap, h1, ?_, ?_, ?_, ?_, ?_, h5, ?_⟩
  · rw [h2, ht.2.1.2.1, Nat.mod_eq_of_lt hsum]
  · rw [h3]; exact hmin.1
  · rw [h3]; exact hmin.2
  · rw [h4]; exact hmax.1
  · rw [h4]; exact hmax.2
  · rw [h5]; exact tracks_counts_buckets ht.2.1 hk

/-- C24 (witness): capacity 3 and the values 100, 600, 7000, 5000: the
snapshot has `sample_count = 3`, `avg_ns = 3175`, minimum 100, maximum 7000
and histogram 1, 1, 0, 0, 2. -/
theorem snapshot_summary_witness :
    ((LatencyStats.new 3).run [StatsOp.record 100, StatsOp.record 600, StatsOp.record 7000,
      StatsOp.record 5000]).bind (fun s => s.snapshot exact_scale) =
      some { sample_count := 3, avg_ns := 3175, min_ns := 100, max_ns := 7000,
             p50_ns := 5000, p95_ns := 7000, p99_ns := 7000, p999_ns := 7000,
             histogram := [1, 1, 0, 0, 2] } ∧
    ∃ s snap, (LatencyStats.new 3).run [StatsOp.record 100, StatsOp.record 600,
        StatsOp.record 7000, StatsOp.record 5000] = some s ∧
      s.snapshot exact_scale = some snap ∧ snap.sample_count = min 4 3 ∧
      snap.avg_ns = (100 + 600 + 7000 + 5000) / 4 :=
  ⟨by decide,
   match snapshot_summary 3 (by decide) [StatsOp.record 100, StatsOp.record 600,
      StatsOp.record 7000, StatsOp.record 5000] exact_scale (by decide) (by decide)
      (by decide) with
   | ⟨s, snap, h1, h2, h3, h4, _⟩ => ⟨s, snap, h1, h2, h3, h4⟩⟩

/-- C25: for a `LatencyStats` with capacity `c >= 1`, after `k` record calls
since construction or the last reset, every call was defined, the stored
sample vector has exactly `min(k, c)` entries and is a permutation of the most
recent `min(k, c)` recorded values, the rotating index equals `k mod c`, and
once full (`k >= c`) the slot at the rotating index, the one the next record
overwrites, holds the oldest of those values. -/
theorem samples_most_recent (c : Nat) (hc : 1 ≤ c) (ops : List StatsOp) :
    ∃ s, (LatencyStats.new c).run ops = some s ∧
      s.samples_.length = min (recorded_since_reset [] ops).length c ∧
      s.samples_.Perm ((recorded_since_reset [] ops).drop
        ((recorded_since_reset [] ops).length - min (recorded_since_reset [] ops).length c)) ∧
      s.next_index_ = (recorded_since_reset [] ops).length % c ∧
      (c ≤ (recorded_since_reset [] ops).length →
        s.samples_[s.next_index_]? =
          (recorded_since_reset [] ops)[(recorded_since_reset [] ops).length - c]?) := by
  obtain ⟨s, hrun, ht⟩ := tracks_run hc ops (LatencyStats.new c) [] (tracks_new c hc)
  have hlen := tracks_samples_length ht.1
  obtain ⟨_, hnext, hreg⟩ := ht.1
  have hmod : (recorded_since_reset [] ops).length % c < c := Nat.mod_lt _ hc
  refine ⟨s, hrun, hlen, ?_, hnext, ?_⟩
  · rcases hreg with ⟨hlt, hs⟩ | ⟨hle, D, T, hs, hd, _⟩
    · rw [hs, Nat.min_eq_left (Nat.le_of_lt hlt), Nat.sub_self, List.drop_zero]
    · rw [hs, Nat.min_eq_right hle, hd]
      exact List.perm_append_comm
  · intro hle
    rcases hreg with ⟨hlt, _⟩ | ⟨_, D, T, hs, hd, hD⟩
    · omega
    · have hTD := congrArg List.length hd
      rw [List.length_drop, List.length_append] at hTD
      have hT : 0 < T.length := by omega
      have h1 : s.samples_[s.next_index_]? = T[0]? := by
        rw [hs, ← hD, List.getElem?_append_right (Nat.le_refl _), Nat.sub_self]
      have h2 : (recorded_since_reset [] ops)[(recorded_since_reset [] ops).length - c]? =
          T[0]? := by
        have := List.getElem?_drop (recorded_since_reset [] ops)
          ((recorded_since_reset [] ops).length - c) 0
        rw [Nat.add_zero] at this
        rw [← this, hd, List.getElem?_append_left hT]
      rw [h1, h2]

/-- C25 (witness): capacity 3 and the values 100, 600, 7000, 5000, 499: the
store holds 5000, 499, 7000, a permutation of the last three values, and the
rotating index is `5 mod 3 = 2`. -/
theorem samples_most_recent_witness :
    ((LatencyStats.new 3).run [StatsOp.record 100, StatsOp.record 600, StatsOp.record 7000,
      StatsOp.record 5000, StatsOp.record 499]).map (fun s => (s.samples_, s.next_index_)) =
      some ([5000, 499, 7000], 2) ∧
    ∃ s, (LatencyStats.new 3).run [StatsOp.record 100, StatsOp.record 600,
        StatsOp.record 7000, StatsOp.record 5000, StatsOp.record 499] = some s ∧
      s.samples_.length = min 5 3 ∧ s.next_index_ = 5 % 3 :=
  ⟨by decide,
   match samples_most_recent 3 (by decide) [StatsOp.record 100, StatsOp.record 600,
      StatsOp.record 7000, StatsOp.record 5000, StatsOp.record 499] with
   | ⟨s, h1, h2, _, h4, _⟩ => ⟨s, h1, h2, h4⟩⟩

end market
